import Mathlib

/-! Verification of the RSA engine of `Cryptography/PW7/rsa_main.cpp`.

A shallow embedding of the number-theory module, the key assembly, the padding codec and
the block cipher engine, followed by the properties established about them.

Conventions of the embedding:

* `BigInt` (boost `cpp_int`, signed, unbounded) is `Int`.  C++ `%` and `/` on it truncate
  towards zero, hence `Int.tmod` and `Int.tdiv`.  Right shifts and masks are only applied to
  values that are never negative and are written with `/` and `%` by a power of two.
* a byte (`uint8_t`) is `Fin 256`; `static_cast<uint8_t>` is reduction modulo 256.
* `size_t` quantities are lengths of in-memory vectors and are kept as `Nat`.
* exceptions are values of `Error` carried by `Except`.
* the process-wide generator `gen` with `dist64` is a stream `Nat → Nat` of draws together
  with the index of the next draw; every draw is reduced modulo `2 ^ 64`.
-/

namespace RSA

/-- The ways in which the engine fails.  The first four are the `runtime_error`s thrown by
the source; `DivisionByZero` stands for a remainder by zero (an exception of the big-integer
library, or undefined behaviour on `size_t`), `MsbDomain` for `msb` of a non-positive value,
`NegativeShift` for a big-integer shift by a negative amount. -/
inductive Error where
  | NoInverse
  | InvalidPadding
  | BlockTooLarge
  | MisalignedCiphertext
  | DivisionByZero
  | MsbDomain
  | NegativeShift
  deriving DecidableEq, Repr

abbrev Byte := Fin 256

/-- The `while (exp > 0)` loop of `mod_pow` (lines 23-28), on the triple
`(result, base, exp)`. -/
def mod_pow_loop (mod : Int) (result base exp : Int) : Int :=
  if h : 0 < exp then
    mod_pow_loop mod
      (if exp.tmod 2 = 1 then (result * base).tmod mod else result)
      ((base * base).tmod mod)
      (exp / 2)
  else
    result
termination_by exp.toNat
decreasing_by omega

/-- Square-and-multiply `mod_pow` (lines 20-30).  `base %= mod` raises when `mod` is zero. -/
def mod_pow (base exp mod : Int) : Except Error Int :=
  if mod = 0 then
    .error .DivisionByZero
  else
    .ok (mod_pow_loop mod 1 (base.tmod mod) exp)

/-- Recursive `extended_gcd` (lines 69-79); the result is `(gcd, x, y)`. -/
def extended_gcd (a b : Int) : Int × Int × Int :=
  if a = 0 then
    (b, 0, 1)
  else
    let r := extended_gcd (b.tmod a) a
    (r.1, r.2.2 - (b.tdiv a) * r.2.1, r.2.1)
termination_by a.natAbs
decreasing_by
  have h1 : (b.tmod a).natAbs = b.natAbs % a.natAbs := by
    rcases b with m | m <;> rcases a with n | n <;> simp [Int.tmod, Int.natAbs_neg] <;> rfl
  rw [h1]
  exact Nat.mod_lt _ (Int.natAbs_pos.mpr (by assumption))

/-- Modular inverse `mod_inverse` (lines 82-88).  The final normalisation takes remainders
by `phi`, which raises when `phi` is zero. -/
def mod_inverse (e phi : Int) : Except Error Int :=
  let r := extended_gcd e phi
  if r.1 ≠ 1 then
    .error .NoInverse
  else if phi = 0 then
    .error .DivisionByZero
  else
    .ok ((r.2.1.tmod phi + phi).tmod phi)

/-- One draw `dist64(gen)`: the word at index `pos` of the stream, as a 64-bit value. -/
def dist64 (gen : Nat → Nat) (pos : Nat) : Nat :=
  gen pos % 2 ^ 64

/-- The base drawn at line 39, `a = 2 + dist64(gen) % (n - 3)`, for the draw at index
`pos`. -/
def fermat_base (n : Int) (gen : Nat → Nat) (pos : Nat) : Int :=
  2 + (dist64 gen pos : Int).tmod (n - 3)

/-- The `for (int i = 0; i < k; ++i)` loop of `is_prime` (lines 38-42), by the number of
rounds still to run; `pos` is the index of the next draw.  The remainder by `n - 3` raises
when `n = 3`.  The result carries the index reached. -/
def is_prime_loop (n : Int) (gen : Nat → Nat) : Nat → Nat → Except Error (Bool × Nat)
  | 0, pos => .ok (true, pos)
  | rounds + 1, pos =>
    if n - 3 = 0 then
      .error .DivisionByZero
    else
      match mod_pow (fermat_base n gen pos) (n - 1) n with
      | .error err => .error err
      | .ok r =>
        if r ≠ 1 then .ok (false, pos + 1)
        else is_prime_loop n gen rounds (pos + 1)

/-- Fermat test `is_prime` (lines 33-44); `k` is a C++ `int`, a negative `k` runs no round. -/
def is_prime (n : Int) (k : Int) (gen : Nat → Nat) (pos : Nat) : Except Error (Bool × Nat) :=
  if n ≤ 1 then .ok (false, pos)
  else if n = 2 then .ok (true, pos)
  else if n.tmod 2 = 0 then .ok (false, pos)
  else is_prime_loop n gen k.toNat pos

/-- The fallback scan `for (BigInt i = 3; i < phi; i += 2)` of `generate_keypair`
(lines 102-107): the first `i` with `gcd(i, phi) = 1`, if the scan meets one. -/
def select_exponent_scan (phi : Int) (i : Int) : Option Int :=
  if h : i < phi then
    if Int.gcd i phi = 1 then some i
    else select_exponent_scan phi (i + 2)
  else
    none
termination_by (phi - i).toNat
decreasing_by omega

/-- The public exponent chosen at lines 100-108: `65537`, replaced by the result of the scan
when `gcd(65537, phi) ≠ 1` and the scan meets a coprime value. -/
def select_exponent (phi : Int) : Int :=
  if Int.gcd 65537 phi ≠ 1 then
    match select_exponent_scan phi 3 with
    | some i => i
    | none => 65537
  else
    65537

/-- Key assembly of `generate_keypair` (lines 97-111) from the two primes `p` and `q` drawn
at lines 92-95; the result is `((e, n), (d, n))`. -/
def generate_keypair_assemble (p q : Int) :
    Except Error ((Int × Int) × (Int × Int)) :=
  let n := p * q
  let phi := (p - 1) * (q - 1)
  let e := select_exponent phi
  match mod_inverse e phi with
  | .error err => .error err
  | .ok d => .ok ((e, n), (d, n))

/-- PKCS#7 `add_padding` (lines 115-120).  `data.size() % block_size` is undefined for a
zero `block_size`; the pad byte is `static_cast<uint8_t>(pad_len)`. -/
def add_padding (data : List Byte) (block_size : Nat) : Except Error (List Byte) :=
  if block_size = 0 then
    .error .DivisionByZero
  else
    let pad_len := block_size - data.length % block_size
    .ok (data ++ List.replicate pad_len (Fin.ofNat pad_len))

/-- The checking loop of `remove_padding` (lines 128-131), by the number of positions still
to visit, from index `i`; `false` when some visited byte differs from `pad_len`. -/
def remove_padding_check (data : List Byte) (pad_len : Byte) : Nat → Nat → Bool
  | 0, _ => true
  | steps + 1, i =>
    if data.getD i 0 ≠ pad_len then false
    else remove_padding_check data pad_len steps (i + 1)

/-- Unpadding `remove_padding` (lines 123-133). -/
def remove_padding (data : List Byte) : Except Error (List Byte) :=
  if data.isEmpty then .ok data
  else
    let pad_len : Byte := data.getLastD 0
    if pad_len.val = 0 ∨ pad_len.val > data.length then
      .error .InvalidPadding
    else if remove_padding_check data pad_len pad_len.val (data.length - pad_len.val) then
      .ok (data.take (data.length - pad_len.val))
    else
      .error .InvalidPadding

/-- Block encryption `encrypt_block` (lines 136-139). -/
def encrypt_block (m e n : Int) : Except Error Int :=
  if m ≥ n then .error .BlockTooLarge
  else mod_pow m e n

/-- Block decryption `decrypt_block` (lines 142-145). -/
def decrypt_block (c d n : Int) : Except Error Int :=
  if c ≥ n then .error .BlockTooLarge
  else mod_pow c d n

/-- Index of the most significant set bit, `boost::multiprecision::msb`, which raises on a
value that is not positive. -/
def msb (n : Int) : Except Error Nat :=
  if n ≤ 0 then .error .MsbDomain
  else .ok (Nat.log2 n.toNat)

/-- Big-endian decoding of `width` bytes of `data` from index `i` (lines 165-167 and
177-179): `m = (m << 8) + data[i + j]` for `j = 0 .. width - 1`. -/
def decode_block (data : List Byte) (i width : Nat) : Int :=
  (List.range width).foldl (fun m j => m * 256 + ((data.getD (i + j) 0).val : Int)) 0

/-- Big-endian encoding of `c` on `cipher_size` bytes (lines 169-170): the bytes
`(c >> (8 * i)) & 0xFF` for `i = cipher_size - 1` down to `0`. -/
def encode_cipher (c : Int) (cipher_size : Nat) : List Byte :=
  ((List.range cipher_size).reverse).map
    (fun i => Fin.ofNat ((c / 2 ^ (8 * i)) % 256).toNat)

/-- Big-endian encoding of `m` on `block_size` bytes (lines 181-185): from the last index
down, `block[j] = m & 0xFF` and then `m >>= 8`; `acc` is the part of the block already
written. -/
def encode_plain (m : Int) : Nat → List Byte → List Byte
  | 0, acc => acc
  | j + 1, acc => encode_plain (m / 256) j (Fin.ofNat (m % 256).toNat :: acc)

/-- The block loop of the encrypt branch (lines 164-171), by the number of blocks still to
process, from index `i`, appending to `result`. -/
def encrypt_loop (data : List Byte) (block_size cipher_size : Nat) (exp n : Int) :
    Nat → Nat → List Byte → Except Error (List Byte)
  | 0, _, result => .ok result
  | blocks + 1, i, result =>
    match encrypt_block (decode_block data i block_size) exp n with
    | .error err => .error err
    | .ok c =>
      encrypt_loop data block_size cipher_size exp n blocks (i + block_size)
        (result ++ encode_cipher c cipher_size)

/-- The block loop of the decrypt branch (lines 176-187), by the number of blocks still to
process, from index `i`, appending to `temp`. -/
def decrypt_loop (data : List Byte) (block_size cipher_size : Nat) (exp n : Int) :
    Nat → Nat → List Byte → Except Error (List Byte)
  | 0, _, temp => .ok temp
  | blocks + 1, i, temp =>
    match decrypt_block (decode_block data i cipher_size) exp n with
    | .error err => .error err
    | .ok m =>
      decrypt_loop data block_size cipher_size exp n blocks (i + cipher_size)
        (temp ++ encode_plain m block_size [])

/-- Number of iterations of `for (size_t i = 0; i < size; i += step)` for a positive
`step`. -/
def block_count (size step : Nat) : Nat :=
  (size + step - 1) / step

/-- The body of `process_file` (lines 148-192) on the bytes of the input file; the result is
the content written to the output file.  `key` is `(exp, n)`. -/
def process_file (data : List Byte) (key : Int × Int) (mode : String) :
    Except Error (List Byte) :=
  let exp := key.1
  let n := key.2
  match msb n with
  | .error err => .error err
  | .ok top =>
    let block_size := top / 8
    let cipher_size := (top + 7) / 8
    if mode = "encrypt" then
      match add_padding data block_size with
      | .error err => .error err
      | .ok padded =>
        encrypt_loop padded block_size cipher_size exp n
          (block_count padded.length block_size) 0 []
    else if cipher_size = 0 then
      .error .DivisionByZero
    else if data.length % cipher_size ≠ 0 then
      .error .MisalignedCiphertext
    else
      match decrypt_loop data block_size cipher_size exp n
          (block_count data.length cipher_size) 0 [] with
      | .error err => .error err
      | .ok temp => remove_padding temp

/-- The plaintext block width `block_size = msb(n) / 8` of `process_file` (line 153). -/
def block_size (n : Int) : Except Error Nat :=
  match msb n with
  | .error err => .error err
  | .ok top => .ok (top / 8)

/-- The cipher block width `cipher_size = (msb(n) + 7) / 8` of `process_file` (line 154). -/
def cipher_size (n : Int) : Except Error Nat :=
  match msb n with
  | .error err => .error err
  | .ok top => .ok ((top + 7) / 8)

/-- Follows the spec's words: `bitlen(n)`, the number of binary digits of `n`. -/
def spec_bitlen (n : Nat) : Nat :=
  (Nat.digits 2 n).length

/-- Follows the spec's words: the plaintext block width `Bp = floor(bitlen(n) / 8)`. -/
def spec_Bp (n : Nat) : Nat :=
  spec_bitlen n / 8

/-- Follows the spec's words: the cipher block width `Bc = ceil(bitlen(n) / 8)`. -/
def spec_Bc (n : Nat) : Nat :=
  (spec_bitlen n + 7) / 8

/-- The `for (int i = 0; i < bits; ++i)` loop of `generate_random_bits` (lines 49-52), by
the number of positions still to visit, from bit `i`; one draw per position. -/
def generate_random_bits_loop (gen : Nat → Nat) : Nat → Nat → Nat → Nat → Nat × Nat
  | 0, _, pos, result => (result, pos)
  | steps + 1, i, pos, result =>
    generate_random_bits_loop gen steps (i + 1) (pos + 1)
      (if dist64 gen pos &&& 1 ≠ 0 then result ||| (1 <<< i) else result)

/-- Random integer of a given bit length, `generate_random_bits` (lines 47-55).  The left
shift by `bits - 1` raises in the big-integer library when `bits - 1` is negative. -/
def generate_random_bits (bits : Int) (gen : Nat → Nat) (pos : Nat) : Except Error (Int × Nat) :=
  let r := generate_random_bits_loop gen bits.toNat 0 pos 0
  if bits - 1 < 0 then
    .error .NegativeShift
  else
    .ok (((r.1 ||| (1 <<< (bits - 1).toNat) : Nat) : Int), r.2)

/-- The candidate of one pass of `generate_prime` (lines 60-62): the random value, plus one
when it is even. -/
def generate_prime_candidate (bits : Int) (gen : Nat → Nat) (pos : Nat) :
    Except Error (Int × Nat) :=
  match generate_random_bits bits gen pos with
  | .error err => .error err
  | .ok (candidate, pos') =>
    .ok (if candidate.tmod 2 = 0 then candidate + 1 else candidate, pos')

/-- Rejection sampling `generate_prime` (lines 58-66), cut after `attempts` passes of its
`while (true)` loop: `none` when no candidate was accepted within them. -/
def generate_prime (bits : Int) (gen : Nat → Nat) : Nat → Nat → Except Error (Option (Int × Nat))
  | 0, _ => .ok none
  | attempts + 1, pos =>
    match generate_prime_candidate bits gen pos with
    | .error err => .error err
    | .ok (candidate, pos1) =>
      match is_prime candidate 5 gen pos1 with
      | .error err => .error err
      | .ok (true, pos2) => .ok (some (candidate, pos2))
      | .ok (false, pos2) => generate_prime bits gen attempts pos2

end RSA

/-! Small-modulus attack demo of `Cryptography/PW7/rsa_attack_demo.cpp`.  `u64` values are
natural numbers below `2 ^ 64`; every operation that can leave that range is reduced modulo
`2 ^ 64`. -/

namespace RSAAttack

/-- The ways in which the demo fails: the two `runtime_error`s of the source, and a
remainder by zero (undefined on `u64`). -/
inductive AttackError where
  | FactorizeFailed
  | NoModularInverse
  | DivisionByZero
  deriving DecidableEq, Repr

/-- Wrapping `u64` subtraction `a - b`. -/
def sub64 (a b : Nat) : Nat :=
  (a % 2 ^ 64 + (2 ^ 64 - b % 2 ^ 64)) % 2 ^ 64

/-- Wrapping `u64` product `a * b`. -/
def mul64 (a b : Nat) : Nat :=
  (a * b) % 2 ^ 64

/-- Recursive `extended_gcd` on `u64` (lines 16-24); the result is `(g, x, y)`. -/
def extended_gcd (a b : Nat) : Nat × Nat × Nat :=
  if a = 0 then
    (b, 0, 1)
  else
    let r := extended_gcd (b % a) a
    (r.1, sub64 r.2.2 (mul64 (b / a) r.2.1), r.2.1)
termination_by a
decreasing_by exact Nat.mod_lt _ (Nat.pos_of_ne_zero (by assumption))

/-- Inverse of `e` modulo `phi`, `modular_inverse` (lines 27-31); `none` is
`std::nullopt`. -/
def modular_inverse (e phi : Nat) : Except AttackError (Option Nat) :=
  let r := extended_gcd e phi
  if r.1 ≠ 1 then
    .ok none
  else if phi = 0 then
    .error .DivisionByZero
  else
    .ok (some (((r.2.1 % phi + phi) % 2 ^ 64) % phi))

/-- The `while (exp)` loop of `modexp` (lines 39-45), on `(result, base, exp)`. -/
def modexp_loop (mod : Nat) (result base exp : Nat) : Nat :=
  if exp ≠ 0 then
    modexp_loop mod
      (if exp &&& 1 ≠ 0 then mul64 result base % mod else result)
      (mul64 base base % mod)
      (exp >>> 1)
  else
    result
termination_by exp
decreasing_by
  rw [Nat.shiftRight_eq_div_pow]
  omega

/-- Modular exponentiation `modexp<u64>` (lines 35-47). -/
def modexp (base exp mod : Nat) : Except AttackError Nat :=
  if mod = 0 then
    .error .DivisionByZero
  else
    .ok (modexp_loop mod 1 (base % mod) exp)

/-- The trial-division loop of `factorize` (lines 52-56), by the number of candidates still
to try, from `i`. -/
def factorize_loop (n : Nat) : Nat → Nat → Option (Nat × Nat)
  | 0, _ => none
  | steps + 1, i =>
    if n % i = 0 then some (i, n / i)
    else factorize_loop n steps (i + 1)

/-- Trial division `factorize` (lines 50-58).  The bound `static_cast<u64>(std::sqrt(n))` is
taken as the integer square root, which it equals on the demo's range. -/
def factorize (n : Nat) : Except AttackError (Nat × Nat) :=
  match factorize_loop n (Nat.sqrt n - 1) 2 with
  | some pq => .ok pq
  | none => .error .FactorizeFailed

/-- The attack `RSAAttack::attack` (lines 61-78); the result is the plaintext number. -/
def attack (e n ciphertext : Nat) : Except AttackError Nat :=
  match factorize n with
  | .error err => .error err
  | .ok (p, q) =>
    let phi := mul64 (sub64 p 1) (sub64 q 1)
    match modular_inverse e phi with
    | .error err => .error err
    | .ok none => .error .NoModularInverse
    | .ok (some d) => modexp ciphertext d n

end RSAAttack

/-! Magma block cipher of `Cryptography/PW4/magma_cipher.cpp`.  `uint32_t` values are natural
numbers below `2 ^ 32`; sums and left shifts are reduced modulo `2 ^ 32`. -/

namespace Magma

/-- The ways in which the cipher module fails; `DivisionByZero` stands for the remainder by
a zero block size. -/
inductive MagmaError where
  | KeyLength
  | EmptyData
  | InvalidPadding
  | DivisionByZero
  deriving DecidableEq, Repr

/-- The substitution table `SBOX` (lines 8-17). -/
def SBOX : List (List Nat) :=
  [[12, 4, 6, 2, 10, 5, 11, 9, 14, 8, 13, 7, 0, 3, 15, 1],
   [6, 8, 2, 3, 9, 10, 5, 12, 1, 11, 7, 13, 0, 4, 15, 14],
   [7, 11, 5, 8, 12, 4, 2, 0, 14, 1, 3, 10, 9, 15, 6, 13],
   [13, 1, 7, 4, 11, 5, 0, 15, 3, 12, 14, 6, 9, 10, 2, 8],
   [5, 10, 15, 12, 1, 13, 14, 11, 8, 3, 6, 0, 4, 7, 9, 2],
   [14, 5, 0, 15, 13, 11, 3, 6, 9, 2, 12, 7, 1, 8, 10, 4],
   [11, 13, 12, 3, 7, 14, 10, 5, 0, 9, 4, 15, 2, 8, 1, 6],
   [15, 12, 9, 7, 3, 0, 11, 4, 1, 14, 2, 13, 6, 10, 8, 5]]

/-- Rotation `rotateLeft` of a 32-bit word (lines 19-21). -/
def rotateLeft (value : Nat) (shift : Nat) : Nat :=
  ((value <<< shift) % 2 ^ 32) ||| (value >>> (32 - shift))

/-- The round function `G` (lines 23-30). -/
def G (a k : Nat) : Nat :=
  let t := rotateLeft ((a + k) % 2 ^ 32) 11
  (List.range 8).foldl
    (fun result i => result ||| (((SBOX.getD i []).getD ((t >>> (4 * i)) &&& 0xF) 0) <<< (4 * i)))
    0

/-- Four bytes as a big-endian 32-bit word, `(b0 << 24) | (b1 << 16) | (b2 << 8) | b3`. -/
def pack32 (b0 b1 b2 b3 : RSA.Byte) : Nat :=
  (b0.val <<< 24) ||| (b1.val <<< 16) ||| (b2.val <<< 8) ||| b3.val

/-- The key schedule `generateRoundKeys` (lines 32-44). -/
def generateRoundKeys (key : List RSA.Byte) : Except MagmaError (List Nat) :=
  if key.length ≠ 32 then
    .error .KeyLength
  else
    let base_keys := (List.range 8).map (fun i =>
      pack32 (key.getD (i * 4) 0) (key.getD (i * 4 + 1) 0) (key.getD (i * 4 + 2) 0)
        (key.getD (i * 4 + 3) 0))
    .ok (base_keys ++ base_keys ++ base_keys ++ base_keys.reverse)

/-- One round of `processBlock` (lines 51-53) with round key `k`, on the pair `(L, R)`:
`tmp = R; R = L ^ G(R, k); L = tmp`. -/
def feistel_round (k : Nat) (state : Nat × Nat) : Nat × Nat :=
  (state.2, state.1 ^^^ G state.2 k)

/-- The 32 rounds of `processBlock` (lines 49-54), by the number of rounds still to run,
from round `i`, on the pair `(L, R)`; round `i` uses the key of index `31 - i` when
decrypting. -/
def processBlock_loop (round_keys : List Nat) (decrypt : Bool) :
    Nat → Nat → Nat × Nat → Nat × Nat
  | 0, _, state => state
  | rounds + 1, i, state =>
    processBlock_loop round_keys decrypt rounds (i + 1)
      (feistel_round (round_keys.getD (if decrypt then 31 - i else i) 0) state)

/-- The four bytes of a 32-bit word, most significant first. -/
def unpack32 (w : Nat) : List RSA.Byte :=
  [Fin.ofNat ((w >>> 24) &&& 0xFF), Fin.ofNat ((w >>> 16) &&& 0xFF),
    Fin.ofNat ((w >>> 8) &&& 0xFF), Fin.ofNat (w &&& 0xFF)]

/-- One block through the cipher, `processBlock` (lines 46-61). -/
def processBlock (block : List RSA.Byte) (round_keys : List Nat) (decrypt : Bool) :
    List RSA.Byte :=
  let L := pack32 (block.getD 0 0) (block.getD 1 0) (block.getD 2 0) (block.getD 3 0)
  let R := pack32 (block.getD 4 0) (block.getD 5 0) (block.getD 6 0) (block.getD 7 0)
  let state := processBlock_loop round_keys decrypt 32 0 (L, R)
  unpack32 state.2 ++ unpack32 state.1

/-- PKCS#7 padding `applyPKCS7Padding` (lines 63-68). -/
def applyPKCS7Padding (data : List RSA.Byte) (block_size : Nat) :
    Except MagmaError (List RSA.Byte) :=
  if block_size = 0 then
    .error .DivisionByZero
  else
    let pad_len := block_size - data.length % block_size
    .ok (data ++ List.replicate pad_len (Fin.ofNat pad_len))

/-- The checking loop of `removePKCS7Padding` (lines 74-76), by the number of positions
still to visit, from index `i`. -/
def removePKCS7Padding_check (data : List RSA.Byte) (pad_len : RSA.Byte) : Nat → Nat → Bool
  | 0, _ => true
  | steps + 1, i =>
    if data.getD i 0 ≠ pad_len then false
    else removePKCS7Padding_check data pad_len steps (i + 1)

/-- Unpadding `removePKCS7Padding` (lines 70-78). -/
def removePKCS7Padding (data : List RSA.Byte) : Except MagmaError (List RSA.Byte) :=
  if data.isEmpty then .error .EmptyData
  else
    let pad_len : RSA.Byte := data.getLastD 0
    if pad_len.val = 0 ∨ pad_len.val > data.length then
      .error .InvalidPadding
    else if removePKCS7Padding_check data pad_len pad_len.val (data.length - pad_len.val) then
      .ok (data.take (data.length - pad_len.val))
    else
      .error .InvalidPadding

end Magma

/-! Elliptic-curve signature demo of `Cryptography/PW8/ecghost.cpp`.  `int` values are
integers: on the demo parameters (`p = 17`, `q = 19`, a 32-bit hash) every intermediate
value stays far below `2 ^ 31`.  `%` and `/` are the truncating `Int.tmod` and `Int.tdiv`;
an absent `optional` is `none`. -/

namespace ECGost

/-- A remainder by zero is the one way in which the arithmetic fails. -/
inductive ECError where
  | DivisionByZero
  deriving DecidableEq, Repr

abbrev Point := Int × Int

/-- The recursion of `extended_gcd` (lines 17-25), cut off below `depth` nested calls. -/
def extended_gcd_depth : Nat → Int → Int → Int × Int × Int
  | 0, _, b => (b, 0, 1)
  | depth + 1, a, b =>
    if a = 0 then
      (b, 0, 1)
    else
      let r := extended_gcd_depth depth (b.tmod a) a
      (r.1, r.2.2 - (b.tdiv a) * r.2.1, r.2.1)

/-- Recursive `extended_gcd` (lines 17-25); the result is `(gcd, x, y)`.  Each call replaces
`a` by `b % a`, of smaller absolute value, so the calls nest at most `|a| + 1` deep. -/
def extended_gcd (a b : Int) : Int × Int × Int :=
  extended_gcd_depth (a.natAbs + 1) a b

/-- Optional inverse `mod_inverse` (lines 27-33): `none` when the first component of
`extended_gcd` is not `1`.  The normalisation takes remainders by `m`. -/
def mod_inverse (a m : Int) : Except ECError (Option Int) :=
  let r := extended_gcd a m
  if r.1 ≠ 1 then
    .ok none
  else if m = 0 then
    .error .DivisionByZero
  else
    .ok (some ((r.2.1.tmod m + m).tmod m))

/-- The fields `a, b, p` of `class EllipticCurve` (line 37). -/
structure EllipticCurve where
  a : Int
  b : Int
  p : Int
  deriving DecidableEq, Repr

/-- Membership test `is_point_on_curve` (lines 42-48). -/
def is_point_on_curve (c : EllipticCurve) (P : Point) : Except ECError Bool :=
  if c.p = 0 then
    .error .DivisionByZero
  else
    .ok (decide ((P.2 * P.2).tmod c.p = (P.1 * P.1 * P.1 + c.a * P.1 + c.b).tmod c.p))

/-- Lines 77-82 of `add_points`: the sum point from the slope `lambda`. -/
def add_points_finish (c : EllipticCurve) (lambda x1 y1 x2 : Int) : Point :=
  let x3 := ((lambda * lambda - x1 - x2).tmod c.p + c.p).tmod c.p
  let y3 := ((lambda * (x1 - x3) - y1).tmod c.p + c.p).tmod c.p
  (x3, y3)

/-- Point addition `add_points` (lines 50-83); `none` is the point at infinity. -/
def add_points (c : EllipticCurve) (P_opt Q_opt : Option Point) :
    Except ECError (Option Point) :=
  match P_opt, Q_opt with
  | none, _ => .ok Q_opt
  | some _, none => .ok P_opt
  | some (x1, y1), some (x2, y2) =>
    if c.p = 0 then
      .error .DivisionByZero
    else if x1 = x2 ∧ (y1 + y2).tmod c.p = 0 then
      .ok none
    else if (x1, y1) = (x2, y2) then
      if y1 = 0 then
        .ok none
      else
        match mod_inverse ((2 * y1).tmod c.p) c.p with
        | .error err => .error err
        | .ok none => .ok none
        | .ok (some inv) =>
          .ok (some (add_points_finish c (((3 * x1 * x1 + c.a) * inv).tmod c.p) x1 y1 x2))
    else
      match mod_inverse ((x2 - x1).tmod c.p) c.p with
      | .error err => .error err
      | .ok none => .ok none
      | .ok (some inv) =>
        .ok (some (add_points_finish c (((y2 - y1) * inv).tmod c.p) x1 y1 x2))

/-- The `while (k > 0)` loop of `multiply_point` (lines 89-95) on the state
`(result, addend, k)`, cut off after `turns` turns.  For `k > 0` the test `k & 1` is
`k % 2 = 1` and `k >>= 1` is `k / 2`. -/
def multiply_point_turns (c : EllipticCurve) :
    Nat → Option Point → Option Point → Int → Except ECError (Option Point)
  | 0, result, _, _ => .ok result
  | turns + 1, result, addend, k =>
    if 0 < k then
      match (if k % 2 = 1 then add_points c result addend else .ok result) with
      | .error err => .error err
      | .ok result' =>
        match add_points c addend addend with
        | .error err => .error err
        | .ok addend' => multiply_point_turns c turns result' addend' (k / 2)
    else
      .ok result

/-- The loop of `multiply_point` from a state `(result, addend, k)`: `k` is halved in each
turn, so the loop takes at most `k` turns. -/
def multiply_point_loop (c : EllipticCurve) (result addend : Option Point) (k : Int) :
    Except ECError (Option Point) :=
  multiply_point_turns c k.toNat result addend k

/-- Double-and-add `multiply_point` (lines 85-98). -/
def multiply_point (c : EllipticCurve) (P : Point) (k : Int) : Except ECError (Option Point) :=
  multiply_point_loop c none (some P) k

/-- Signed reading of a 32-bit pattern. -/
def to_int32 (n : Nat) : Int :=
  if n % 2 ^ 32 < 2 ^ 31 then ((n % 2 ^ 32 : Nat) : Int) else ((n % 2 ^ 32 : Nat) : Int) - 2 ^ 32

/-- The fold of `hash_message` (lines 105-109) over the first four bytes of the SHA-256
digest, `result = (result << 8) | digest[i]`, on the 32-bit pattern of `result`. -/
def hash_fold (digest : List (Fin 256)) : Int :=
  to_int32 ((digest.take 4).foldl (fun result byte => (result * 256 + byte.val) % 2 ^ 32) 0)

/-- Lines 128-129 and 158-159: `e = h % q`, with `0` replaced by `1`. -/
def hash_exponent (h q : Int) : Int :=
  if h.tmod q = 0 then 1 else h.tmod q

/-- One pass of the `while (true)` loop of `sign_message` (lines 136-146) with the draw `k`;
`none` stands for `continue`. -/
def sign_message_pass (c : EllipticCurve) (G : Point) (q d e k : Int) :
    Except ECError (Option (Int × Int)) :=
  match multiply_point c G k with
  | .error err => .error err
  | .ok none => .ok none
  | .ok (some P) =>
    let r := P.1.tmod q
    if r = 0 then
      .ok none
    else
      let s := (r * d + k * e).tmod q
      if s = 0 then .ok none else .ok (some (r, s))

/-- The loop of `sign_message` over the draws of `dis(gen)`, in order; `none` when no draw
of the list yields a signature. -/
def sign_message_loop (c : EllipticCurve) (G : Point) (q d e : Int) :
    List Int → Except ECError (Option (Int × Int))
  | [] => .ok none
  | k :: draws =>
    match sign_message_pass c G q d e k with
    | .error err => .error err
    | .ok (some sig) => .ok (some sig)
    | .ok none => sign_message_loop c G q d e draws

/-- Signing `sign_message` (lines 126-148); `h` is the value of `hash_message(message)`
and `draws` the successive values of `dis(gen)`. -/
def sign_message (h : Int) (c : EllipticCurve) (G : Point) (q d : Int) (draws : List Int) :
    Except ECError (Option (Int × Int)) :=
  if q = 0 then
    .error .DivisionByZero
  else
    sign_message_loop c G q d (hash_exponent h q) draws

/-- Verification `verify_signature` (lines 150-175); `h` is the value of
`hash_message(message)`.  Past the range test `q` is at least `2`. -/
def verify_signature (h : Int) (signature : Int × Int) (c : EllipticCurve) (G : Point)
    (q : Int) (Q : Point) : Except ECError Bool :=
  let r := signature.1
  let s := signature.2
  if r ≤ 0 ∨ r ≥ q ∨ s ≤ 0 ∨ s ≥ q then
    .ok false
  else
    match is_point_on_curve c Q with
    | .error err => .error err
    | .ok false => .ok false
    | .ok true =>
      match mod_inverse (hash_exponent h q) q with
      | .error err => .error err
      | .ok none => .ok false
      | .ok (some v) =>
        let z1 := (s * v).tmod q
        let z2 := (((-r) * v).tmod q + q).tmod q
        match multiply_point c G z1 with
        | .error err => .error err
        | .ok P1 =>
          match multiply_point c Q z2 with
          | .error err => .error err
          | .ok P2 =>
            match add_points c P1 P2 with
            | .error err => .error err
            | .ok none => .ok false
            | .ok (some C) => .ok (decide ((C.1.tmod q + q).tmod q = r))

/-- The curve of `main` (line 212): `y ^ 2 = x ^ 3 + 2 x + 2` over `F_17`. -/
def demo_curve : EllipticCurve := ⟨2, 2, 17⟩

/-- The base point of `main` (line 214). -/
def demo_G : Point := (5, 1)

/-- The order `q` of `main` (line 212). -/
def demo_q : Int := 19

end ECGost

namespace RSA

/-! ## Arithmetic of the truncating remainder -/

theorem natAbs_tmod (b a : Int) : (b.tmod a).natAbs = b.natAbs % a.natAbs := by
  rcases b with m | m <;> rcases a with n | n <;> simp [Int.tmod, Int.natAbs_neg] <;> rfl

theorem tmod_eq_emod_of_nonneg {a b : Int} (ha : 0 ≤ a) (hb : 0 ≤ b) : a.tmod b = a % b :=
  Int.tmod_eq_emod ha hb

/-! ## `mod_pow` -/

theorem mod_pow_loop_zero (m r b : Int) : mod_pow_loop m r b 0 = r := by
  rw [mod_pow_loop]; simp

theorem mod_pow_loop_pos (m r b e : Int) (he : 0 < e) :
    mod_pow_loop m r b e =
      mod_pow_loop m (if e.tmod 2 = 1 then (r * b).tmod m else r) ((b * b).tmod m) (e / 2) := by
  rw [mod_pow_loop]; simp [he]

/-- Invariant of the loop: from a state `(r, b, e)` with `e > 0` the loop ends with
`r * b ^ e` reduced modulo `m`. -/
theorem mod_pow_loop_spec (m : Int) (hm : 0 < m) :
    ∀ (k : Nat) (r b e : Int), e.toNat = k → 0 ≤ r → 0 ≤ b → 0 < e →
      mod_pow_loop m r b e = (r * b ^ e.toNat) % m := by
  intro k
  induction k using Nat.strong_induction_on with
  | _ k ih =>
    intro r b e hk hr hb he
    rw [mod_pow_loop_pos m r b e he]
    have hbb : 0 ≤ (b * b).tmod m := Int.tmod_nonneg _ (mul_nonneg hb hb)
    have hbbe : (b * b).tmod m = (b * b) % m :=
      Int.tmod_eq_emod (mul_nonneg hb hb) hm.le
    have hrb : (r * b).tmod m = (r * b) % m :=
      Int.tmod_eq_emod (mul_nonneg hr hb) hm.le
    have he2 : e.tmod 2 = e % 2 := Int.tmod_eq_emod he.le (by norm_num)
    have hr' : 0 ≤ (if e.tmod 2 = 1 then (r * b).tmod m else r) := by
      split
      · exact Int.tmod_nonneg _ (mul_nonneg hr hb)
      · exact hr
    -- the exponent as a natural number
    obtain ⟨n, rfl⟩ : ∃ n : Nat, e = (n : Int) := ⟨e.toNat, (Int.toNat_of_nonneg he.le).symm⟩
    have hn : 0 < n := by exact_mod_cast he
    have hdiv : ((n : Int) / 2) = ((n / 2 : Nat) : Int) := by norm_cast
    have hmod : ((n : Int) % 2) = ((n % 2 : Nat) : Int) := by norm_cast
    rw [he2, hmod, hdiv]
    simp only [Int.toNat_ofNat]
    have hsplit : n = 2 * (n / 2) + n % 2 := (Nat.div_add_mod n 2).symm
    by_cases h1 : n / 2 = 0
    · -- last iteration: `e = 1`
      have hn1 : n = 1 := by omega
      subst hn1
      simp only [h1, Nat.cast_zero, mod_pow_loop_zero]
      norm_num
      rw [hrb]
    · have hpos : 0 < ((n / 2 : Nat) : Int) := by
        have : 0 < n / 2 := Nat.pos_of_ne_zero h1
        exact_mod_cast this
      have hlt : n / 2 < k := by
        have : k = n := by simpa using hk.symm
        omega
      rw [ih (n / 2) hlt _ _ _ (Int.toNat_ofNat _) (by rw [he2, hmod] at hr'; exact hr') hbb hpos]
      simp only [Int.toNat_ofNat]
      rw [hbbe]
      -- congruence bookkeeping
      have key : ∀ x : Int, (x * ((b * b) % m) ^ (n / 2)) % m = (x * (b * b) ^ (n / 2)) % m := by
        intro x
        apply Int.ModEq.mul_left
        apply Int.ModEq.pow
        exact Int.mod_modEq _ _
      rw [key]
      rcases Nat.mod_two_eq_zero_or_one n with h0 | h0
      · have : ¬ (((n % 2 : Nat) : Int) = 1) := by rw [h0]; norm_num
        rw [if_neg this]
        congr 1
        have hn2 : n = 2 * (n / 2) := by omega
        conv_rhs => rw [hn2, pow_mul]
        ring
      · have : (((n % 2 : Nat) : Int) = 1) := by rw [h0]; norm_num
        rw [if_pos this, hrb]
        have hn2 : n = 2 * (n / 2) + 1 := by omega
        conv_rhs => rw [hn2, pow_succ, pow_mul]
        have e1 : (r * b) % m * (b * b) ^ (n / 2) ≡ r * b * (b * b) ^ (n / 2) [ZMOD m] :=
          Int.ModEq.mul_right _ (Int.mod_modEq _ _)
        have e2 : r * b * (b * b) ^ (n / 2) = r * ((b ^ 2) ^ (n / 2) * b) := by ring
        rw [← e2]
        exact e1

/-- Value of `mod_pow` on its domain: the remainder of the power, except that the exponent
zero gives the initial `result = 1` unreduced. -/
theorem mod_pow_eq (base exp mod : Int) (hb : 0 ≤ base) (he : 0 ≤ exp) (hm : 0 < mod) :
    mod_pow base exp mod =
      .ok (if exp = 0 then 1 else (base ^ exp.toNat) % mod) := by
  unfold mod_pow
  rw [if_neg hm.ne']
  congr 1
  by_cases h0 : exp = 0
  · subst h0
    simp [mod_pow_loop_zero]
  · have hpos : 0 < exp := lt_of_le_of_ne he (Ne.symm h0)
    rw [if_neg h0, mod_pow_loop_spec mod hm exp.toNat _ _ _ rfl (by norm_num)
      (Int.tmod_nonneg _ hb) hpos, Int.tmod_eq_emod hb hm.le, one_mul]
    exact Int.ModEq.pow _ (Int.mod_modEq base mod)

/-- C3 (counterexample): with `mod = 1` and `exp = 0` the loop never runs and `mod_pow`
returns its initial `result = 1`, which is neither `0 ^ 0 mod 1 = 0` nor below the modulus. -/
theorem mod_pow_zero_exp_mod_one :
    mod_pow 0 0 1 = .ok 1 ∧
      ¬ ∃ r : Int, mod_pow 0 0 1 = .ok r ∧ r = (0 : Int) ^ (0 : Int).toNat % 1 ∧ 0 ≤ r ∧ r < 1 := by
  have h : mod_pow 0 0 1 = .ok 1 := by
    rw [mod_pow_eq 0 0 1 le_rfl le_rfl one_pos]; simp
  refine ⟨h, ?_⟩
  rintro ⟨r, hr, _, _, hlt⟩
  rw [h] at hr
  injection hr with hr
  omega

/-- C3 (amended): for `base ≥ 0`, `exp ≥ 0` and `mod > 0`, leaving out the single case
`exp = 0` with `mod = 1`, `mod_pow` returns `base ^ exp mod mod`, a value in `[0, mod)`. -/
theorem mod_pow_contract (base exp mod : Int) (hb : 0 ≤ base) (he : 0 ≤ exp) (hm : 0 < mod)
    (h : 2 ≤ mod ∨ 0 < exp) :
    ∃ r : Int, mod_pow base exp mod = .ok r ∧ r = base ^ exp.toNat % mod ∧ 0 ≤ r ∧ r < mod := by
  refine ⟨base ^ exp.toNat % mod, ?_, rfl, Int.emod_nonneg _ hm.ne', Int.emod_lt_of_pos _ hm⟩
  rw [mod_pow_eq base exp mod hb he hm]
  congr 1
  split
  · next h0 =>
    subst h0
    have h2 : 2 ≤ mod := by omega
    simp only [Int.toNat_zero, pow_zero]
    exact (Int.emod_eq_of_lt (by norm_num) (by omega)).symm
  · rfl

/-- Instance of the contract at `mod_pow(7, 5, 13)`. -/
theorem mod_pow_contract_witness :
    ∃ r : Int, mod_pow 7 5 13 = .ok r ∧ r = 7 ^ (5 : Int).toNat % 13 ∧ 0 ≤ r ∧ r < 13 :=
  mod_pow_contract 7 5 13 (by decide) (by decide) (by decide) (Or.inl (by decide))

/-! ## `extended_gcd` and `mod_inverse` -/

theorem extended_gcd_zero (b : Int) : extended_gcd 0 b = (b, 0, 1) := by
  rw [extended_gcd]; simp

theorem extended_gcd_ne_zero (a b : Int) (ha : a ≠ 0) :
    extended_gcd a b =
      ((extended_gcd (b.tmod a) a).1,
        (extended_gcd (b.tmod a) a).2.2 - (b.tdiv a) * (extended_gcd (b.tmod a) a).2.1,
        (extended_gcd (b.tmod a) a).2.1) := by
  rw [extended_gcd]; simp [ha]

/-- The coefficients returned by `extended_gcd` combine its arguments into its first
component, whatever the signs. -/
theorem extended_gcd_combination :
    ∀ (k : Nat) (a b : Int), a.natAbs = k →
      a * (extended_gcd a b).2.1 + b * (extended_gcd a b).2.2 = (extended_gcd a b).1 := by
  intro k
  induction k using Nat.strong_induction_on with
  | _ k ih =>
    intro a b hk
    by_cases ha : a = 0
    · subst ha
      rw [extended_gcd_zero]; simp
    · rw [extended_gcd_ne_zero a b ha]
      have hlt : (b.tmod a).natAbs < k := by
        rw [natAbs_tmod, ← hk]
        exact Nat.mod_lt _ (Int.natAbs_pos.mpr ha)
      have h := ih _ hlt (b.tmod a) a rfl
      simp only
      rw [← h, Int.tmod_def]
      ring

/-- On arguments that are not negative the first component is the greatest common
divisor. -/
theorem extended_gcd_fst :
    ∀ (k : Nat) (a b : Int), a.natAbs = k → 0 ≤ a → 0 ≤ b →
      (extended_gcd a b).1 = (Int.gcd a b : Int) := by
  intro k
  induction k using Nat.strong_induction_on with
  | _ k ih =>
    intro a b hk ha0 hb0
    by_cases ha : a = 0
    · subst ha
      rw [extended_gcd_zero]
      simp [Int.gcd, Int.natAbs_of_nonneg hb0]
    · rw [extended_gcd_ne_zero a b ha]
      have hlt : (b.tmod a).natAbs < k := by
        rw [natAbs_tmod, ← hk]
        exact Nat.mod_lt _ (Int.natAbs_pos.mpr ha)
      have h := ih _ hlt (b.tmod a) a rfl (Int.tmod_nonneg _ hb0) ha0
      simp only
      rw [h]
      simp only [Int.gcd, natAbs_tmod]
      rw [← Nat.gcd_rec]

/-- C5: for `a ≥ 0` and `b ≥ 0` the recursive `extended_gcd` (a total function) returns
`(g, x, y)` with `g = gcd(a, b)` and `a * x + b * y = g` over the integers, and for `a = 0`
it returns exactly `(b, 0, 1)`. -/
theorem extended_gcd_bezout (a b : Int) (ha : 0 ≤ a) (hb : 0 ≤ b) :
    (extended_gcd a b).1 = (Int.gcd a b : Int) ∧
      a * (extended_gcd a b).2.1 + b * (extended_gcd a b).2.2 = (Int.gcd a b : Int) ∧
      (a = 0 → extended_gcd a b = (b, 0, 1)) := by
  refine ⟨extended_gcd_fst _ a b rfl ha hb, ?_, ?_⟩
  · rw [extended_gcd_combination _ a b rfl, extended_gcd_fst _ a b rfl ha hb]
  · rintro rfl
    exact extended_gcd_zero b

/-- Instance of the Bezout identity at `extended_gcd(7, 60)`. -/
theorem extended_gcd_bezout_witness :
    (extended_gcd 7 60).1 = (Int.gcd 7 60 : Int) ∧
      7 * (extended_gcd 7 60).2.1 + 60 * (extended_gcd 7 60).2.2 = (Int.gcd 7 60 : Int) ∧
      ((7 : Int) = 0 → extended_gcd 7 60 = (60, 0, 1)) :=
  extended_gcd_bezout 7 60 (by decide) (by decide)

/-- Value of `mod_inverse` when the greatest common divisor is one. -/
theorem mod_inverse_eq (e phi : Int) (he : 0 ≤ e) (hphi : 0 < phi) (hg : Int.gcd e phi = 1) :
    mod_inverse e phi = .ok ((extended_gcd e phi).2.1 % phi) := by
  unfold mod_inverse
  have h1 : (extended_gcd e phi).1 = 1 := by
    rw [extended_gcd_fst _ e phi rfl he hphi.le, hg]; rfl
  simp only [h1, ne_eq, not_true_eq_false, if_false, hphi.ne']
  congr 1
  set x := (extended_gcd e phi).2.1
  have hlow : -phi < x.tmod phi := by
    have h2 := natAbs_tmod x phi
    have h3 := Nat.mod_lt x.natAbs (Int.natAbs_pos.mpr hphi.ne')
    omega
  have hnn : 0 ≤ x.tmod phi + phi := by linarith
  rw [Int.tmod_eq_emod hnn hphi.le, Int.add_emod_self]
  have hdvd : (x.tmod phi) % phi = x % phi := by
    rw [Int.tmod_def, sub_eq_add_neg, ← mul_neg, Int.add_mul_emod_self_left]
  exact hdvd

/-- With `gcd(e, phi) = 1` the inverse is returned, reduced into `[0, phi)`. -/
theorem mod_inverse_ok (e phi : Int) (he : 0 ≤ e) (hphi : 0 < phi) (hg : Int.gcd e phi = 1) :
    ∃ r : Int, mod_inverse e phi = .ok r ∧ 0 ≤ r ∧ r < phi ∧ (e * r) % phi = 1 % phi := by
  refine ⟨_, mod_inverse_eq e phi he hphi hg, Int.emod_nonneg _ hphi.ne',
    Int.emod_lt_of_pos _ hphi, ?_⟩
  have hb : e * (extended_gcd e phi).2.1 + phi * (extended_gcd e phi).2.2 = 1 := by
    rw [extended_gcd_combination _ e phi rfl, extended_gcd_fst _ e phi rfl he hphi.le, hg]
    rfl
  have h1 : e * ((extended_gcd e phi).2.1 % phi) ≡ e * (extended_gcd e phi).2.1 [ZMOD phi] :=
    Int.ModEq.mul_left _ (Int.mod_modEq _ _)
  have h2 : e * (extended_gcd e phi).2.1 ≡ 1 [ZMOD phi] := by
    have : e * (extended_gcd e phi).2.1 = 1 - phi * (extended_gcd e phi).2.2 := by
      linarith
    rw [this]
    show (1 - phi * (extended_gcd e phi).2.2) % phi = 1 % phi
    rw [sub_eq_add_neg, ← mul_neg, Int.add_mul_emod_self_left]
  exact h1.trans h2

/-- With `gcd(e, phi) ≠ 1` the call fails with `NoInverse`. -/
theorem mod_inverse_fails (e phi : Int) (he : 0 ≤ e) (hphi : 0 < phi)
    (hg : Int.gcd e phi ≠ 1) : mod_inverse e phi = .error .NoInverse := by
  unfold mod_inverse
  have h1 : (extended_gcd e phi).1 ≠ 1 := by
    rw [extended_gcd_fst _ e phi rfl he hphi.le]
    exact_mod_cast hg
  simp only [ne_eq, h1, not_false_eq_true, if_true]

/-- C4: for `e ≥ 0` and `phi > 0`, `mod_inverse` fails, with `NoInverse`, exactly when
`gcd(e, phi) ≠ 1`, and otherwise returns `r` with `0 ≤ r < phi` and
`(e * r) mod phi = 1 mod phi`. -/
theorem mod_inverse_contract (e phi : Int) (he : 0 ≤ e) (hphi : 0 < phi) :
    (mod_inverse e phi = .error .NoInverse ↔ Int.gcd e phi ≠ 1) ∧
      ((∃ err, mod_inverse e phi = .error err) ↔ Int.gcd e phi ≠ 1) ∧
      (Int.gcd e phi = 1 →
        ∃ r : Int, mod_inverse e phi = .ok r ∧ 0 ≤ r ∧ r < phi ∧ (e * r) % phi = 1 % phi) := by
  have hok := mod_inverse_ok e phi he hphi
  have hfail := mod_inverse_fails e phi he hphi
  refine ⟨⟨?_, hfail⟩, ⟨?_, fun hg => ⟨_, hfail hg⟩⟩, hok⟩
  · intro hE hg
    obtain ⟨r, hr, _⟩ := hok hg
    rw [hr] at hE
    cases hE
  · rintro ⟨err, hE⟩ hg
    obtain ⟨r, hr, _⟩ := hok hg
    rw [hr] at hE
    cases hE

/-- Instance of the contract at `mod_inverse(7, 60)`. -/
theorem mod_inverse_contract_witness :
    (mod_inverse 7 60 = .error .NoInverse ↔ Int.gcd 7 60 ≠ 1) ∧
      ((∃ err, mod_inverse 7 60 = .error err) ↔ Int.gcd 7 60 ≠ 1) ∧
      (Int.gcd 7 60 = 1 →
        ∃ r : Int, mod_inverse 7 60 = .ok r ∧ 0 ≤ r ∧ r < 60 ∧ (7 * r) % 60 = 1 % 60) :=
  mod_inverse_contract 7 60 (by decide) (by decide)

/-! ## Exponent selection and key assembly -/

theorem select_exponent_scan_unfold (phi i : Int) :
    select_exponent_scan phi i =
      if i < phi then
        if Int.gcd i phi = 1 then some i else select_exponent_scan phi (i + 2)
      else none := by
  rw [select_exponent_scan]
  simp only [dite_eq_ite]

/-- The scan started at `i` stops at the first value `i + 2 * t` below `phi` that is coprime
to `phi`. -/
theorem select_exponent_scan_first (phi : Int) :
    ∀ (t : Nat) (i : Int), i + 2 * (t : Int) < phi → Int.gcd (i + 2 * (t : Int)) phi = 1 →
      (∀ s : Nat, s < t → Int.gcd (i + 2 * (s : Int)) phi ≠ 1) →
      select_exponent_scan phi i = some (i + 2 * (t : Int)) := by
  intro t
  induction t with
  | zero =>
    intro i hlt hg _
    rw [select_exponent_scan_unfold]
    simp only [Nat.cast_zero, mul_zero, add_zero] at hlt hg ⊢
    rw [if_pos hlt, if_pos hg]
  | succ t ih =>
    intro i hlt hg hfirst
    rw [select_exponent_scan_unfold]
    have hi : i < phi := by push_cast at hlt; omega
    have h0 : Int.gcd i phi ≠ 1 := by simpa using hfirst 0 (Nat.succ_pos t)
    rw [if_pos hi, if_neg h0]
    have e1 : i + 2 * ((t + 1 : Nat) : Int) = (i + 2) + 2 * (t : Int) := by push_cast; ring
    rw [e1] at hlt hg ⊢
    apply ih (i + 2) hlt hg
    intro s hs
    have := hfirst (s + 1) (Nat.succ_lt_succ hs)
    have e2 : i + 2 * ((s + 1 : Nat) : Int) = (i + 2) + 2 * (s : Int) := by push_cast; ring
    rwa [e2] at this

theorem gcd_pred_self (phi : Int) : Int.gcd (phi - 1) phi = 1 := by
  rw [← Int.isCoprime_iff_gcd_eq_one]
  exact ⟨-1, 1, by ring⟩

/-- The exponent chosen at lines 100-108 for an even `phi ≥ 4`: `65537` when it is coprime
to `phi`, and otherwise the first of `3, 5, 7, ...` below `phi` that is; in both cases a
value coprime to `phi`. -/
theorem select_exponent_spec (phi : Int) (h4 : 4 ≤ phi) (heven : phi % 2 = 0) :
    (Int.gcd 65537 phi = 1 → select_exponent phi = 65537) ∧
      (Int.gcd 65537 phi ≠ 1 →
        ∃ t : Nat, select_exponent phi = 3 + 2 * (t : Int) ∧ 3 + 2 * (t : Int) < phi ∧
          ∀ s : Nat, s < t → Int.gcd (3 + 2 * (s : Int)) phi ≠ 1) ∧
      Int.gcd (select_exponent phi) phi = 1 ∧ 3 ≤ select_exponent phi := by
  have hex : ∃ t : Nat, 3 + 2 * (t : Int) < phi ∧ Int.gcd (3 + 2 * (t : Int)) phi = 1 := by
    refine ⟨((phi - 4) / 2).toNat, ?_⟩
    have h1 : (((phi - 4) / 2).toNat : Int) = (phi - 4) / 2 :=
      Int.toNat_of_nonneg (by omega)
    have h2 : 3 + 2 * (((phi - 4) / 2).toNat : Int) = phi - 1 := by rw [h1]; omega
    rw [h2]
    exact ⟨by omega, gcd_pred_self phi⟩
  classical
  have hmin := Nat.find_spec hex
  have hlt := fun s (hs : s < Nat.find hex) => Nat.find_min hex hs
  have hscan : select_exponent_scan phi 3 = some (3 + 2 * ((Nat.find hex : Nat) : Int)) := by
    apply select_exponent_scan_first phi _ 3 hmin.1 hmin.2
    intro s hs hg
    have hs1 : 3 + 2 * (s : Int) < phi := by
      have : (s : Int) < (Nat.find hex : Nat) := by exact_mod_cast hs
      omega
    exact hlt s hs ⟨hs1, hg⟩
  have hA : Int.gcd 65537 phi = 1 → select_exponent phi = 65537 := by
    intro hg
    unfold select_exponent
    rw [if_neg (by simpa using hg)]
  have hB : Int.gcd 65537 phi ≠ 1 →
      select_exponent phi = 3 + 2 * ((Nat.find hex : Nat) : Int) := by
    intro hg
    unfold select_exponent
    rw [if_pos hg, hscan]
  refine ⟨hA, fun hg => ⟨Nat.find hex, hB hg, hmin.1, ?_⟩, ?_, ?_⟩
  · intro s hs hgs
    have hs1 : 3 + 2 * (s : Int) < phi := by
      have : (s : Int) < (Nat.find hex : Nat) := by exact_mod_cast hs
      omega
    exact hlt s hs ⟨hs1, hgs⟩
  · by_cases hg : Int.gcd 65537 phi = 1
    · rw [hA hg]; exact hg
    · rw [hB hg]; exact hmin.2
  · by_cases hg : Int.gcd 65537 phi = 1
    · rw [hA hg]; norm_num
    · rw [hB hg]; omega

theorem phi_of_odd_primes (p q : Nat) (hp : p.Prime) (hq : q.Prime) (hpo : p % 2 = 1)
    (hqo : q % 2 = 1) :
    4 ≤ ((p : Int) - 1) * ((q : Int) - 1) ∧ (((p : Int) - 1) * ((q : Int) - 1)) % 2 = 0 := by
  have hp2 := hp.two_le
  have hq2 := hq.two_le
  obtain ⟨a, ha⟩ : ∃ a : Nat, p = 2 * a + 3 := ⟨(p - 3) / 2, by omega⟩
  obtain ⟨b, hb⟩ : ∃ b : Nat, q = 2 * b + 3 := ⟨(q - 3) / 2, by omega⟩
  subst ha hb
  push_cast
  have e : ((2 : Int) * a + 3 - 1) * (2 * b + 3 - 1) = 4 * ((a + 1) * (b + 1)) := by ring
  rw [e]
  constructor
  · have : (0 : Int) ≤ a * b + a + b := by positivity
    nlinarith
  · omega

/-- C6: for odd primes `p` and `q` the key assembly of `generate_keypair` does not fail and
returns `((e, n), (d, n))` with `n = p * q`, where `e = 65537` if `gcd(65537, phi) = 1` and
otherwise `e` is the first of `3, 5, 7, ...` below `phi` coprime to `phi` (the scan always
meets one), `gcd(e, phi) = 1`, `0 ≤ d < phi` and `e * d ≡ 1 (mod phi)`. -/
theorem generate_keypair_invariant (p q : Nat) (hp : p.Prime) (hq : q.Prime)
    (hpo : p % 2 = 1) (hqo : q % 2 = 1) :
    ∃ e d : Int,
      generate_keypair_assemble p q = .ok ((e, (p : Int) * q), (d, (p : Int) * q)) ∧
      (Int.gcd 65537 (((p : Int) - 1) * ((q : Int) - 1)) = 1 → e = 65537) ∧
      (Int.gcd 65537 (((p : Int) - 1) * ((q : Int) - 1)) ≠ 1 →
        ∃ t : Nat, e = 3 + 2 * (t : Int) ∧ e < ((p : Int) - 1) * ((q : Int) - 1) ∧
          ∀ s : Nat, s < t → Int.gcd (3 + 2 * (s : Int)) (((p : Int) - 1) * ((q : Int) - 1)) ≠ 1) ∧
      Int.gcd e (((p : Int) - 1) * ((q : Int) - 1)) = 1 ∧
      0 ≤ d ∧ d < ((p : Int) - 1) * ((q : Int) - 1) ∧
      e * d ≡ 1 [ZMOD ((p : Int) - 1) * ((q : Int) - 1)] := by
  obtain ⟨h4, heven⟩ := phi_of_odd_primes p q hp hq hpo hqo
  set phi : Int := ((p : Int) - 1) * ((q : Int) - 1) with hphi
  obtain ⟨hA, hB, hg, h3⟩ := select_exponent_spec phi h4 heven
  obtain ⟨d, hd, hd0, hdlt, hed⟩ :=
    mod_inverse_ok (select_exponent phi) phi (by omega) (by omega) hg
  refine ⟨select_exponent phi, d, ?_, hA, ?_, hg, hd0, hdlt, hed⟩
  · unfold generate_keypair_assemble
    simp only [← hphi, hd]
  · intro h
    obtain ⟨t, ht, hlt, hfirst⟩ := hB h
    exact ⟨t, ht, ht ▸ hlt, hfirst⟩

/-- Instance of the key-pair invariant at `p = 17`, `q = 19`. -/
theorem generate_keypair_invariant_witness :
    ∃ e d : Int,
      generate_keypair_assemble (17 : Nat) (19 : Nat) =
        .ok ((e, ((17 : Nat) : Int) * (19 : Nat)), (d, ((17 : Nat) : Int) * (19 : Nat))) ∧
      (Int.gcd 65537 ((((17 : Nat) : Int) - 1) * (((19 : Nat) : Int) - 1)) = 1 → e = 65537) ∧
      (Int.gcd 65537 ((((17 : Nat) : Int) - 1) * (((19 : Nat) : Int) - 1)) ≠ 1 →
        ∃ t : Nat, e = 3 + 2 * (t : Int) ∧ e < (((17 : Nat) : Int) - 1) * (((19 : Nat) : Int) - 1) ∧
          ∀ s : Nat, s < t →
            Int.gcd (3 + 2 * (s : Int)) ((((17 : Nat) : Int) - 1) * (((19 : Nat) : Int) - 1)) ≠ 1) ∧
      Int.gcd e ((((17 : Nat) : Int) - 1) * (((19 : Nat) : Int) - 1)) = 1 ∧
      0 ≤ d ∧ d < (((17 : Nat) : Int) - 1) * (((19 : Nat) : Int) - 1) ∧
      e * d ≡ 1 [ZMOD (((17 : Nat) : Int) - 1) * (((19 : Nat) : Int) - 1)] :=
  generate_keypair_invariant 17 19 (by norm_num) (by norm_num) (by decide) (by decide)

/-! ## Correctness of the exponent pair -/

/-- Fermat step: raising to a power `1 + s * (p - 1)` fixes every residue modulo a prime. -/
theorem pow_one_add_mul_pred_prime (p : Nat) (hp : p.Prime) (M s : Nat) :
    M ^ (1 + s * (p - 1)) ≡ M [MOD p] := by
  by_cases hdiv : p ∣ M
  · have h0 : M ≡ 0 [MOD p] := (Nat.modEq_zero_iff_dvd).mpr hdiv
    have h1 : M ^ (1 + s * (p - 1)) ≡ 0 [MOD p] := by
      apply (Nat.modEq_zero_iff_dvd).mpr
      exact dvd_pow hdiv (by omega)
    exact h1.trans h0.symm
  · have hcop : Nat.Coprime M p := ((Nat.Prime.coprime_iff_not_dvd hp).mpr hdiv).symm
    have hf : M ^ (p - 1) ≡ 1 [MOD p] := by
      have := Nat.ModEq.pow_totient hcop
      rwa [Nat.totient_prime hp] at this
    have h2 : (M ^ (p - 1)) ^ s ≡ 1 [MOD p] := by
      simpa using hf.pow s
    have e : M ^ (1 + s * (p - 1)) = M * (M ^ (p - 1)) ^ s := by
      rw [pow_add, pow_one, ← pow_mul, mul_comm s]
    rw [e]
    simpa using h2.mul_left M

/-- The core of RSA: for distinct primes `p`, `q`, raising to a power that is `1` modulo
`(p - 1) * (q - 1)` fixes every residue modulo `p * q`, coprime to it or not. -/
theorem pow_one_add_mul_phi (p q : Nat) (hp : p.Prime) (hq : q.Prime) (hpq : p ≠ q)
    (M t : Nat) : M ^ (1 + t * ((p - 1) * (q - 1))) ≡ M [MOD p * q] := by
  have hcop : Nat.Coprime p q := (Nat.coprime_primes hp hq).mpr hpq
  rw [← Nat.modEq_and_modEq_iff_modEq_mul hcop]
  constructor
  · have := pow_one_add_mul_pred_prime p hp M (t * (q - 1))
    have e : t * (q - 1) * (p - 1) = t * ((p - 1) * (q - 1)) := by ring
    rwa [e] at this
  · have := pow_one_add_mul_pred_prime q hq M (t * (p - 1))
    have e : t * (p - 1) * (q - 1) = t * ((p - 1) * (q - 1)) := by ring
    rwa [e] at this

/-- Encrypting and then decrypting one block with exponents `e`, `d` that are inverse modulo
`(p - 1) * (q - 1)` gives back the block. -/
theorem mod_pow_mod_pow_inverse (p q : Nat) (hp : p.Prime) (hq : q.Prime) (hpq : p ≠ q)
    (e d : Int) (he : 0 < e) (hd : 0 ≤ d)
    (hed : e * d ≡ 1 [ZMOD ((p : Int) - 1) * ((q : Int) - 1)])
    (m : Int) (hm0 : 0 ≤ m) (hmn : m < (p : Int) * q) :
    ∃ c : Int, mod_pow m e ((p : Int) * q) = .ok c ∧ 0 ≤ c ∧ c < (p : Int) * q ∧
      mod_pow c d ((p : Int) * q) = .ok m := by
  have hp1 := hp.one_lt
  have hq1 := hq.one_lt
  have hn : (0 : Int) < (p : Int) * q := by positivity
  -- natural-number views
  obtain ⟨E, rfl⟩ : ∃ E : Nat, e = (E : Int) := ⟨e.toNat, (Int.toNat_of_nonneg he.le).symm⟩
  obtain ⟨D, rfl⟩ : ∃ D : Nat, d = (D : Int) := ⟨d.toNat, (Int.toNat_of_nonneg hd).symm⟩
  obtain ⟨M, rfl⟩ : ∃ M : Nat, m = (M : Int) := ⟨m.toNat, (Int.toNat_of_nonneg hm0).symm⟩
  have hE : 0 < E := by exact_mod_cast he
  have hphi : ((p : Int) - 1) * ((q : Int) - 1) = (((p - 1) * (q - 1) : Nat) : Int) := by
    rw [Nat.cast_mul, Nat.cast_sub hp1.le, Nat.cast_sub hq1.le]; simp
  rw [hphi] at hed
  have hedN : E * D ≡ 1 [MOD (p - 1) * (q - 1)] := by
    have : ((E * D : Nat) : Int) ≡ ((1 : Nat) : Int) [ZMOD (((p - 1) * (q - 1) : Nat) : Int)] := by
      simpa using hed
    exact (Int.natCast_modEq_iff).mp this
  have hphi_pos : 1 < (p - 1) * (q - 1) ∨ (p - 1) * (q - 1) = 1 := by
    have h1 : 1 ≤ p - 1 := by omega
    have h2 : 1 ≤ q - 1 := by omega
    have : 1 ≤ (p - 1) * (q - 1) := Nat.one_le_iff_ne_zero.mpr (Nat.mul_ne_zero (by omega) (by omega))
    omega
  rw [mod_pow_eq (M : Int) (E : Int) _ hm0 he.le hn, if_neg he.ne']
  refine ⟨_, rfl, Int.emod_nonneg _ hn.ne', Int.emod_lt_of_pos _ hn, ?_⟩
  rw [mod_pow_eq _ (D : Int) _ (Int.emod_nonneg _ hn.ne') hd hn]
  congr 1
  simp only [Int.toNat_ofNat]
  have hMn : M < p * q := by exact_mod_cast hmn
  by_cases hD : D = 0
  · -- then `phi` divides `1`, so the two primes are both `2`; excluded by distinctness
    exfalso
    subst hD
    have h0 : 0 ≡ 1 [MOD (p - 1) * (q - 1)] := by simpa using hedN
    have hone : (p - 1) * (q - 1) = 1 := by
      have := (Nat.modEq_zero_iff_dvd).mp h0.symm
      exact Nat.dvd_one.mp this
    have hp2 : p - 1 = 1 := Nat.eq_one_of_mul_eq_one_right hone
    have hq2 : q - 1 = 1 := Nat.eq_one_of_mul_eq_one_left hone
    omega
  · have hD' : ¬ ((D : Int) = 0) := by exact_mod_cast hD
    rw [if_neg hD']
    -- the product of the exponents is `1 + t * phi`
    have hED1 : 1 ≤ E * D := Nat.one_le_iff_ne_zero.mpr (Nat.mul_ne_zero hE.ne' hD)
    obtain ⟨t, ht⟩ : ∃ t : Nat, E * D = 1 + t * ((p - 1) * (q - 1)) := by
      have hdvd : (p - 1) * (q - 1) ∣ E * D - 1 := (Nat.modEq_iff_dvd' hED1).mp hedN.symm
      obtain ⟨t, ht⟩ := hdvd
      exact ⟨t, by rw [mul_comm t]; omega⟩
    have hcore := pow_one_add_mul_phi p q hp hq hpq M t
    rw [← ht] at hcore
    have hcast : (((M : Int) ^ E % ((p : Int) * q)) ^ D) % ((p : Int) * q) =
        (((M ^ E % (p * q)) ^ D % (p * q) : Nat) : Int) := by
      push_cast; rfl
    rw [hcast]
    congr 1
    calc (M ^ E % (p * q)) ^ D % (p * q) = (M ^ E) ^ D % (p * q) := by
          rw [Nat.pow_mod, Nat.mod_mod, ← Nat.pow_mod]
      _ = M ^ (E * D) % (p * q) := by rw [pow_mul]
      _ = M % (p * q) := hcore
      _ = M := Nat.mod_eq_of_lt hMn

/-- C2: for distinct odd primes `p` and `q`, with `n = p * q`, the exponent `e` selected by
`generate_keypair` and `d = mod_inverse(e, phi)`, every `m` with `0 ≤ m < n` satisfies
`mod_pow(mod_pow(m, e, n), d, n) = m`, whether or not `m` is coprime to `n`. -/
theorem generate_keypair_valid (p q : Nat) (hp : p.Prime) (hq : q.Prime)
    (hpo : p % 2 = 1) (hqo : q % 2 = 1) (hpq : p ≠ q) :
    ∃ e d : Int,
      generate_keypair_assemble p q = .ok ((e, (p : Int) * q), (d, (p : Int) * q)) ∧
      e = select_exponent (((p : Int) - 1) * ((q : Int) - 1)) ∧
      mod_inverse e (((p : Int) - 1) * ((q : Int) - 1)) = .ok d ∧
      ∀ m : Int, 0 ≤ m → m < (p : Int) * q →
        ∃ c : Int, mod_pow m e ((p : Int) * q) = .ok c ∧
          mod_pow c d ((p : Int) * q) = .ok m := by
  obtain ⟨h4, heven⟩ := phi_of_odd_primes p q hp hq hpo hqo
  obtain ⟨_, _, hg, h3⟩ := select_exponent_spec _ h4 heven
  obtain ⟨d, hd, hd0, hdlt, hed⟩ :=
    mod_inverse_ok (select_exponent (((p : Int) - 1) * ((q : Int) - 1))) _
      (by omega) (by omega) hg
  refine ⟨_, d, ?_, rfl, hd, ?_⟩
  · unfold generate_keypair_assemble
    simp only [hd]
  · intro m hm0 hmn
    have hed' : select_exponent (((p : Int) - 1) * ((q : Int) - 1)) * d ≡ 1
        [ZMOD ((p : Int) - 1) * ((q : Int) - 1)] := by
      have h1 : (1 : Int) % (((p : Int) - 1) * ((q : Int) - 1)) = 1 :=
        Int.emod_eq_of_lt (by norm_num) (by omega)
      show _ % _ = _ % _
      rw [hed]
    obtain ⟨c, hc, _, _, hback⟩ :=
      mod_pow_mod_pow_inverse p q hp hq hpq _ d (by omega) hd0 hed' m hm0 hmn
    exact ⟨c, hc, hback⟩

/-- Instance of key validity at `p = 17`, `q = 19`. -/
theorem generate_keypair_valid_witness :
    ∃ e d : Int,
      generate_keypair_assemble (17 : Nat) (19 : Nat) =
        .ok ((e, ((17 : Nat) : Int) * (19 : Nat)), (d, ((17 : Nat) : Int) * (19 : Nat))) ∧
      e = select_exponent ((((17 : Nat) : Int) - 1) * (((19 : Nat) : Int) - 1)) ∧
      mod_inverse e ((((17 : Nat) : Int) - 1) * (((19 : Nat) : Int) - 1)) = .ok d ∧
      ∀ m : Int, 0 ≤ m → m < ((17 : Nat) : Int) * (19 : Nat) →
        ∃ c : Int, mod_pow m e (((17 : Nat) : Int) * (19 : Nat)) = .ok c ∧
          mod_pow c d (((17 : Nat) : Int) * (19 : Nat)) = .ok m :=
  generate_keypair_valid 17 19 (by norm_num) (by norm_num) (by decide) (by decide) (by decide)

/-! ## Padding codec -/

/-- The checking loop accepts exactly when every visited position holds `pad_len`. -/
theorem remove_padding_check_iff (data : List Byte) (pad_len : Byte) :
    ∀ (steps i : Nat), remove_padding_check data pad_len steps i = true ↔
      ∀ j : Nat, i ≤ j → j < i + steps → data.getD j 0 = pad_len := by
  intro steps
  induction steps with
  | zero =>
    intro i
    simp only [remove_padding_check, true_iff]
    intro j h1 h2
    omega
  | succ steps ih =>
    intro i
    simp only [remove_padding_check]
    by_cases hi : data.getD i 0 = pad_len
    · simp only [ne_eq, hi, not_true_eq_false, if_false, ih]
      constructor
      · intro h j h1 h2
        rcases Nat.eq_or_lt_of_le h1 with rfl | hlt
        · exact hi
        · exact h j hlt (by omega)
      · intro h j h1 h2
        exact h j (by omega) (by omega)
    · simp only [ne_eq, hi, not_false_eq_true, if_true, Bool.false_eq_true, false_iff]
      intro h
      exact hi (h i le_rfl (by omega))

theorem getLastD_eq_getLast (data : List Byte) (hne : data ≠ []) :
    data.getLastD 0 = data.getLast hne := by
  rw [List.getLastD_eq_getLast?, List.getLast?_eq_getLast data hne]
  rfl

/-- Value of `remove_padding` on a non-empty buffer, in terms of its last byte. -/
theorem remove_padding_eq (data : List Byte) (hne : data ≠ []) :
    (((data.getLast hne).val = 0 ∨ (data.getLast hne).val > data.length ∨
        ∃ j : Nat, data.length - (data.getLast hne).val ≤ j ∧ j < data.length ∧
          data.getD j 0 ≠ data.getLast hne) →
      remove_padding data = .error .InvalidPadding) ∧
    (¬ ((data.getLast hne).val = 0 ∨ (data.getLast hne).val > data.length ∨
        ∃ j : Nat, data.length - (data.getLast hne).val ≤ j ∧ j < data.length ∧
          data.getD j 0 ≠ data.getLast hne) →
      remove_padding data = .ok (data.take (data.length - (data.getLast hne).val))) := by
  unfold remove_padding
  have hemp : data.isEmpty = false := by
    cases data with
    | nil => exact absurd rfl hne
    | cons a l => rfl
  simp only [hemp, Bool.false_eq_true, if_false, getLastD_eq_getLast data hne]
  set p := data.getLast hne with hp
  by_cases h1 : p.val = 0 ∨ p.val > data.length
  · rw [if_pos h1]
    refine ⟨fun _ => rfl, fun hc => absurd ?_ hc⟩
    rcases h1 with h | h
    · exact Or.inl h
    · exact Or.inr (Or.inl h)
  · rw [if_neg h1]
    have hle : p.val ≤ data.length := by
      by_contra hc
      exact h1 (Or.inr (by omega))
    by_cases h2 : remove_padding_check data p p.val (data.length - p.val) = true
    · rw [if_pos h2]
      refine ⟨fun hc => absurd hc ?_, fun _ => rfl⟩
      rintro (h | h | ⟨j, hj1, hj2, hj3⟩)
      · exact h1 (Or.inl h)
      · exact h1 (Or.inr h)
      · exact hj3 ((remove_padding_check_iff data p _ _).mp h2 j hj1 (by omega))
    · rw [if_neg h2]
      refine ⟨fun _ => rfl, fun hc => absurd ?_ hc⟩
      right; right
      by_contra hc
      apply h2
      rw [remove_padding_check_iff]
      intro j hj1 hj2
      by_contra hne'
      exact hc ⟨j, hj1, by omega, hne'⟩

/-- C10: on a non-empty buffer with last byte `p`, `remove_padding` fails, with
`InvalidPadding`, exactly when `p = 0`, or `p > len`, or one of the trailing `p` bytes
differs from `p`; when it does not fail it returns the first `len - p` bytes. -/
theorem remove_padding_rejection (data : List Byte) (hne : data ≠ []) :
    (remove_padding data = .error .InvalidPadding ↔
      ((data.getLast hne).val = 0 ∨ (data.getLast hne).val > data.length ∨
        ∃ j : Nat, data.length - (data.getLast hne).val ≤ j ∧ j < data.length ∧
          data.getD j 0 ≠ data.getLast hne)) ∧
    (∀ err, remove_padding data = .error err → err = .InvalidPadding) ∧
    (∀ out, remove_padding data = .ok out →
      out = data.take (data.length - (data.getLast hne).val)) ∧
    ((∃ out, remove_padding data = .ok out) ∨ remove_padding data = .error .InvalidPadding) := by
  obtain ⟨hbad, hgood⟩ := remove_padding_eq data hne
  by_cases h : ((data.getLast hne).val = 0 ∨ (data.getLast hne).val > data.length ∨
        ∃ j : Nat, data.length - (data.getLast hne).val ≤ j ∧ j < data.length ∧
          data.getD j 0 ≠ data.getLast hne)
  · rw [hbad h]
    refine ⟨⟨fun _ => h, fun _ => rfl⟩, ?_, ?_, Or.inr rfl⟩
    · intro err herr
      injection herr with herr
      exact herr.symm
    · intro out hout
      cases hout
  · rw [hgood h]
    refine ⟨⟨fun hc => (by cases hc), fun hc => absurd hc h⟩, ?_, ?_, Or.inl ⟨_, rfl⟩⟩
    · intro err herr
      cases herr
    · intro out hout
      injection hout with hout
      exact hout.symm

/-- Instance of the rejection rule at the buffer `[7, 2, 2]`. -/
theorem remove_padding_rejection_witness :
    (remove_padding [7, 2, 2] = .error .InvalidPadding ↔
      ((([7, 2, 2] : List Byte).getLast (by decide)).val = 0 ∨
        (([7, 2, 2] : List Byte).getLast (by decide)).val > ([7, 2, 2] : List Byte).length ∨
        ∃ j : Nat, ([7, 2, 2] : List Byte).length -
            (([7, 2, 2] : List Byte).getLast (by decide)).val ≤ j ∧
          j < ([7, 2, 2] : List Byte).length ∧
          ([7, 2, 2] : List Byte).getD j 0 ≠ ([7, 2, 2] : List Byte).getLast (by decide))) ∧
    (∀ err, remove_padding [7, 2, 2] = .error err → err = .InvalidPadding) ∧
    (∀ out, remove_padding [7, 2, 2] = .ok out →
      out = ([7, 2, 2] : List Byte).take (([7, 2, 2] : List Byte).length -
        (([7, 2, 2] : List Byte).getLast (by decide)).val)) ∧
    ((∃ out, remove_padding [7, 2, 2] = .ok out) ∨
      remove_padding [7, 2, 2] = .error .InvalidPadding) :=
  remove_padding_rejection [7, 2, 2] (by decide)

/-- Value of `add_padding` followed by `remove_padding` when the pad length fits a byte. -/
theorem remove_padding_append_replicate (B : List Byte) (n : Nat) (h1 : 1 ≤ n)
    (h255 : n ≤ 255) :
    remove_padding (B ++ List.replicate n (Fin.ofNat n)) = .ok B := by
  have hval : (Fin.ofNat n : Byte).val = n := by
    show n % 256 = n
    omega
  have hne : B ++ List.replicate n (Fin.ofNat n : Byte) ≠ [] := by
    intro h
    have := congrArg List.length h
    simp at this
    omega
  have hlast : (B ++ List.replicate n (Fin.ofNat n : Byte)).getLast hne = Fin.ofNat n := by
    have h2 : (B ++ List.replicate n (Fin.ofNat n : Byte)).getLast? = some (Fin.ofNat n) := by
      rw [List.getLast?_append, List.getLast?_replicate, if_neg (by omega)]
      rfl
    rw [List.getLast?_eq_getLast _ hne] at h2
    exact Option.some.inj h2
  have hlen : (B ++ List.replicate n (Fin.ofNat n : Byte)).length = B.length + n := by simp
  rw [(remove_padding_eq _ hne).2, hlast, hval, hlen]
  · congr 1
    have : B.length + n - n = B.length := by omega
    rw [this, List.take_left]
  · rw [hlast, hval, hlen]
    rintro (h | h | ⟨j, hj1, hj2, hj3⟩)
    · omega
    · omega
    · apply hj3
      rw [List.getD_append_right _ _ _ _ (by omega), List.getD_eq_getElem?_getD,
        List.getElem?_replicate, if_pos (by omega)]
      rfl

/-- Padding the empty sequence to block size 256 writes 256 bytes of value
`static_cast<uint8_t>(256) = 0`, which `remove_padding` rejects. -/
theorem add_padding_256_not_removed :
    add_padding [] 256 = .ok (List.replicate 256 0) ∧
      remove_padding (List.replicate 256 0) = .error .InvalidPadding ∧
      ¬ ∃ padded, add_padding [] 256 = .ok padded ∧ remove_padding padded = .ok [] := by
  have h1 : add_padding [] 256 = .ok (List.replicate 256 0) := by
    unfold add_padding
    rw [if_neg (by decide)]
    rfl
  have h2 : remove_padding (List.replicate 256 (0 : Byte)) = .error .InvalidPadding := by
    have hne : List.replicate 256 (0 : Byte) ≠ [] :=
      List.ne_nil_of_length_pos (by rw [List.length_replicate]; decide)
    have hlast : (List.replicate 256 (0 : Byte)).getLast hne = 0 := by
      have h3 := List.getLast?_replicate (0 : Byte) 256
      rw [List.getLast?_eq_getLast _ hne, if_neg (by decide)] at h3
      exact Option.some.inj h3
    apply (remove_padding_eq _ hne).1
    left
    rw [hlast]
    rfl
  refine ⟨h1, h2, ?_⟩
  rintro ⟨padded, hp, hr⟩
  rw [h1] at hp
  injection hp with hp
  rw [← hp, h2] at hr
  cases hr

/-- Where the pad length `k - (len(B) mod k)` fits a byte (so for every block size
`1 ≤ k ≤ 255`), `add_padding` succeeds and `remove_padding` of its result succeeds and
equals `B`. -/
theorem remove_padding_add_padding (B : List Byte) (k : Nat) (hk : 1 ≤ k)
    (hpad : k - B.length % k ≤ 255) :
    ∃ padded, add_padding B k = .ok padded ∧ remove_padding padded = .ok B := by
  refine ⟨_, ?_, remove_padding_append_replicate B (k - B.length % k) ?_ hpad⟩
  · unfold add_padding
    rw [if_neg (by omega)]
  · have := Nat.mod_lt B.length (show 0 < k by omega)
    omega

/-- Instance of the padding round trip at `[T, E, S, T]` and block size 8. -/
theorem remove_padding_add_padding_witness :
    ∃ padded, add_padding [84, 69, 83, 84] 8 = .ok padded ∧
      remove_padding padded = .ok [84, 69, 83, 84] :=
  remove_padding_add_padding [84, 69, 83, 84] 8 (by decide) (by decide)

/-! ## Fermat test -/

/-- All rounds pass: the loop accepts after consuming one draw per round. -/
theorem is_prime_loop_all_pass (n : Int) (gen : Nat → Nat) (hn3 : n - 3 ≠ 0) :
    ∀ (rounds pos : Nat),
      (∀ i : Nat, i < rounds → mod_pow (fermat_base n gen (pos + i)) (n - 1) n = .ok 1) →
      is_prime_loop n gen rounds pos = .ok (true, pos + rounds) := by
  intro rounds
  induction rounds with
  | zero =>
    intro pos _
    rfl
  | succ rounds ih =>
    intro pos h
    have h0 := h 0 (Nat.succ_pos rounds)
    rw [Nat.add_zero] at h0
    simp only [is_prime_loop, if_neg hn3, h0, ne_eq, not_true_eq_false, if_false]
    rw [ih (pos + 1)]
    · congr 2
      omega
    · intro i hi
      have := h (i + 1) (Nat.succ_lt_succ hi)
      have e : pos + (i + 1) = pos + 1 + i := by omega
      rwa [e] at this

/-- A round fails after `j` passing rounds: the loop rejects right there. -/
theorem is_prime_loop_first_fail (n : Int) (gen : Nat → Nat) (hn3 : n - 3 ≠ 0) (hn0 : n ≠ 0) :
    ∀ (j rounds pos : Nat), j < rounds →
      (∀ i : Nat, i < j → mod_pow (fermat_base n gen (pos + i)) (n - 1) n = .ok 1) →
      mod_pow (fermat_base n gen (pos + j)) (n - 1) n ≠ .ok 1 →
      is_prime_loop n gen rounds pos = .ok (false, pos + j + 1) := by
  intro j
  induction j with
  | zero =>
    intro rounds pos hj _ hfail
    obtain ⟨r, rfl⟩ : ∃ r, rounds = r + 1 := ⟨rounds - 1, by omega⟩
    rw [Nat.add_zero] at hfail
    have hok : mod_pow (fermat_base n gen pos) (n - 1) n =
        .ok (mod_pow_loop n 1 ((fermat_base n gen pos).tmod n) (n - 1)) := by
      unfold mod_pow
      rw [if_neg hn0]
    have hne : mod_pow_loop n 1 ((fermat_base n gen pos).tmod n) (n - 1) ≠ 1 := by
      intro hc
      exact hfail (by rw [hok, hc])
    simp only [is_prime_loop, if_neg hn3, hok, ne_eq, hne, not_false_eq_true, if_true]
  | succ j ih =>
    intro rounds pos hj hpass hfail
    obtain ⟨r, rfl⟩ : ∃ r, rounds = r + 1 := ⟨rounds - 1, by omega⟩
    have h0 := hpass 0 (Nat.succ_pos j)
    rw [Nat.add_zero] at h0
    simp only [is_prime_loop, if_neg hn3, h0, ne_eq, not_true_eq_false, if_false]
    rw [ih r (pos + 1) (by omega)]
    · congr 2
      omega
    · intro i hi
      have := hpass (i + 1) (Nat.succ_lt_succ hi)
      have e : pos + (i + 1) = pos + 1 + i := by omega
      rwa [e] at this
    · have e : pos + (j + 1) = pos + 1 + j := by omega
      rwa [e] at hfail

/-- Past the three early tests `is_prime` is its loop. -/
theorem is_prime_eq_loop (n k : Int) (gen : Nat → Nat) (pos : Nat) (h3 : 3 ≤ n)
    (hodd : n % 2 = 1) : is_prime n k gen pos = is_prime_loop n gen k.toNat pos := by
  have ht : ¬ n.tmod 2 = 0 := by
    rw [Int.tmod_eq_emod (by omega) (by norm_num)]; omega
  unfold is_prime
  rw [if_neg (by omega), if_neg (by omega), if_neg ht]

theorem is_prime_two (k : Int) (gen : Nat → Nat) (pos : Nat) :
    is_prime 2 k gen pos = .ok (true, pos) := by
  unfold is_prime
  rw [if_neg (by decide), if_pos rfl]

/-- C8: whatever the rounds `k` and the draws, `is_prime` returns `false` for `n ≤ 1`,
`true` for `n = 2` and `false` for every even `n > 2`, each without consuming a draw; for
every odd `n ≥ 5` it returns `true` exactly when every base `2 + (r_i mod (n - 3))`,
`i = 1..k`, satisfies `mod_pow(a_i, n - 1, n) = 1`, after `k` draws, and otherwise returns
`false` right after the draw of the first failing base. -/
theorem is_prime_characterisation (n k : Int) (gen : Nat → Nat) (pos : Nat) :
    (n ≤ 1 → is_prime n k gen pos = .ok (false, pos)) ∧
    (n = 2 → is_prime n k gen pos = .ok (true, pos)) ∧
    (2 < n → n % 2 = 0 → is_prime n k gen pos = .ok (false, pos)) ∧
    (5 ≤ n → n % 2 = 1 →
      ((∃ pos', is_prime n k gen pos = .ok (true, pos')) ↔
        ∀ i : Nat, i < k.toNat → mod_pow (fermat_base n gen (pos + i)) (n - 1) n = .ok 1) ∧
      ((∀ i : Nat, i < k.toNat → mod_pow (fermat_base n gen (pos + i)) (n - 1) n = .ok 1) →
        is_prime n k gen pos = .ok (true, pos + k.toNat)) ∧
      (∀ j : Nat, j < k.toNat →
        (∀ i : Nat, i < j → mod_pow (fermat_base n gen (pos + i)) (n - 1) n = .ok 1) →
        mod_pow (fermat_base n gen (pos + j)) (n - 1) n ≠ .ok 1 →
        is_prime n k gen pos = .ok (false, pos + j + 1))) := by
  refine ⟨?_, ?_, ?_, ?_⟩
  · intro h
    unfold is_prime
    rw [if_pos h]
  · intro h
    rw [h]
    exact is_prime_two k gen pos
  · intro h2 heven
    unfold is_prime
    have ht : n.tmod 2 = 0 := by
      rw [Int.tmod_eq_emod (by omega) (by norm_num)]; exact heven
    rw [if_neg (by omega), if_neg (by omega), if_pos ht]
  · intro h5 hodd
    have hn3 : n - 3 ≠ 0 := by omega
    have hn0 : n ≠ 0 := by omega
    have hall := is_prime_loop_all_pass n gen hn3 k.toNat pos
    have hfail := fun j => is_prime_loop_first_fail n gen hn3 hn0 j k.toNat pos
    rw [is_prime_eq_loop n k gen pos (by omega) hodd]
    refine ⟨⟨?_, fun h => ⟨_, hall h⟩⟩, hall, hfail⟩
    rintro ⟨pos', hpos'⟩
    by_contra hc
    -- take the first failing round
    have hex : ∃ j : Nat, j < k.toNat ∧
        mod_pow (fermat_base n gen (pos + j)) (n - 1) n ≠ .ok 1 := by
      by_contra hno
      apply hc
      intro i hi
      by_contra hne
      exact hno ⟨i, hi, hne⟩
    classical
    have hspec := Nat.find_spec hex
    have hmin := fun i (hi : i < Nat.find hex) => Nat.find_min hex hi
    have := hfail (Nat.find hex) hspec.1 (fun i hi => by
      by_contra hne
      exact hmin i hi ⟨by omega, hne⟩) hspec.2
    rw [this] at hpos'
    injection hpos' with hpos'
    injection hpos' with hb _
    cases hb

/-- C7 (failing input): on the prime `3` with the default five rounds the first draw is
reduced modulo `n - 3 = 0`, which raises; `is_prime` does not return. -/
theorem is_prime_three_raises (gen : Nat → Nat) (pos : Nat) :
    is_prime 3 5 gen pos = .error .DivisionByZero := by
  unfold is_prime
  rw [if_neg (by decide), if_neg (by decide), if_neg (by decide)]
  rfl

/-- Every base drawn for an odd `n ≥ 5` lies in `[2, n - 2]`. -/
theorem fermat_base_range (n : Int) (h5 : 5 ≤ n) (gen : Nat → Nat) (pos : Nat) :
    2 ≤ fermat_base n gen pos ∧ fermat_base n gen pos ≤ n - 2 := by
  unfold fermat_base
  have h1 : 0 ≤ ((dist64 gen pos : Nat) : Int).tmod (n - 3) :=
    Int.tmod_nonneg _ (Int.natCast_nonneg _)
  have h2 : ((dist64 gen pos : Nat) : Int).tmod (n - 3) < n - 3 :=
    Int.tmod_lt_of_pos _ (by omega)
  constructor <;> omega

/-- Apart from `3`, primes are accepted: for every prime `n ≠ 3`, every `k` and every
stream of draws, `is_prime` returns `true`. -/
theorem is_prime_accepts_prime (n : Nat) (hn : n.Prime) (h3 : n ≠ 3) (k : Int)
    (gen : Nat → Nat) (pos : Nat) :
    ∃ pos', is_prime n k gen pos = .ok (true, pos') := by
  have h2 := hn.two_le
  rcases Nat.lt_or_ge n 5 with hlt | h5
  · -- `n = 2` (`4` is not prime)
    have hn2 : n = 2 := by
      interval_cases n
      · rfl
      · exact absurd rfl h3
      · exact absurd hn (by norm_num)
    subst hn2
    exact ⟨pos, is_prime_two k gen pos⟩
  · have hodd : (n : Int) % 2 = 1 := by
      have := hn.eq_one_or_self_of_dvd 2
      have hnat : n % 2 = 1 := by
        rcases Nat.mod_two_eq_zero_or_one n with h0 | h1
        · have hd : 2 ∣ n := Nat.dvd_of_mod_eq_zero h0
          rcases this hd with h | h
          · omega
          · omega
        · exact h1
      omega
    have h5' : (5 : Int) ≤ n := by exact_mod_cast h5
    rw [is_prime_eq_loop n k gen pos (by omega) hodd]
    refine ⟨_, is_prime_loop_all_pass n gen (by omega) k.toNat pos ?_⟩
    intro i _
    obtain ⟨hlo, hhi⟩ := fermat_base_range n h5' gen (pos + i)
    obtain ⟨A, hA⟩ : ∃ A : Nat, fermat_base n gen (pos + i) = (A : Int) :=
      ⟨(fermat_base n gen (pos + i)).toNat, (Int.toNat_of_nonneg (by omega)).symm⟩
    rw [hA] at hlo hhi ⊢
    have hA2 : 2 ≤ A := by exact_mod_cast hlo
    have hAn : A < n := by
      have : (A : Int) < n := by omega
      exact_mod_cast this
    rw [mod_pow_eq (A : Int) ((n : Int) - 1) n (by omega) (by omega) (by omega),
      if_neg (by omega)]
    congr 1
    have hexp : ((n : Int) - 1).toNat = n - 1 := by omega
    rw [hexp]
    have hcop : Nat.Coprime A n := (Nat.coprime_of_lt_prime (by omega) hAn hn).symm
    have hf : A ^ (n - 1) ≡ 1 [MOD n] := by
      have := Nat.ModEq.pow_totient hcop
      rwa [Nat.totient_prime hn] at this
    have h1n : 1 % n = 1 := Nat.mod_eq_of_lt (by omega)
    have hnat : A ^ (n - 1) % n = 1 := by
      have : A ^ (n - 1) % n = 1 % n := hf
      rw [this, h1n]
    have : ((A ^ (n - 1) % n : Nat) : Int) = 1 := by exact_mod_cast hnat
    rw [← this]
    push_cast
    rfl

/-! ## File round trip -/

theorem msb_323 : msb 323 = .ok 8 := by
  simp [msb, Nat.log2]

theorem mod_pow_1_323 (e : Int) (he : 0 ≤ e) : mod_pow 1 e 323 = .ok 1 := by
  rw [mod_pow_eq 1 e 323 (by decide) he (by decide)]
  split <;> simp


theorem mod_pow_2_65537_323 : mod_pow 2 65537 323 = .ok 257 := by
  rw [mod_pow_eq 2 65537 323 (by decide) (by decide) (by decide), if_neg (by decide)]
  have : (65537 : Int).toNat = 65537 := rfl
  rw [this]
  norm_num

theorem generate_keypair_assemble_eq (p q n phi e d : Int) (hn : p * q = n)
    (hphi : (p - 1) * (q - 1) = phi) (he : select_exponent phi = e)
    (hd : mod_inverse e phi = .ok d) :
    generate_keypair_assemble p q = .ok ((e, n), (d, n)) := by
  unfold generate_keypair_assemble
  simp only [hn, hphi, he, hd]

theorem process_file_encrypt_eq (data padded : List Byte) (exp n : Int) (top : Nat)
    (hmsb : msb n = .ok top) (hpad : add_padding data (top / 8) = .ok padded) :
    process_file data (exp, n) "encrypt" =
      encrypt_loop padded (top / 8) ((top + 7) / 8) exp n
        (block_count padded.length (top / 8)) 0 [] := by
  unfold process_file
  simp only [hmsb, hpad, if_true]

theorem process_file_decrypt_eq (data : List Byte) (exp n : Int) (top : Nat)
    (hmsb : msb n = .ok top) (hcs : (top + 7) / 8 ≠ 0)
    (hlen : data.length % ((top + 7) / 8) = 0) :
    process_file data (exp, n) "decrypt" =
      match decrypt_loop data (top / 8) ((top + 7) / 8) exp n
          (block_count data.length ((top + 7) / 8)) 0 [] with
      | .error err => .error err
      | .ok temp => remove_padding temp := by
  unfold process_file
  have hmode : ¬ ("decrypt" = "encrypt") := by decide
  simp only [hmsb, if_neg hmode, if_neg hcs, hlen, ne_eq, not_true_eq_false, if_false]

/-- The key pair assembled from `p = 17`, `q = 19`. -/
theorem generate_keypair_assemble_17_19 :
    generate_keypair_assemble 17 19 = .ok ((65537, 323), (161, 323)) := by
  have he : select_exponent 288 = 65537 := by
    unfold select_exponent
    rw [if_neg (by decide)]
  have hd : mod_inverse 65537 288 = .ok 161 := by
    obtain ⟨r, hr, h0, h1, h2⟩ :=
      mod_inverse_ok 65537 288 (by decide) (by decide) (by decide)
    have : r = 161 := by omega
    rw [hr, this]
  exact generate_keypair_assemble_eq 17 19 323 288 65537 161 (by decide) (by decide) he hd

theorem encrypt_loop_succ_ok (data : List Byte) (bs cs : Nat) (e n : Int) (blocks i : Nat)
    (result : List Byte) (c : Int) (h : encrypt_block (decode_block data i bs) e n = .ok c) :
    encrypt_loop data bs cs e n (blocks + 1) i result =
      encrypt_loop data bs cs e n blocks (i + bs) (result ++ encode_cipher c cs) := by
  simp only [encrypt_loop, h]

theorem decrypt_loop_succ_ok (data : List Byte) (bs cs : Nat) (d n : Int) (blocks i : Nat)
    (temp : List Byte) (m : Int) (h : decrypt_block (decode_block data i cs) d n = .ok m) :
    decrypt_loop data bs cs d n (blocks + 1) i temp =
      decrypt_loop data bs cs d n blocks (i + cs) (temp ++ encode_plain m bs []) := by
  simp only [decrypt_loop, h]

/-- Encryption of the one-byte file `[2]` under `(65537, 323)`: the block `257` loses its
high byte. -/
theorem process_file_encrypt_17_19 :
      process_file [2] (65537, 323) "encrypt" = .ok [1, 1] := by
    rw [process_file_encrypt_eq [2] [2, 1] 65537 323 8 msb_323 rfl]
    have hcount : block_count ([2, 1] : List Byte).length (8 / 8) = 1 + 1 := by decide
    have hd0 : decode_block [2, 1] 0 (8 / 8) = 2 := by decide
    have hd1 : decode_block [2, 1] (0 + 8 / 8) (8 / 8) = 1 := by decide
    have he0 : encrypt_block 2 65537 323 = .ok 257 := by
      unfold encrypt_block
      rw [if_neg (by decide), mod_pow_2_65537_323]
    have he1 : encrypt_block 1 65537 323 = .ok 1 := by
      unfold encrypt_block
      rw [if_neg (by decide), mod_pow_1_323 _ (by decide)]
    have hc0 : encode_cipher 257 ((8 + 7) / 8) = [1] := by decide
    have hc1 : encode_cipher 1 ((8 + 7) / 8) = [1] := by decide
    rw [hcount, encrypt_loop_succ_ok _ _ _ _ _ 1 0 [] 257 (by rw [hd0]; exact he0),
      encrypt_loop_succ_ok _ _ _ _ _ 0 _ _ 1 (by rw [hd1]; exact he1), hc0, hc1]
    rfl

/-- Decryption of `[1, 1]` under `(161, 323)`. -/
theorem process_file_decrypt_17_19 :
      process_file [1, 1] (161, 323) "decrypt" = .ok [1] := by
    rw [process_file_decrypt_eq [1, 1] 161 323 8 msb_323 (by decide) (by decide)]
    have hcount : block_count ([1, 1] : List Byte).length ((8 + 7) / 8) = 1 + 1 := by decide
    have hd0 : decode_block [1, 1] 0 ((8 + 7) / 8) = 1 := by decide
    have hd1 : decode_block [1, 1] (0 + (8 + 7) / 8) ((8 + 7) / 8) = 1 := by decide
    have he1 : decrypt_block 1 161 323 = .ok 1 := by
      unfold decrypt_block
      rw [if_neg (by decide), mod_pow_1_323 _ (by decide)]
    have hp1 : encode_plain 1 (8 / 8) [] = [1] := by decide
    have hrem : remove_padding [1, 1] = .ok [1] := by rfl
    rw [hcount, decrypt_loop_succ_ok _ _ _ _ _ 1 0 [] 1 (by rw [hd0]; exact he1),
      decrypt_loop_succ_ok _ _ _ _ _ 0 _ _ 1 (by rw [hd1]; exact he1), hp1]
    exact hrem

/-- C1 (failing input): `p = 17`, `q = 19` give the key pair `(65537, 323)`, `(161, 323)`;
the modulus has 9 bits, so `block_size = 1` and `cipher_size = (8 + 7) / 8 = 1`.  The file
`[2]` is padded to `[2, 1]`; the first block encrypts to `257`, of which only the low byte
`1` is written, and the ciphertext `[1, 1]` decrypts to `[1]`, not to `[2]`. -/
theorem process_file_round_trip_17_19 :
    generate_keypair_assemble 17 19 = .ok ((65537, 323), (161, 323)) ∧
      process_file [2] (65537, 323) "encrypt" = .ok [1, 1] ∧
      process_file [1, 1] (161, 323) "decrypt" = .ok [1] ∧
      process_file [1, 1] (161, 323) "decrypt" ≠ .ok [2] ∧
      mod_pow 2 65537 323 = .ok 257 := by
  refine ⟨generate_keypair_assemble_17_19, process_file_encrypt_17_19,
    process_file_decrypt_17_19, ?_, mod_pow_2_65537_323⟩
  rw [process_file_decrypt_17_19]
  intro h
  injection h with h
  exact absurd h (by decide)

/-! ## Big-endian block encoding -/

theorem decode_block_succ (data : List Byte) (i w : Nat) :
    decode_block data i (w + 1) =
      decode_block data i w * 256 + ((data.getD (i + w) 0).val : Int) := by
  unfold decode_block
  rw [List.range_succ, List.foldl_append]
  rfl

theorem decode_block_zero (data : List Byte) (i : Nat) : decode_block data i 0 = 0 := rfl

/-- A decoded block of `w` bytes is a value in `[0, 256 ^ w)`. -/
theorem decode_block_range (data : List Byte) (i : Nat) :
    ∀ w : Nat, 0 ≤ decode_block data i w ∧ decode_block data i w < 256 ^ w := by
  intro w
  induction w with
  | zero => simp [decode_block_zero]
  | succ w ih =>
    rw [decode_block_succ, pow_succ]
    have hb : ((data.getD (i + w) 0).val : Int) < 256 := by
      exact_mod_cast (data.getD (i + w) 0).isLt
    have hb0 : (0 : Int) ≤ ((data.getD (i + w) 0).val : Int) := Int.natCast_nonneg _
    constructor
    · nlinarith [ih.1]
    · nlinarith [ih.2]

/-- Decoding reads only the `w` bytes from index `i`. -/
theorem decode_block_congr (data data' : List Byte) (i i' : Nat) :
    ∀ w : Nat, (∀ j : Nat, j < w → data.getD (i + j) 0 = data'.getD (i' + j) 0) →
      decode_block data i w = decode_block data' i' w := by
  intro w
  induction w with
  | zero => intro _; rfl
  | succ w ih =>
    intro h
    rw [decode_block_succ, decode_block_succ, ih (fun j hj => h j (by omega)), h w (by omega)]

theorem encode_plain_acc (w : Nat) :
    ∀ (m : Int) (acc : List Byte), encode_plain m w acc = encode_plain m w [] ++ acc := by
  induction w with
  | zero => intro m acc; rfl
  | succ w ih =>
    intro m acc
    simp only [encode_plain]
    rw [ih (m / 256) (_ :: acc), ih (m / 256) [_]]
    simp

theorem byte_ofNat_val (b : Byte) : (Fin.ofNat ((b.val : Int)).toNat : Byte) = b := by
  apply Fin.ext
  show ((b.val : Int)).toNat % 256 = b.val
  rw [Int.toNat_ofNat]
  exact Nat.mod_eq_of_lt b.isLt

/-- Writing a decoded block back gives the bytes that were read. -/
theorem encode_plain_decode_block (data : List Byte) (i : Nat) :
    ∀ w : Nat, encode_plain (decode_block data i w) w [] =
      (List.range w).map (fun j => data.getD (i + j) 0) := by
  intro w
  induction w with
  | zero => rfl
  | succ w ih =>
    rw [decode_block_succ]
    simp only [encode_plain]
    have hb : ((data.getD (i + w) 0).val : Int) < 256 := by
      exact_mod_cast (data.getD (i + w) 0).isLt
    have hb0 : (0 : Int) ≤ ((data.getD (i + w) 0).val : Int) := Int.natCast_nonneg _
    have hdiv : (decode_block data i w * 256 + ((data.getD (i + w) 0).val : Int)) / 256 =
        decode_block data i w := by omega
    have hmod : (decode_block data i w * 256 + ((data.getD (i + w) 0).val : Int)) % 256 =
        ((data.getD (i + w) 0).val : Int) := by omega
    rw [hdiv, hmod, encode_plain_acc, ih, byte_ofNat_val, List.range_succ, List.map_append]
    rfl

theorem range_map_getD (data : List Byte) (i w : Nat) (h : i + w ≤ data.length) :
    (List.range w).map (fun j => data.getD (i + j) 0) = (data.drop i).take w := by
  apply List.ext_getElem?
  intro n
  rw [List.getElem?_map, List.getElem?_take]
  by_cases hn : n < w
  · rw [List.getElem?_range hn, if_pos hn, List.getElem?_drop]
    simp only [Option.map_some']
    rw [List.getD_eq_getElem _ _ (by omega), List.getElem?_eq_getElem (by omega)]
  · rw [if_neg hn]
    have : (List.range w)[n]? = none := by
      rw [List.getElem?_eq_none]; simp; omega
    rw [this]
    rfl

theorem encode_cipher_length (c : Int) (cs : Nat) : (encode_cipher c cs).length = cs := by
  simp [encode_cipher]

/-- The `j`-th byte written for `c` is the digit of weight `256 ^ (cs - 1 - j)`. -/
theorem encode_cipher_getD (C : Nat) (cs j : Nat) (hj : j < cs) :
    (((encode_cipher (C : Int) cs).getD j 0).val : Int) =
      ((C / 256 ^ (cs - 1 - j) % 256 : Nat) : Int) := by
  have hlen : j < (encode_cipher (C : Int) cs).length := by
    rw [encode_cipher_length]; exact hj
  rw [List.getD_eq_getElem _ _ hlen]
  have hrev : j < (List.range cs).reverse.length := by simp; exact hj
  have hidx : (List.range cs).reverse[j] = cs - 1 - j := by
    rw [List.getElem_reverse, List.getElem_range, List.length_range]
  simp only [encode_cipher, List.getElem_map, hidx]
  have h2 : (2 : Int) ^ (8 * (cs - 1 - j)) = ((256 ^ (cs - 1 - j) : Nat) : Int) := by
    rw [pow_mul]; norm_num
  rw [h2]
  have h3 : ((C : Int) / ((256 ^ (cs - 1 - j) : Nat) : Int)) % 256 =
      ((C / 256 ^ (cs - 1 - j) % 256 : Nat) : Int) := by
    norm_cast
  rw [h3, Int.toNat_ofNat]
  show (((C / 256 ^ (cs - 1 - j) % 256) % 256 : Nat) : Int) = _
  rw [Nat.mod_mod]

theorem div_pow_succ_digit (C k : Nat) :
    C / 256 ^ (k + 1) * 256 + C / 256 ^ k % 256 = C / 256 ^ k := by
  rw [pow_succ, ← Nat.div_div_eq_div_mul, mul_comm]
  exact Nat.div_add_mod _ _

/-- Decoding the bytes written for `c < 256 ^ cs`, wherever they sit in a buffer, gives `c`. -/
theorem decode_block_encode_cipher (C : Nat) (cs : Nat) (hC : C < 256 ^ cs) (X : List Byte)
    (i : Nat)
    (hX : ∀ j : Nat, j < cs → X.getD (i + j) 0 = (encode_cipher (C : Int) cs).getD j 0) :
    decode_block X i cs = (C : Int) := by
  have haux : ∀ w : Nat, w ≤ cs → decode_block X i w = ((C / 256 ^ (cs - w) : Nat) : Int) := by
    intro w
    induction w with
    | zero =>
      intro _
      rw [decode_block_zero, Nat.sub_zero, Nat.div_eq_of_lt hC]
      rfl
    | succ w ih =>
      intro hw
      rw [decode_block_succ, ih (by omega), hX w (by omega), encode_cipher_getD C cs w (by omega)]
      have e1 : cs - w = (cs - 1 - w) + 1 := by omega
      have e2 : cs - (w + 1) = cs - 1 - w := by omega
      rw [e1, e2]
      exact_mod_cast div_pow_succ_digit C (cs - 1 - w)
  have := haux cs le_rfl
  rw [this, Nat.sub_self, pow_zero, Nat.div_one]

/-! ## The block loops undo each other -/

theorem take_drop_succ_block (data : List Byte) (i bs blocks : Nat) :
    (data.drop i).take ((blocks + 1) * bs) =
      (data.drop i).take bs ++ (data.drop (i + bs)).take (blocks * bs) := by
  have e : (blocks + 1) * bs = bs + blocks * bs := by ring
  rw [e, List.take_add, List.drop_drop]

/-- Encrypting `blocks` blocks of `data` from index `i` writes `blocks * cs` bytes, and the
decrypt loop run over those bytes, wherever they start in its buffer, writes back the bytes
that were read, provided a plaintext block is below the modulus (`256 ^ bs ≤ n`) and a
cipher block fits its width (`n ≤ 256 ^ cs`). -/
theorem encrypt_loop_decrypt_loop (p q : Nat) (hp : p.Prime) (hq : q.Prime) (hpq : p ≠ q)
    (e d : Int) (he : 0 < e) (hd : 0 ≤ d)
    (hed : e * d ≡ 1 [ZMOD ((p : Int) - 1) * ((q : Int) - 1)])
    (bs cs : Nat) (hbs : (256 : Int) ^ bs ≤ (p : Int) * q) (hcs : (p : Int) * q ≤ 256 ^ cs)
    (data : List Byte) :
    ∀ (blocks i : Nat) (acc : List Byte), i + blocks * bs ≤ data.length →
      ∃ ct : List Byte, ct.length = blocks * cs ∧
        encrypt_loop data bs cs e ((p : Int) * q) blocks i acc = .ok (acc ++ ct) ∧
        ∀ (pre temp : List Byte),
          decrypt_loop (pre ++ ct) bs cs d ((p : Int) * q) blocks pre.length temp =
            .ok (temp ++ (data.drop i).take (blocks * bs)) := by
  intro blocks
  induction blocks with
  | zero =>
    intro i acc _
    refine ⟨[], by simp, ?_, ?_⟩
    · simp [encrypt_loop]
    · intro pre temp
      simp [decrypt_loop]
  | succ blocks ih =>
    intro i acc hlen
    have hsplit : (blocks + 1) * bs = bs + blocks * bs := by ring
    obtain ⟨hm0, hmlt⟩ := decode_block_range data i bs
    have hmn : decode_block data i bs < (p : Int) * q := lt_of_lt_of_le hmlt hbs
    obtain ⟨c, hc, hc0, hcn, hback⟩ :=
      mod_pow_mod_pow_inverse p q hp hq hpq e d he hd hed _ hm0 hmn
    have henc : encrypt_block (decode_block data i bs) e ((p : Int) * q) = .ok c := by
      unfold encrypt_block
      rw [if_neg (by omega), hc]
    have hdec : decrypt_block c d ((p : Int) * q) = .ok (decode_block data i bs) := by
      unfold decrypt_block
      rw [if_neg (by omega), hback]
    obtain ⟨ct, hctlen, hctenc, hctdec⟩ :=
      ih (i + bs) (acc ++ encode_cipher c cs) (by omega)
    refine ⟨encode_cipher c cs ++ ct, ?_, ?_, ?_⟩
    · rw [List.length_append, encode_cipher_length, hctlen]; ring
    · rw [encrypt_loop_succ_ok _ _ _ _ _ _ _ _ c henc, hctenc, List.append_assoc]
    · intro pre temp
      -- the first cipher block of the buffer decodes to `c`
      obtain ⟨C, rfl⟩ : ∃ C : Nat, c = (C : Int) := ⟨c.toNat, (Int.toNat_of_nonneg hc0).symm⟩
      have hC : C < 256 ^ cs := by
        have : (C : Int) < 256 ^ cs := lt_of_lt_of_le hcn hcs
        exact_mod_cast this
      have hread : decode_block (pre ++ (encode_cipher (C : Int) cs ++ ct)) pre.length cs =
          (C : Int) := by
        apply decode_block_encode_cipher C cs hC
        intro j hj
        rw [List.getD_append_right _ _ _ _ (by omega), List.getD_append _ _ _ _
          (by rw [encode_cipher_length]; omega)]
        congr 1
        omega
      have hdec' : decrypt_block
          (decode_block (pre ++ (encode_cipher (C : Int) cs ++ ct)) pre.length cs) d
            ((p : Int) * q) = .ok (decode_block data i bs) := by
        rw [hread]; exact hdec
      rw [decrypt_loop_succ_ok _ _ _ _ _ _ _ _ _ hdec', encode_plain_decode_block,
        range_map_getD data i bs (by omega)]
      have hbuf : pre ++ (encode_cipher (C : Int) cs ++ ct) =
          (pre ++ encode_cipher (C : Int) cs) ++ ct := by rw [List.append_assoc]
      have hidx : pre.length + cs = (pre ++ encode_cipher (C : Int) cs).length := by
        rw [List.length_append, encode_cipher_length]
      rw [hbuf, hidx, hctdec, take_drop_succ_block, List.append_assoc]

/-- The key assembly on odd primes: it succeeds, with the selected exponent and its inverse. -/
theorem generate_keypair_assemble_ok (p q : Nat) (hp : p.Prime) (hq : q.Prime)
    (hpo : p % 2 = 1) (hqo : q % 2 = 1) :
    ∃ e d : Int,
      generate_keypair_assemble p q = .ok ((e, (p : Int) * q), (d, (p : Int) * q)) ∧
      e = select_exponent (((p : Int) - 1) * ((q : Int) - 1)) ∧
      mod_inverse e (((p : Int) - 1) * ((q : Int) - 1)) = .ok d ∧
      3 ≤ e ∧ Int.gcd e (((p : Int) - 1) * ((q : Int) - 1)) = 1 ∧
      0 ≤ d ∧ d < ((p : Int) - 1) * ((q : Int) - 1) ∧
      e * d ≡ 1 [ZMOD ((p : Int) - 1) * ((q : Int) - 1)] := by
  obtain ⟨h4, heven⟩ := phi_of_odd_primes p q hp hq hpo hqo
  obtain ⟨_, _, hg, h3⟩ := select_exponent_spec _ h4 heven
  obtain ⟨d, hd, hd0, hdlt, hed⟩ :=
    mod_inverse_ok (select_exponent (((p : Int) - 1) * ((q : Int) - 1))) _
      (by omega) (by omega) hg
  refine ⟨_, d, ?_, rfl, hd, h3, hg, hd0, hdlt, ?_⟩
  · unfold generate_keypair_assemble
    simp only [hd]
  · have h1 : (1 : Int) % (((p : Int) - 1) * ((q : Int) - 1)) = 1 :=
      Int.emod_eq_of_lt (by norm_num) (by omega)
    show _ % _ = _ % _
    rw [hed]

theorem msb_natCast (N : Nat) (hN : 0 < N) : msb (N : Int) = .ok (Nat.log2 N) := by
  unfold msb
  rw [if_neg (by omega), Int.toNat_ofNat]

/-- The two block widths against the modulus: a plaintext block is below `n`, and when the
index of the top bit is not a multiple of 8 a value below `n` fits a cipher block. -/
theorem block_widths (N : Nat) (hN : 0 < N) :
    256 ^ (Nat.log2 N / 8) ≤ N ∧
      (Nat.log2 N % 8 ≠ 0 → N ≤ 256 ^ ((Nat.log2 N + 7) / 8)) := by
  have h1 : 2 ^ Nat.log2 N ≤ N := Nat.log2_self_le (by omega)
  have h2 : N < 2 ^ (Nat.log2 N + 1) := Nat.lt_log2_self
  have e256 : ∀ k : Nat, 256 ^ k = 2 ^ (8 * k) := by
    intro k; rw [pow_mul]; norm_num
  constructor
  · rw [e256]
    exact le_trans (Nat.pow_le_pow_right (by norm_num) (by omega)) h1
  · intro hr
    rw [e256]
    exact le_trans h2.le (Nat.pow_le_pow_right (by norm_num) (by omega))

/-- File round trip where the widths are right: for distinct odd primes `p`, `q` whose
product has its top bit at an index `top` with `8 ≤ top`, `top` not a multiple of 8 and
`top / 8 ≤ 255`, encrypting any file with the public key and decrypting the result with the
private key gives the file back. -/
theorem process_file_round_trip (p q : Nat) (hp : p.Prime) (hq : q.Prime)
    (hpo : p % 2 = 1) (hqo : q % 2 = 1) (hpq : p ≠ q)
    (h8 : 8 ≤ Nat.log2 (p * q)) (hr : Nat.log2 (p * q) % 8 ≠ 0)
    (h255 : Nat.log2 (p * q) / 8 ≤ 255) (B : List Byte) :
    ∃ (e d : Int) (ct : List Byte),
      generate_keypair_assemble p q = .ok ((e, (p : Int) * q), (d, (p : Int) * q)) ∧
      process_file B (e, (p : Int) * q) "encrypt" = .ok ct ∧
      process_file ct (d, (p : Int) * q) "decrypt" = .ok B := by
  obtain ⟨e, d, hkey, _, _, h3, _, hd0, _, hed⟩ :=
    generate_keypair_assemble_ok p q hp hq hpo hqo
  have hN : 0 < p * q := Nat.mul_pos hp.pos hq.pos
  have hcast : ((p * q : Nat) : Int) = (p : Int) * q := by push_cast; rfl
  have hmsb : msb ((p : Int) * q) = .ok (Nat.log2 (p * q)) := by
    rw [← hcast]; exact msb_natCast _ hN
  obtain ⟨hw1, hw2⟩ := block_widths (p * q) hN
  have hbs : (256 : Int) ^ (Nat.log2 (p * q) / 8) ≤ (p : Int) * q := by
    rw [← hcast]; exact_mod_cast hw1
  have hcs : (p : Int) * q ≤ 256 ^ ((Nat.log2 (p * q) + 7) / 8) := by
    rw [← hcast]; exact_mod_cast hw2 hr
  set top := Nat.log2 (p * q) with htop
  set bs := top / 8 with hbsdef
  set cs := (top + 7) / 8 with hcsdef
  have hbs1 : 1 ≤ bs := by omega
  have hcs1 : 1 ≤ cs := by omega
  -- the padded input
  have hmodlt : B.length % bs < bs := Nat.mod_lt _ (by omega)
  have hpadlen : 1 ≤ bs - B.length % bs ∧ bs - B.length % bs ≤ 255 := by omega
  have hpad : add_padding B bs =
      .ok (B ++ List.replicate (bs - B.length % bs) (Fin.ofNat (bs - B.length % bs))) := by
    unfold add_padding
    rw [if_neg (by omega)]
  set padded := B ++ List.replicate (bs - B.length % bs) (Fin.ofNat (bs - B.length % bs))
    with hpadded
  have hplen : padded.length = (B.length / bs + 1) * bs := by
    rw [hpadded, List.length_append, List.length_replicate]
    have := Nat.div_add_mod B.length bs
    have e1 : (B.length / bs + 1) * bs = bs * (B.length / bs) + bs := by ring
    omega
  have hcount : block_count padded.length bs = B.length / bs + 1 := by
    unfold block_count
    rw [hplen]
    have e1 : (B.length / bs + 1) * bs + bs - 1 = (bs - 1) + bs * (B.length / bs + 1) := by
      have : (B.length / bs + 1) * bs = bs * (B.length / bs + 1) := by ring
      omega
    rw [e1, Nat.add_mul_div_left _ _ (by omega), Nat.div_eq_of_lt (by omega), zero_add]
  obtain ⟨ct, hctlen, hctenc, hctdec⟩ :=
    encrypt_loop_decrypt_loop p q hp hq hpq e d (by omega) hd0 hed bs cs hbs hcs padded
      (B.length / bs + 1) 0 [] (by rw [hplen]; omega)
  refine ⟨e, d, ct, hkey, ?_, ?_⟩
  · rw [process_file_encrypt_eq B padded e _ top hmsb hpad, hcount, hctenc, List.nil_append]
  · have hctmod : ct.length % cs = 0 := by rw [hctlen]; exact Nat.mul_mod_left _ _
    have hcount' : block_count ct.length cs = B.length / bs + 1 := by
      unfold block_count
      rw [hctlen]
      have e1 : (B.length / bs + 1) * cs + cs - 1 = (cs - 1) + cs * (B.length / bs + 1) := by
        have : (B.length / bs + 1) * cs = cs * (B.length / bs + 1) := by ring
        omega
      rw [e1, Nat.add_mul_div_left _ _ (by omega), Nat.div_eq_of_lt (by omega), zero_add]
    have hdec := hctdec [] []
    rw [List.nil_append, List.length_nil, List.nil_append, List.drop_zero, ← hplen,
      List.take_length] at hdec
    rw [process_file_decrypt_eq ct d _ top hmsb (by omega) hctmod, hcount', hdec]
    exact remove_padding_append_replicate B _ hpadlen.1 hpadlen.2

/-! ## Block widths -/

theorem spec_bitlen_eq (N : Nat) (hN : 0 < N) : spec_bitlen N = Nat.log2 N + 1 := by
  unfold spec_bitlen
  rw [Nat.digits_len 2 N (by norm_num) (by omega), Nat.log2_eq_log_two]

theorem block_size_natCast (N : Nat) (hN : 0 < N) :
    block_size (N : Int) = .ok (Nat.log2 N / 8) := by
  unfold block_size
  rw [msb_natCast N hN]

theorem cipher_size_natCast (N : Nat) (hN : 0 < N) :
    cipher_size (N : Int) = .ok ((Nat.log2 N + 7) / 8) := by
  unfold cipher_size
  rw [msb_natCast N hN]

/-- The plaintext block width for the modulus `2 ^ t`. -/
theorem block_size_two_pow (t : Nat) : block_size ((2 : Int) ^ t) = .ok (t / 8) := by
  have h := block_size_natCast (2 ^ t) (Nat.two_pow_pos t)
  rw [Nat.log2_two_pow] at h
  rw [← h]
  push_cast
  rfl

set_option maxRecDepth 100000 in
/-- Block size 511 on a one-byte file: the pad length `510` is stored as the byte `254`. -/
theorem add_padding_511 : add_padding [65] 511 = .ok (65 :: List.replicate 510 254) := rfl

set_option maxRecDepth 100000 in
/-- The last byte `254` of that buffer passes the checks of `remove_padding`, which cuts
`254` bytes and leaves `257`. -/
theorem remove_padding_511 :
    remove_padding (65 :: List.replicate 510 254) = .ok (65 :: List.replicate 256 254) := rfl

/-- C9 (failing input): `B = []` with block size `k = 256`, the width `msb(n) / 8` that
`process_file` passes for a modulus of 2050 bits.  `add_padding` writes 256 bytes of value
`static_cast<uint8_t>(256) = 0` and `remove_padding` rejects them, where the round trip
should return `B`.  With `B = [65]` and `k = 511` the pad length `510` is written as the
byte `254`, and `remove_padding` returns 257 bytes, not `B`. -/
theorem padding_round_trip_wide_block :
    block_size (2 ^ 2049) = .ok 256 ∧
    (add_padding [] 256 = .ok (List.replicate 256 0) ∧
      remove_padding (List.replicate 256 0) = .error .InvalidPadding ∧
      ¬ ∃ padded, add_padding [] 256 = .ok padded ∧ remove_padding padded = .ok []) ∧
    (add_padding [65] 511 = .ok (65 :: List.replicate 510 254) ∧
      remove_padding (65 :: List.replicate 510 254) = .ok (65 :: List.replicate 256 254) ∧
      (65 :: List.replicate 256 254 : List Byte).length = 257) := by
  refine ⟨block_size_two_pow 2049, add_padding_256_not_removed,
    add_padding_511, remove_padding_511, ?_⟩
  rw [List.length_cons, List.length_replicate]

/-- The two widths name what `process_file` computes: with them the encrypt branch is the
block loop over the padded input. -/
theorem process_file_encrypt_widths (data padded : List Byte) (exp n : Int) (bs cs : Nat)
    (hbs : block_size n = .ok bs) (hcs : cipher_size n = .ok cs)
    (hpad : add_padding data bs = .ok padded) :
    process_file data (exp, n) "encrypt" =
      encrypt_loop padded bs cs exp n (block_count padded.length bs) 0 [] := by
  unfold block_size at hbs
  unfold cipher_size at hcs
  cases hm : msb n with
  | error err => rw [hm] at hbs; cases hbs
  | ok top =>
    rw [hm] at hbs hcs
    injection hbs with hbs
    injection hcs with hcs
    subst hbs hcs
    exact process_file_encrypt_eq data padded exp n top hm hpad

/-- With the two widths the decrypt branch is the alignment test, the block loop and the
unpadding. -/
theorem process_file_decrypt_widths (data : List Byte) (exp n : Int) (bs cs : Nat)
    (hbs : block_size n = .ok bs) (hcs : cipher_size n = .ok cs) (hcs0 : cs ≠ 0) :
    process_file data (exp, n) "decrypt" =
      if data.length % cs ≠ 0 then .error .MisalignedCiphertext
      else
        match decrypt_loop data bs cs exp n (block_count data.length cs) 0 [] with
        | .error err => .error err
        | .ok temp => remove_padding temp := by
  unfold block_size at hbs
  unfold cipher_size at hcs
  cases hm : msb n with
  | error err => rw [hm] at hbs; cases hbs
  | ok top =>
    rw [hm] at hbs hcs
    injection hbs with hbs
    injection hcs with hcs
    subst hbs hcs
    have hmode : ¬ ("decrypt" = "encrypt") := by decide
    unfold process_file
    simp only [hm, if_neg hmode, if_neg hcs0]

/-- C11 (counterexample): for `n = 255` (8 bits) `block_size` is `0`, not
`floor(8 / 8) = 1`; for `n = 323` (9 bits) `cipher_size` is `1`, not `ceil(9 / 8) = 2`. -/
theorem widths_differ_from_spec :
    block_size 255 = .ok 0 ∧ spec_Bp 255 = 1 ∧ cipher_size 323 = .ok 1 ∧ spec_Bc 323 = 2 ∧
      ¬ (∀ n : Nat, 1 ≤ n →
        block_size (n : Int) = .ok (spec_Bp n) ∧ cipher_size (n : Int) = .ok (spec_Bc n)) := by
  have h1 : block_size 255 = .ok 0 := by
    have := block_size_natCast 255 (by norm_num)
    simpa [Nat.log2] using this
  have h2 : spec_Bp 255 = 1 := by
    simp [spec_Bp, spec_bitlen]
  have h3 : cipher_size 323 = .ok 1 := by
    have := cipher_size_natCast 323 (by norm_num)
    simpa [Nat.log2] using this
  have h4 : spec_Bc 323 = 2 := by
    simp [spec_Bc, spec_bitlen]
  refine ⟨h1, h2, h3, h4, ?_⟩
  intro hall
  have h := (hall 255 (by norm_num)).1
  rw [h2] at h
  have h1' : block_size ((255 : Nat) : Int) = .ok 0 := h1
  rw [h1'] at h
  injection h with h
  exact absurd h (by decide)

/-- C11 (amended): for every modulus `n ≥ 1`, `block_size` is `floor((bitlen(n) - 1) / 8)`,
which is `floor(bitlen(n) / 8)` unless `bitlen(n)` is a multiple of 8, and `cipher_size` is
`ceil(bitlen(n) / 8)` whenever `bitlen(n) mod 8 ≠ 1`. -/
theorem widths_against_spec (n : Nat) (hn : 1 ≤ n) :
    block_size (n : Int) = .ok ((spec_bitlen n - 1) / 8) ∧
      (spec_bitlen n % 8 ≠ 0 → block_size (n : Int) = .ok (spec_Bp n)) ∧
      (spec_bitlen n % 8 ≠ 1 → cipher_size (n : Int) = .ok (spec_Bc n)) := by
  have hb := spec_bitlen_eq n (by omega)
  rw [block_size_natCast n (by omega), cipher_size_natCast n (by omega)]
  unfold spec_Bp spec_Bc
  rw [hb]
  refine ⟨?_, ?_, ?_⟩
  · congr 1
  · intro h
    congr 1
    omega
  · intro h
    congr 1
    omega

/-- Instance of the amended width statement at `n = 527` (10 bits). -/
theorem widths_against_spec_witness :
    block_size ((527 : Nat) : Int) = .ok ((spec_bitlen 527 - 1) / 8) ∧
      (spec_bitlen 527 % 8 ≠ 0 → block_size ((527 : Nat) : Int) = .ok (spec_Bp 527)) ∧
      (spec_bitlen 527 % 8 ≠ 1 → cipher_size ((527 : Nat) : Int) = .ok (spec_Bc 527)) :=
  widths_against_spec 527 (by decide)

/-! ## The encrypt branch -/

/-- `mod_pow` returns for every modulus other than zero. -/
theorem mod_pow_ok (base exp mod : Int) (hm : mod ≠ 0) :
    mod_pow base exp mod = .ok (mod_pow_loop mod 1 (base.tmod mod) exp) := by
  unfold mod_pow
  rw [if_neg hm]

/-- A block below the modulus is encrypted without error. -/
theorem encrypt_block_ok (m e n : Int) (hmn : m < n) (hn : n ≠ 0) :
    encrypt_block m e n = .ok (mod_pow_loop n 1 (m.tmod n) e) := by
  unfold encrypt_block
  rw [if_neg (by omega), mod_pow_ok m e n hn]

/-- With `256 ^ bs ≤ n` the block loop of the encrypt branch never fails and writes
`cs` bytes per block. -/
theorem encrypt_loop_ok (data : List Byte) (bs cs : Nat) (e n : Int)
    (hbs : (256 : Int) ^ bs ≤ n) :
    ∀ (blocks i : Nat) (acc : List Byte),
      ∃ out : List Byte, encrypt_loop data bs cs e n blocks i acc = .ok out ∧
        out.length = acc.length + blocks * cs := by
  have hn : 0 < n := lt_of_lt_of_le (by positivity) hbs
  intro blocks
  induction blocks with
  | zero =>
    intro i acc
    exact ⟨acc, rfl, by simp⟩
  | succ blocks ih =>
    intro i acc
    have hmn : decode_block data i bs < n := lt_of_lt_of_le (decode_block_range data i bs).2 hbs
    rw [encrypt_loop_succ_ok _ _ _ _ _ _ _ _ _ (encrypt_block_ok _ e n hmn hn.ne')]
    obtain ⟨out, hout, hlen⟩ := ih (i + bs) (acc ++ encode_cipher _ cs)
    refine ⟨out, hout, ?_⟩
    rw [hlen, List.length_append, encode_cipher_length]
    ring

theorem block_size_pow_le (N : Nat) (hN : 0 < N) :
    (256 : Int) ^ (Nat.log2 N / 8) ≤ (N : Int) := by
  exact_mod_cast (block_widths N hN).1

/-- The encrypt branch fails in one way only: on a zero block width. -/
theorem process_file_encrypt_cases (data : List Byte) (e : Int) (N : Nat) (hN : 0 < N) :
    (Nat.log2 N / 8 = 0 ∧ process_file data (e, (N : Int)) "encrypt" = .error .DivisionByZero) ∨
    (0 < Nat.log2 N / 8 ∧ ∃ out : List Byte,
      process_file data (e, (N : Int)) "encrypt" = .ok out ∧
      out.length = ((Nat.log2 N + 7) / 8) * (data.length / (Nat.log2 N / 8) + 1)) := by
  have hmsb := msb_natCast N hN
  by_cases h0 : Nat.log2 N / 8 = 0
  · left
    refine ⟨h0, ?_⟩
    unfold process_file
    simp only [hmsb, h0, add_padding, if_true]
  · right
    have hpos : 0 < Nat.log2 N / 8 := Nat.pos_of_ne_zero h0
    refine ⟨hpos, ?_⟩
    set bs := Nat.log2 N / 8 with hbsdef
    have hpad : add_padding data bs =
        .ok (data ++ List.replicate (bs - data.length % bs) (Fin.ofNat (bs - data.length % bs))) := by
      unfold add_padding
      rw [if_neg h0]
    have hmodlt : data.length % bs < bs := Nat.mod_lt _ hpos
    have hplen : (data ++ List.replicate (bs - data.length % bs)
        (Fin.ofNat (bs - data.length % bs) : Byte)).length = (data.length / bs + 1) * bs := by
      rw [List.length_append, List.length_replicate]
      have := Nat.div_add_mod data.length bs
      have e1 : (data.length / bs + 1) * bs = bs * (data.length / bs) + bs := by ring
      omega
    have hcount : block_count ((data.length / bs + 1) * bs) bs = data.length / bs + 1 := by
      unfold block_count
      have e1 : (data.length / bs + 1) * bs + bs - 1 =
          (bs - 1) + bs * (data.length / bs + 1) := by
        have : (data.length / bs + 1) * bs = bs * (data.length / bs + 1) := by ring
        omega
      rw [e1, Nat.add_mul_div_left _ _ hpos, Nat.div_eq_of_lt (by omega), zero_add]
    obtain ⟨out, hout, hlen⟩ :=
      encrypt_loop_ok (data ++ List.replicate (bs - data.length % bs)
        (Fin.ofNat (bs - data.length % bs))) bs ((Nat.log2 N + 7) / 8) e (N : Int)
        (block_size_pow_le N hN) (data.length / bs + 1) 0 []
    refine ⟨out, ?_, ?_⟩
    · rw [process_file_encrypt_eq data _ e _ _ hmsb hpad, hplen, hcount, hout]
    · rw [hlen, List.length_nil, zero_add, mul_comm]

/-- C12: for every modulus `n ≥ 1` and every `block_size` bytes of input, the integer `m`
decoded big-endian at lines 165-167 satisfies `0 ≤ m < n`, so `encrypt_block` returns on it,
and the encrypt branch of `process_file` never fails with `BlockTooLarge`. -/
theorem plaintext_block_below_modulus (n : Nat) (hn : 1 ≤ n) (data : List Byte) (i : Nat)
    (e : Int) :
    ∃ bs : Nat, block_size (n : Int) = .ok bs ∧
      0 ≤ decode_block data i bs ∧ decode_block data i bs < (n : Int) ∧
      (∃ c : Int, encrypt_block (decode_block data i bs) e n = .ok c) ∧
      process_file data (e, (n : Int)) "encrypt" ≠ .error .BlockTooLarge := by
  have hN : 0 < n := by omega
  have hlt : decode_block data i (Nat.log2 n / 8) < (n : Int) :=
    lt_of_lt_of_le (decode_block_range data i _).2 (block_size_pow_le n hN)
  refine ⟨Nat.log2 n / 8, block_size_natCast n hN, (decode_block_range data i _).1, hlt,
    ⟨_, encrypt_block_ok _ e n hlt (by omega)⟩, ?_⟩
  rcases process_file_encrypt_cases data e n hN with ⟨_, h⟩ | ⟨_, out, h, _⟩
  · rw [h]
    intro hc
    cases hc
  · rw [h]
    intro hc
    cases hc

/-- Instance of C12 at `n = 323` and the one-byte block `[255]`. -/
theorem plaintext_block_below_modulus_witness :
    ∃ bs : Nat, block_size ((323 : Nat) : Int) = .ok bs ∧
      0 ≤ decode_block [255] 0 bs ∧ decode_block [255] 0 bs < ((323 : Nat) : Int) ∧
      (∃ c : Int, encrypt_block (decode_block [255] 0 bs) 65537 (323 : Nat) = .ok c) ∧
      process_file [255] (65537, ((323 : Nat) : Int)) "encrypt" ≠ .error .BlockTooLarge :=
  plaintext_block_below_modulus 323 (by decide) [255] 0 65537

/-- C14: for every key `(e, n)` with `n ≥ 256` and every input `B`, the encrypt branch of
`process_file` succeeds and writes exactly `cipher_size * (floor(len(B) / block_size) + 1)`
bytes, with `block_size ≥ 1` and `cipher_size ≥ 1`; the output is never empty. -/
theorem ciphertext_length (e n : Int) (hn : 256 ≤ n) (B : List Byte) :
    ∃ (bs cs : Nat) (out : List Byte),
      block_size n = .ok bs ∧ cipher_size n = .ok cs ∧ 1 ≤ bs ∧ 1 ≤ cs ∧
      process_file B (e, n) "encrypt" = .ok out ∧
      out.length = cs * (B.length / bs + 1) ∧ out ≠ [] := by
  obtain ⟨N, rfl⟩ : ∃ N : Nat, n = (N : Int) := ⟨n.toNat, (Int.toNat_of_nonneg (by omega)).symm⟩
  have hN256 : 2 ^ 8 ≤ N := by
    have : (256 : Int) ≤ N := hn
    exact_mod_cast this
  have hN : 0 < N := by omega
  have h8 : 8 ≤ Nat.log2 N := (Nat.le_log2 (by omega)).mpr hN256
  rcases process_file_encrypt_cases B e N hN with ⟨h0, _⟩ | ⟨hpos, out, hout, hlen⟩
  · omega
  · refine ⟨_, _, out, block_size_natCast N hN, cipher_size_natCast N hN, hpos, by omega,
      hout, hlen, ?_⟩
    intro hnil
    rw [hnil, List.length_nil] at hlen
    have h1 : 1 ≤ (Nat.log2 N + 7) / 8 := by omega
    have h2 : 1 ≤ B.length / (Nat.log2 N / 8) + 1 := Nat.le_add_left 1 _
    have := Nat.mul_le_mul h1 h2
    omega

/-- Instance of C14 at the key `(65537, 323)` and the file `[2]`. -/
theorem ciphertext_length_witness :
    ∃ (bs cs : Nat) (out : List Byte),
      block_size 323 = .ok bs ∧ cipher_size 323 = .ok cs ∧ 1 ≤ bs ∧ 1 ≤ cs ∧
      process_file [2] (65537, 323) "encrypt" = .ok out ∧
      out.length = cs * (([2] : List Byte).length / bs + 1) ∧ out ≠ [] :=
  ciphertext_length 65537 323 (by decide) [2]

/-! ## Cipher block width -/

/-- Where the index of the top bit of `n` is not a multiple of 8, a value below `n` written
on `cipher_size` bytes is read back unchanged. -/
theorem cipher_block_lossless (N : Nat) (hN : 0 < N) (hr : Nat.log2 N % 8 ≠ 0) (C : Nat)
    (hC : C < N) :
    decode_block (encode_cipher (C : Int) ((Nat.log2 N + 7) / 8)) 0 ((Nat.log2 N + 7) / 8) =
      (C : Int) := by
  apply decode_block_encode_cipher C _ (lt_of_lt_of_le hC ((block_widths N hN).2 hr))
  intro j _
  rw [Nat.zero_add]

/-- C13 (failing input): for `n = 323` the cipher width is one byte; the value `c = 257`,
which is below `n`, is written as the single byte `1` and read back as `1`. -/
theorem cipher_block_truncated :
    cipher_size 323 = .ok 1 ∧ (257 : Int) < 323 ∧ encode_cipher 257 1 = [1] ∧
      decode_block (encode_cipher 257 1) 0 1 = 1 ∧
      decode_block (encode_cipher 257 1) 0 1 ≠ 257 := by
  have h1 : cipher_size 323 = .ok 1 := by
    have := cipher_size_natCast 323 (by norm_num)
    simpa [Nat.log2] using this
  have h2 : encode_cipher 257 1 = [1] := by decide
  have h3 : decode_block (encode_cipher 257 1) 0 1 = 1 := by rw [h2]; decide
  refine ⟨h1, by decide, h2, h3, ?_⟩
  rw [h3]
  decide

/-! ## The decrypt branch -/

/-- A block at or above the modulus stops the decrypt loop with `BlockTooLarge`, whatever
the blocks after it. -/
theorem decrypt_loop_block_too_large (data : List Byte) (bs cs : Nat) (d n : Int)
    (hn : n ≠ 0) :
    ∀ (blocks i : Nat) (temp : List Byte),
      (∃ j : Nat, j < blocks ∧ n ≤ decode_block data (i + j * cs) cs) →
      decrypt_loop data bs cs d n blocks i temp = .error .BlockTooLarge := by
  intro blocks
  induction blocks with
  | zero =>
    rintro i temp ⟨j, hj, _⟩
    omega
  | succ blocks ih =>
    rintro i temp ⟨j, hj, hge⟩
    by_cases hfirst : n ≤ decode_block data i cs
    · simp only [decrypt_loop, decrypt_block, ge_iff_le, if_pos hfirst]
    · have hok : decrypt_block (decode_block data i cs) d n =
          .ok (mod_pow_loop n 1 ((decode_block data i cs).tmod n) d) := by
        unfold decrypt_block
        rw [if_neg (by omega), mod_pow_ok _ d n hn]
      rw [decrypt_loop_succ_ok _ _ _ _ _ _ _ _ _ hok]
      apply ih
      rcases j with _ | j
      · simp only [Nat.zero_mul, Nat.add_zero] at hge
        exact absurd hge hfirst
      · refine ⟨j, by omega, ?_⟩
        have e1 : i + cs + j * cs = i + (j + 1) * cs := by ring
        rw [e1]
        exact hge

theorem block_count_of_dvd (len cs : Nat) (hcs : 0 < cs) (h : len % cs = 0) :
    block_count len cs = len / cs := by
  unfold block_count
  obtain ⟨q, rfl⟩ : ∃ q, len = cs * q := ⟨len / cs, (Nat.mul_div_cancel' (Nat.dvd_of_mod_eq_zero h)).symm⟩
  have e1 : cs * q + cs - 1 = (cs - 1) + cs * q := by omega
  rw [e1, Nat.add_mul_div_left _ _ hcs, Nat.div_eq_of_lt (by omega), zero_add,
    Nat.mul_div_cancel_left _ hcs]

/-- C15: for every key `(d, n)` with `n ≥ 2` and every input, the decrypt branch of
`process_file` fails with `MisalignedCiphertext` when the length is not a multiple of
`cipher_size`, and with `BlockTooLarge` when it is and some block decodes big-endian to a
value `c ≥ n`; a failed run returns no output. -/
theorem decrypt_input_validation (d n : Int) (hn : 2 ≤ n) (data : List Byte) :
    ∃ cs : Nat, cipher_size n = .ok cs ∧ 1 ≤ cs ∧
      (data.length % cs ≠ 0 →
        process_file data (d, n) "decrypt" = .error .MisalignedCiphertext) ∧
      (data.length % cs = 0 →
        (∃ j : Nat, j < data.length / cs ∧ n ≤ decode_block data (j * cs) cs) →
        process_file data (d, n) "decrypt" = .error .BlockTooLarge) := by
  obtain ⟨N, rfl⟩ : ∃ N : Nat, n = (N : Int) := ⟨n.toNat, (Int.toNat_of_nonneg (by omega)).symm⟩
  have hN2 : 2 ^ 1 ≤ N := by
    have : (2 : Int) ≤ N := hn
    exact_mod_cast this
  have hN : 0 < N := by omega
  have h1 : 1 ≤ Nat.log2 N := (Nat.le_log2 (by omega)).mpr hN2
  have hcs1 : 1 ≤ (Nat.log2 N + 7) / 8 := by omega
  have hfile := process_file_decrypt_widths data d (N : Int) _ _ (block_size_natCast N hN)
    (cipher_size_natCast N hN) (by omega)
  refine ⟨_, cipher_size_natCast N hN, hcs1, ?_, ?_⟩
  · intro hmis
    rw [hfile, if_pos hmis]
  · rintro hal ⟨j, hj, hge⟩
    rw [hfile, if_neg (by simpa using hal), block_count_of_dvd _ _ (by omega) hal,
      decrypt_loop_block_too_large data _ _ d (N : Int) (by omega) _ 0 []
        ⟨j, hj, by rw [Nat.zero_add]; exact hge⟩]

/-- Instance of C15 at the key `(7, 527)` and the two-byte input `[255, 255]`. -/
theorem decrypt_input_validation_witness :
    ∃ cs : Nat, cipher_size 527 = .ok cs ∧ 1 ≤ cs ∧
      (([255, 255] : List Byte).length % cs ≠ 0 →
        process_file [255, 255] (7, 527) "decrypt" = .error .MisalignedCiphertext) ∧
      (([255, 255] : List Byte).length % cs = 0 →
        (∃ j : Nat, j < ([255, 255] : List Byte).length / cs ∧
          (527 : Int) ≤ decode_block [255, 255] (j * cs) cs) →
        process_file [255, 255] (7, 527) "decrypt" = .error .BlockTooLarge) :=
  decrypt_input_validation 7 527 (by decide) [255, 255]

/-! ## Prime candidates -/

/-- The bit loop keeps the value below `2 ^ i` for the next bit `i` and makes one draw per
bit. -/
theorem generate_random_bits_loop_spec (gen : Nat → Nat) :
    ∀ (steps i pos result : Nat), result < 2 ^ i →
      (generate_random_bits_loop gen steps i pos result).1 < 2 ^ (i + steps) ∧
      (generate_random_bits_loop gen steps i pos result).2 = pos + steps := by
  intro steps
  induction steps with
  | zero =>
    intro i pos result h
    exact ⟨h, rfl⟩
  | succ steps ih =>
    intro i pos result h
    simp only [generate_random_bits_loop]
    have hlt : result < 2 ^ (i + 1) :=
      lt_of_lt_of_le h (Nat.pow_le_pow_right (by norm_num) (by omega))
    have hbit : 1 <<< i < 2 ^ (i + 1) := by
      rw [Nat.shiftLeft_eq, one_mul]
      exact Nat.pow_lt_pow_right (by norm_num) (by omega)
    have hnew : (if dist64 gen pos &&& 1 ≠ 0 then result ||| (1 <<< i) else result) <
        2 ^ (i + 1) := by
      split
      · exact Nat.or_lt_two_pow hlt hbit
      · exact hlt
    obtain ⟨h1, h2⟩ := ih (i + 1) (pos + 1) _ hnew
    refine ⟨?_, ?_⟩
    · have e : i + (steps + 1) = i + 1 + steps := by omega
      rw [e]; exact h1
    · rw [h2]; omega

/-- Setting bit `k` of a value below `2 ^ (k + 1)` gives a value with exactly `k + 1` bits. -/
theorem or_top_bit_range (x k : Nat) (hx : x < 2 ^ (k + 1)) :
    2 ^ k ≤ x ||| (1 <<< k) ∧ x ||| (1 <<< k) < 2 ^ (k + 1) := by
  have hbit : 1 <<< k = 2 ^ k := by rw [Nat.shiftLeft_eq, one_mul]
  rw [hbit]
  constructor
  · apply Nat.testBit_implies_ge
    rw [Nat.testBit_or, Nat.testBit_two_pow_self, Bool.or_true]
  · exact Nat.or_lt_two_pow hx (Nat.pow_lt_pow_right (by norm_num) (by omega))

/-- Value of `generate_random_bits` for a positive bit length. -/
theorem generate_random_bits_eq (bits : Int) (hbits : 1 ≤ bits) (gen : Nat → Nat) (pos : Nat) :
    ∃ r : Nat, generate_random_bits bits gen pos = .ok ((r : Int), pos + bits.toNat) ∧
      2 ^ (bits.toNat - 1) ≤ r ∧ r < 2 ^ bits.toNat := by
  obtain ⟨b, rfl⟩ : ∃ b : Nat, bits = ((b + 1 : Nat) : Int) :=
    ⟨(bits - 1).toNat, by omega⟩
  have hloop := generate_random_bits_loop_spec gen (b + 1) 0 pos 0 (by norm_num)
  rw [Nat.zero_add] at hloop
  have hsub : (((b + 1 : Nat) : Int) - 1).toNat = b := by omega
  have htop := or_top_bit_range (generate_random_bits_loop gen (b + 1) 0 pos 0).1 b hloop.1
  refine ⟨(generate_random_bits_loop gen (b + 1) 0 pos 0).1 ||| (1 <<< b), ?_, ?_, ?_⟩
  · unfold generate_random_bits
    simp only [Int.toNat_ofNat, hsub]
    rw [if_neg (by omega), hloop.2]
  · simpa using htop.1
  · simpa using htop.2

/-- C19: for every `bits ≥ 1` and every stream of draws, `generate_random_bits(bits)`
returns `r` with `2 ^ (bits - 1) ≤ r < 2 ^ bits` after `bits` draws, and the candidate that
`generate_prime(bits)` hands to `is_prime`, `r` plus one when `r` is even, is odd and still
satisfies `2 ^ (bits - 1) ≤ candidate < 2 ^ bits`. -/
theorem prime_candidate_range (bits : Int) (hbits : 1 ≤ bits) (gen : Nat → Nat) (pos : Nat) :
    ∃ r c : Int,
      generate_random_bits bits gen pos = .ok (r, pos + bits.toNat) ∧
      2 ^ (bits.toNat - 1) ≤ r ∧ r < 2 ^ bits.toNat ∧
      generate_prime_candidate bits gen pos = .ok (c, pos + bits.toNat) ∧
      c = (if r % 2 = 0 then r + 1 else r) ∧
      c % 2 = 1 ∧ 2 ^ (bits.toNat - 1) ≤ c ∧ c < 2 ^ bits.toNat ∧
      ∀ attempts : Nat, generate_prime bits gen (attempts + 1) pos =
        match is_prime c 5 gen (pos + bits.toNat) with
        | .error err => .error err
        | .ok (true, pos2) => .ok (some (c, pos2))
        | .ok (false, pos2) => generate_prime bits gen attempts pos2 := by
  obtain ⟨r, hr, hlo, hhi⟩ := generate_random_bits_eq bits hbits gen pos
  have hcand : generate_prime_candidate bits gen pos =
      .ok (if (r : Int).tmod 2 = 0 then (r : Int) + 1 else (r : Int), pos + bits.toNat) := by
    unfold generate_prime_candidate
    rw [hr]
  have htmod : (r : Int).tmod 2 = (r : Int) % 2 :=
    Int.tmod_eq_emod (Int.natCast_nonneg _) (by norm_num)
  rw [htmod] at hcand
  -- `2 ^ bits` is even
  obtain ⟨half, hhalf⟩ : ∃ half : Nat, 2 ^ bits.toNat = 2 * half := by
    refine ⟨2 ^ (bits.toNat - 1), ?_⟩
    have e : bits.toNat = (bits.toNat - 1) + 1 := by omega
    conv_lhs => rw [e, pow_succ]
    ring
  have hloZ : (2 : Int) ^ (bits.toNat - 1) ≤ (r : Int) := by exact_mod_cast hlo
  have hhiZ : (r : Int) < 2 ^ bits.toNat := by exact_mod_cast hhi
  have hhalfZ : (2 : Int) ^ bits.toNat = 2 * (half : Int) := by exact_mod_cast hhalf
  refine ⟨r, _, hr, hloZ, hhiZ, hcand, rfl, ?_, ?_, ?_, ?_⟩
  · split <;> omega
  · split <;> omega
  · split <;> omega
  · intro attempts
    simp only [generate_prime, hcand]

/-- Instance of C19 at `bits = 8`, the stream of draws `i ↦ 7 * i + 3`. -/
theorem prime_candidate_range_witness :
    ∃ r c : Int,
      generate_random_bits 8 (fun i => 7 * i + 3) 0 = .ok (r, 0 + (8 : Int).toNat) ∧
      2 ^ ((8 : Int).toNat - 1) ≤ r ∧ r < 2 ^ (8 : Int).toNat ∧
      generate_prime_candidate 8 (fun i => 7 * i + 3) 0 = .ok (c, 0 + (8 : Int).toNat) ∧
      c = (if r % 2 = 0 then r + 1 else r) ∧
      c % 2 = 1 ∧ 2 ^ ((8 : Int).toNat - 1) ≤ c ∧ c < 2 ^ (8 : Int).toNat ∧
      ∀ attempts : Nat, generate_prime 8 (fun i => 7 * i + 3) (attempts + 1) 0 =
        match is_prime c 5 (fun i => 7 * i + 3) (0 + (8 : Int).toNat) with
        | .error err => .error err
        | .ok (true, pos2) => .ok (some (c, pos2))
        | .ok (false, pos2) => generate_prime 8 (fun i => 7 * i + 3) attempts pos2 :=
  prime_candidate_range 8 (by decide) (fun i => 7 * i + 3) 0

/-! ## Range of the Fermat bases -/

/-- The values `fermat_base` can take for `n ≥ 5`: the integers of `[2, n - 2]` that do not
exceed `2 ^ 64 + 1`. -/
theorem fermat_base_values (n : Int) (h5 : 5 ≤ n) (a : Int) :
    (∃ (gen : Nat → Nat) (pos : Nat), fermat_base n gen pos = a) ↔
      (2 ≤ a ∧ a ≤ n - 2 ∧ a ≤ 2 ^ 64 + 1) := by
  constructor
  · rintro ⟨gen, pos, rfl⟩
    obtain ⟨hlo, hhi⟩ := fermat_base_range n h5 gen pos
    refine ⟨hlo, hhi, ?_⟩
    unfold fermat_base
    have hd : dist64 gen pos < 2 ^ 64 := Nat.mod_lt _ (by norm_num)
    have hdZ : ((dist64 gen pos : Nat) : Int) < 2 ^ 64 := by exact_mod_cast hd
    rw [Int.tmod_eq_emod (Int.natCast_nonneg _) (by omega)]
    obtain ⟨M, hM⟩ : ∃ M : Nat, n - 3 = (M : Int) :=
      ⟨(n - 3).toNat, (Int.toNat_of_nonneg (by omega)).symm⟩
    have hle : ((dist64 gen pos : Nat) : Int) % (n - 3) ≤ (dist64 gen pos : Nat) := by
      rw [hM]
      exact_mod_cast Nat.mod_le (dist64 gen pos) M
    omega
  · rintro ⟨hlo, hhi, h64⟩
    refine ⟨fun _ => (a - 2).toNat, 0, ?_⟩
    unfold fermat_base dist64
    have hnat : (((a - 2).toNat : Nat) : Int) = a - 2 := Int.toNat_of_nonneg (by omega)
    have hlt : (a - 2).toNat < 2 ^ 64 := by
      have : (((a - 2).toNat : Nat) : Int) < 2 ^ 64 := by rw [hnat]; omega
      exact_mod_cast this
    rw [Nat.mod_eq_of_lt hlt, hnat, Int.tmod_eq_emod (by omega) (by omega),
      Int.emod_eq_of_lt (by omega) (by omega)]
    ring

/-- C20 (counterexample): for the odd `n = 2 ^ 64 + 5` the value `2 ^ 64 + 3 = n - 2` lies
in `[2, n - 2]` and no 64-bit draw gives it. -/
theorem fermat_base_misses_top :
    (5 : Int) ≤ 2 ^ 64 + 5 ∧ ((2 : Int) ^ 64 + 5) % 2 = 1 ∧
      (2 : Int) ≤ 2 ^ 64 + 3 ∧ (2 : Int) ^ 64 + 3 ≤ (2 ^ 64 + 5) - 2 ∧
      ∀ (gen : Nat → Nat) (pos : Nat), fermat_base (2 ^ 64 + 5) gen pos ≠ 2 ^ 64 + 3 := by
  refine ⟨by norm_num, by norm_num, by norm_num, by norm_num, ?_⟩
  intro gen pos h
  have := (fermat_base_values (2 ^ 64 + 5) (by norm_num) (2 ^ 64 + 3)).mp ⟨gen, pos, h⟩
  omega

/-- C20 (amended): for every `n ≥ 5` every base drawn by `is_prime` lies in `[2, n - 2]`,
and the set of bases that can be drawn is exactly the interval `[2, min(n - 2, 2 ^ 64 + 1)]`;
it is all of `[2, n - 2]` when `n ≤ 2 ^ 64 + 3`. -/
theorem fermat_base_interval (n : Int) (h5 : 5 ≤ n) :
    (∀ (gen : Nat → Nat) (pos : Nat),
      2 ≤ fermat_base n gen pos ∧ fermat_base n gen pos ≤ n - 2) ∧
    (∀ a : Int, (∃ (gen : Nat → Nat) (pos : Nat), fermat_base n gen pos = a) ↔
      (2 ≤ a ∧ a ≤ min (n - 2) (2 ^ 64 + 1))) ∧
    (n ≤ 2 ^ 64 + 3 →
      ∀ a : Int, (∃ (gen : Nat → Nat) (pos : Nat), fermat_base n gen pos = a) ↔
        (2 ≤ a ∧ a ≤ n - 2)) := by
  refine ⟨fun gen pos => fermat_base_range n h5 gen pos, ?_, ?_⟩
  · intro a
    rw [fermat_base_values n h5 a, le_min_iff]
  · intro hn a
    rw [fermat_base_values n h5 a]
    constructor
    · rintro ⟨h1, h2, _⟩
      exact ⟨h1, h2⟩
    · rintro ⟨h1, h2⟩
      exact ⟨h1, h2, by omega⟩

/-- Instance of the amended C20 at `n = 7`. -/
theorem fermat_base_interval_witness :
    (∀ (gen : Nat → Nat) (pos : Nat),
      2 ≤ fermat_base 7 gen pos ∧ fermat_base 7 gen pos ≤ 7 - 2) ∧
    (∀ a : Int, (∃ (gen : Nat → Nat) (pos : Nat), fermat_base 7 gen pos = a) ↔
      (2 ≤ a ∧ a ≤ min (7 - 2) (2 ^ 64 + 1))) ∧
    ((7 : Int) ≤ 2 ^ 64 + 3 →
      ∀ a : Int, (∃ (gen : Nat → Nat) (pos : Nat), fermat_base 7 gen pos = a) ↔
        (2 ≤ a ∧ a ≤ 7 - 2)) :=
  fermat_base_interval 7 (by decide)

/-! ## The Carmichael number 561 -/

/-- Every base coprime to `561 = 3 * 11 * 17` passes the Fermat round for `561`: the exponent
`560` is a multiple of `2`, `10` and `16`. -/
theorem pow_560_mod_561 (a : Nat) (h : Nat.Coprime a 561) : a ^ 560 % 561 = 1 := by
  have h3 : Nat.Coprime a 3 := Nat.Coprime.coprime_dvd_right (by norm_num : 3 ∣ 561) h
  have h11 : Nat.Coprime a 11 := Nat.Coprime.coprime_dvd_right (by norm_num : 11 ∣ 561) h
  have h17 : Nat.Coprime a 17 := Nat.Coprime.coprime_dvd_right (by norm_num : 17 ∣ 561) h
  have f3 : a ^ 2 ≡ 1 [MOD 3] := by
    have := Nat.ModEq.pow_totient h3
    rwa [Nat.totient_prime (by norm_num)] at this
  have f11 : a ^ 10 ≡ 1 [MOD 11] := by
    have := Nat.ModEq.pow_totient h11
    rwa [Nat.totient_prime (by norm_num)] at this
  have f17 : a ^ 16 ≡ 1 [MOD 17] := by
    have := Nat.ModEq.pow_totient h17
    rwa [Nat.totient_prime (by norm_num)] at this
  have lift : ∀ (m j k : Nat), a ^ j ≡ 1 [MOD m] → a ^ (j * k) ≡ 1 [MOD m] := by
    intro m j k hj
    have := hj.pow k
    rwa [← pow_mul, one_pow] at this
  have g3 : a ^ 560 ≡ 1 [MOD 3] := by
    have := lift 3 2 280 f3
    norm_num at this
    exact this
  have g11 : a ^ 560 ≡ 1 [MOD 11] := by
    have := lift 11 10 56 f11
    norm_num at this
    exact this
  have g17 : a ^ 560 ≡ 1 [MOD 17] := by
    have := lift 17 16 35 f17
    norm_num at this
    exact this
  have g33 : a ^ 560 ≡ 1 [MOD 3 * 11] :=
    (Nat.modEq_and_modEq_iff_modEq_mul (by norm_num)).mp ⟨g3, g11⟩
  have g561 : a ^ 560 ≡ 1 [MOD 3 * 11 * 17] :=
    (Nat.modEq_and_modEq_iff_modEq_mul (by norm_num)).mp ⟨g33, g17⟩
  exact g561

/-- The base drawn for `n = 561` is `2 + (r mod 558)` for the 64-bit word `r`. -/
theorem fermat_base_561 (gen : Nat → Nat) (pos : Nat) :
    fermat_base 561 gen pos = ((2 + dist64 gen pos % 558 : Nat) : Int) := by
  unfold fermat_base
  have h558 : (561 : Int) - 3 = 558 := by norm_num
  rw [h558, Int.tmod_eq_emod (Int.natCast_nonneg _) (by norm_num : (0 : Int) ≤ 558)]
  push_cast
  rfl

/-- A round of the test for `561` passes on every base `2 + (r mod 558)` coprime to `561`. -/
theorem fermat_round_561 (gen : Nat → Nat) (pos : Nat)
    (h : Nat.Coprime (2 + dist64 gen pos % 558) 561) :
    mod_pow (fermat_base 561 gen pos) (561 - 1) 561 = .ok 1 := by
  rw [fermat_base_561, mod_pow_eq _ _ _ (Int.natCast_nonneg _) (by norm_num) (by norm_num),
    if_neg (by norm_num)]
  have hexp : ((561 : Int) - 1).toNat = 560 := rfl
  have hc : (((2 + dist64 gen pos % 558) ^ 560 % 561 : Nat) : Int) = 1 := by
    exact_mod_cast pow_560_mod_561 _ h
  rw [hexp]
  refine congrArg Except.ok ?_
  rw [← hc, Int.natCast_mod, Nat.cast_pow]
  rfl

/-- C21: `561 = 3 * 11 * 17` is composite, and `is_prime(561, 5)` returns `true`, after five
draws, for every five random words `r_i` whose bases `2 + (r_i mod 558)` are all coprime to
`561`; with every word `0` the base is `2` each time and `561` is accepted.  Hence a
composite `n` and draws exist for which `is_prime(n, 5)` accepts `n`. -/
theorem is_prime_561_false_positive :
    ((561 : Nat) = 3 * 11 * 17 ∧ ¬ Nat.Prime 561) ∧
    (∀ (gen : Nat → Nat) (pos : Nat),
      (∀ i : Nat, i < 5 → fermat_base 561 gen (pos + i) =
        ((2 + dist64 gen (pos + i) % 558 : Nat) : Int)) ∧
      ((∀ i : Nat, i < 5 → Nat.Coprime (2 + dist64 gen (pos + i) % 558) 561) →
        is_prime 561 5 gen pos = .ok (true, pos + 5))) ∧
    ((∀ i : Nat, fermat_base 561 (fun _ => 0) i = 2) ∧ Nat.Coprime 2 561 ∧
      is_prime 561 5 (fun _ => 0) 0 = .ok (true, 5)) ∧
    (∃ (n : Nat) (gen : Nat → Nat), 1 < n ∧ ¬ n.Prime ∧
      is_prime n 5 gen 0 = .ok (true, 5)) := by
  have hcomp : ¬ Nat.Prime 561 := by norm_num
  have hacc : ∀ (gen : Nat → Nat) (pos : Nat),
      (∀ i : Nat, i < 5 → Nat.Coprime (2 + dist64 gen (pos + i) % 558) 561) →
      is_prime 561 5 gen pos = .ok (true, pos + 5) := by
    intro gen pos h
    rw [is_prime_eq_loop 561 5 gen pos (by norm_num) (by norm_num)]
    have h5 : (5 : Int).toNat = 5 := rfl
    rw [h5]
    exact is_prime_loop_all_pass 561 gen (by norm_num) 5 pos
      (fun i hi => fermat_round_561 gen (pos + i) (h i hi))
  have hzero : is_prime 561 5 (fun _ => 0) 0 = .ok (true, 5) := by
    have := hacc (fun _ => 0) 0 (fun i _ => by
      have e : 2 + dist64 (fun _ => 0) (0 + i) % 558 = 2 := by simp [dist64]
      rw [e]
      decide)
    simpa using this
  refine ⟨⟨by norm_num, hcomp⟩, fun gen pos => ⟨fun i _ => fermat_base_561 gen (pos + i),
    hacc gen pos⟩, ⟨fun i => ?_, by decide, hzero⟩, ⟨561, fun _ => 0, by norm_num, hcomp, ?_⟩⟩
  · rw [fermat_base_561]
    simp [dist64]
  · exact_mod_cast hzero

/-! ## `mod_pow` for a modulus of at least two -/

/-- The truncating remainder is congruent to its argument. -/
theorem tmod_modEq (a m : Int) : a.tmod m ≡ a [ZMOD m] := by
  exact Int.modEq_iff_dvd.mpr ⟨a.tdiv m, by linarith [Int.tmod_add_tdiv a m]⟩

/-- One turn of the loop keeps `result * base ^ exp` modulo `mod`. -/
theorem mod_pow_step_invariant (m r b e : Int) (he : 0 < e) :
    (if e.tmod 2 = 1 then (r * b).tmod m else r) * ((b * b).tmod m) ^ (e / 2).toNat
      ≡ r * b ^ e.toNat [ZMOD m] := by
  obtain ⟨n, rfl⟩ : ∃ n : Nat, e = (n : Int) := ⟨e.toNat, (Int.toNat_of_nonneg he.le).symm⟩
  have he2 : (n : Int).tmod 2 = ((n % 2 : Nat) : Int) := by
    rw [Int.tmod_eq_emod (Int.natCast_nonneg _) (by norm_num)]; norm_cast
  have hdiv : ((n : Int) / 2) = ((n / 2 : Nat) : Int) := by norm_cast
  rw [he2, hdiv]
  simp only [Int.toNat_ofNat]
  have hsq : ((b * b).tmod m) ^ (n / 2) ≡ (b * b) ^ (n / 2) [ZMOD m] :=
    (tmod_modEq _ _).pow _
  rcases Nat.mod_two_eq_zero_or_one n with h0 | h0
  · have : ¬ (((n % 2 : Nat) : Int) = 1) := by rw [h0]; norm_num
    rw [if_neg this]
    have hn2 : n = 2 * (n / 2) := by omega
    have e1 : r * b ^ n = r * (b * b) ^ (n / 2) := by
      conv_lhs => rw [hn2, pow_mul]
      ring
    rw [e1]
    exact hsq.mul_left r
  · have : (((n % 2 : Nat) : Int) = 1) := by rw [h0]; norm_num
    rw [if_pos this]
    have hn2 : n = 2 * (n / 2) + 1 := by omega
    have e1 : r * b ^ n = (r * b) * (b * b) ^ (n / 2) := by
      conv_lhs => rw [hn2, pow_succ, pow_mul]
      ring
    rw [e1]
    exact (tmod_modEq _ _).mul hsq

/-- From every state the loop ends with a value congruent to `result * base ^ exp`. -/
theorem mod_pow_loop_modEq (m : Int) :
    ∀ (k : Nat) (r b e : Int), e.toNat = k → 0 ≤ e →
      mod_pow_loop m r b e ≡ r * b ^ e.toNat [ZMOD m] := by
  intro k
  induction k using Nat.strong_induction_on with
  | _ k ih =>
    intro r b e hk he
    rcases eq_or_lt_of_le he with h0 | hpos
    · rw [← h0, mod_pow_loop_zero]
      simp
    · rw [mod_pow_loop_pos m r b e hpos]
      have hlt : (e / 2).toNat < k := by omega
      exact (ih _ hlt _ _ _ rfl (by omega)).trans (mod_pow_step_invariant m r b e hpos)

/-- C22: for `base ≥ 0`, `exp ≥ 0` and `mod ≥ 2`, `mod_pow` returns `base ^ exp mod mod`,
a value in `[0, mod)`.  The loop starts from a state whose `result * base ^ exp` is
congruent to the original power; a turn taken at `exp > 0` moves to a state with a
non-negative, strictly smaller `exp` and a congruent `result * base ^ exp`; at `exp = 0`
the loop stops with `result`; so from every state it ends with a value congruent to that
state's `result * base ^ exp`. -/
theorem mod_pow_real_modulus (base exp mod : Int) (hb : 0 ≤ base) (he : 0 ≤ exp)
    (hm : 2 ≤ mod) :
    (mod_pow base exp mod = .ok (base ^ exp.toNat % mod) ∧
      0 ≤ base ^ exp.toNat % mod ∧ base ^ exp.toNat % mod < mod) ∧
    mod_pow base exp mod = .ok (mod_pow_loop mod 1 (base.tmod mod) exp) ∧
    1 * (base.tmod mod) ^ exp.toNat ≡ base ^ exp.toNat [ZMOD mod] ∧
    (∀ r b e : Int, 0 < e →
      0 ≤ e / 2 ∧ e / 2 < e ∧
      mod_pow_loop mod r b e =
        mod_pow_loop mod (if e.tmod 2 = 1 then (r * b).tmod mod else r)
          ((b * b).tmod mod) (e / 2) ∧
      (if e.tmod 2 = 1 then (r * b).tmod mod else r) * ((b * b).tmod mod) ^ (e / 2).toNat
        ≡ r * b ^ e.toNat [ZMOD mod]) ∧
    (∀ r b e : Int, e ≤ 0 → mod_pow_loop mod r b e = r) ∧
    (∀ r b e : Int, 0 ≤ e → mod_pow_loop mod r b e ≡ r * b ^ e.toNat [ZMOD mod]) := by
  have hm0 : 0 < mod := by omega
  refine ⟨⟨?_, Int.emod_nonneg _ hm0.ne', Int.emod_lt_of_pos _ hm0⟩, ?_, ?_, ?_, ?_, ?_⟩
  · rw [mod_pow_eq base exp mod hb he hm0]
    congr 1
    split
    · next h0 =>
      subst h0
      simp only [Int.toNat_zero, pow_zero]
      exact (Int.emod_eq_of_lt (by norm_num) (by omega)).symm
    · rfl
  · unfold mod_pow
    rw [if_neg hm0.ne']
  · rw [one_mul]
    exact (tmod_modEq base mod).pow _
  · intro r b e hpos
    exact ⟨by omega, by omega, mod_pow_loop_pos mod r b e hpos,
      mod_pow_step_invariant mod r b e hpos⟩
  · intro r b e hle
    rw [mod_pow_loop]
    simp [not_lt.mpr hle]
  · intro r b e h0
    exact mod_pow_loop_modEq mod e.toNat r b e rfl h0

/-- Instance of C22 at `mod_pow(3, 10, 7)`, which is `59049 mod 7 = 4`. -/
theorem mod_pow_real_modulus_witness :
    (0 ≤ (3 : Int) ∧ 0 ≤ (10 : Int) ∧ 2 ≤ (7 : Int)) ∧
    mod_pow 3 10 7 = .ok 4 := by
  refine ⟨by decide, ?_⟩
  have h := (mod_pow_real_modulus 3 10 7 (by decide) (by decide) (by decide)).1.1
  have e : (10 : Int).toNat = 10 := rfl
  rw [h, e]
  norm_num

end RSA

/-! ## Small-modulus attack demo -/

namespace RSAAttack

theorem u64_extended_gcd_zero (b : Nat) : extended_gcd 0 b = (b, 0, 1) := by
  rw [extended_gcd]; simp

theorem u64_extended_gcd_step (a b : Nat) (ha : a ≠ 0) (r : Nat × Nat × Nat)
    (hr : extended_gcd (b % a) a = r) :
    extended_gcd a b = (r.1, sub64 r.2.2 (mul64 (b / a) r.2.1), r.2.1) := by
  rw [extended_gcd]; simp [ha, hr]

/-- The wrapped coefficients of `extended_gcd(7, 60)`: `x = 2 ^ 64 - 17`. -/
theorem u64_extended_gcd_7_60 : extended_gcd 7 60 = (1, 18446744073709551599, 2) := by
  have h0 : extended_gcd 0 1 = (1, 0, 1) := u64_extended_gcd_zero 1
  have h1 : extended_gcd 1 3 = (1, 1, 0) :=
    u64_extended_gcd_step 1 3 (by decide) _ h0
  have h2 : extended_gcd 3 4 = (1, 18446744073709551615, 1) :=
    u64_extended_gcd_step 3 4 (by decide) _ h1
  have h3 : extended_gcd 4 7 = (1, 2, 18446744073709551615) :=
    u64_extended_gcd_step 4 7 (by decide) _ h2
  exact u64_extended_gcd_step 7 60 (by decide) _ h3

theorem modexp_loop_zero (m r b : Nat) : modexp_loop m r b 0 = r := by
  rw [modexp_loop]; simp

theorem modexp_loop_step (m r b e : Nat) (he : e ≠ 0) (r' b' e' : Nat)
    (hr : (if e &&& 1 ≠ 0 then mul64 r b % m else r) = r') (hb : mul64 b b % m = b')
    (hexp : e >>> 1 = e') :
    modexp_loop m r b e = modexp_loop m r' b' e' := by
  rw [modexp_loop]; simp only [he, ne_eq, not_false_eq_true, if_true, hr, hb, hexp]

/-- The loop of `modexp(33, 59, 77)`, iteration by iteration. -/
theorem modexp_33_59_77 : modexp 33 59 77 = .ok 66 := by
  have s1 : modexp_loop 77 1 33 59 = modexp_loop 77 33 11 29 :=
    modexp_loop_step 77 1 33 59 (by decide) _ _ _ (by decide) (by decide) (by decide)
  have s2 : modexp_loop 77 33 11 29 = modexp_loop 77 55 44 14 :=
    modexp_loop_step 77 33 11 29 (by decide) _ _ _ (by decide) (by decide) (by decide)
  have s3 : modexp_loop 77 55 44 14 = modexp_loop 77 55 11 7 :=
    modexp_loop_step 77 55 44 14 (by decide) _ _ _ (by decide) (by decide) (by decide)
  have s4 : modexp_loop 77 55 11 7 = modexp_loop 77 66 44 3 :=
    modexp_loop_step 77 55 11 7 (by decide) _ _ _ (by decide) (by decide) (by decide)
  have s5 : modexp_loop 77 66 44 3 = modexp_loop 77 55 11 1 :=
    modexp_loop_step 77 66 44 3 (by decide) _ _ _ (by decide) (by decide) (by decide)
  have s6 : modexp_loop 77 55 11 1 = modexp_loop 77 66 44 0 :=
    modexp_loop_step 77 55 11 1 (by decide) _ _ _ (by decide) (by decide) (by decide)
  unfold modexp
  rw [if_neg (by decide)]
  have hb : 33 % 77 = 33 := by decide
  rw [hb, s1, s2, s3, s4, s5, s6, modexp_loop_zero]

theorem factorize_77 : factorize 77 = .ok (7, 11) := by
  have hs : Nat.sqrt 77 = 8 := by
    symm
    rw [Nat.eq_sqrt]
    decide
  unfold factorize
  rw [hs]
  rfl

theorem modular_inverse_7_60 : modular_inverse 7 60 = .ok (some 59) := by
  unfold modular_inverse
  rw [u64_extended_gcd_7_60]
  rfl

theorem attack_eq (e n ciphertext p q d : Nat) (hf : factorize n = .ok (p, q))
    (hd : modular_inverse e (mul64 (sub64 p 1) (sub64 q 1)) = .ok (some d)) :
    attack e n ciphertext = modexp ciphertext d n := by
  unfold attack
  simp only [hf, hd]

/-- C16 (failing input): `attack(7, 77, 33)` factors `77` as `(7, 11)` and computes
`phi = 60`, but the `u64` coefficient of `extended_gcd` has wrapped to `2 ^ 64 - 17`, whose
remainder modulo `60` is `59`; with `d = 59`, `7 * d` is `53` modulo `60` and the returned
plaintext is `66`, not `33`. -/
theorem attack_7_77_33 :
    factorize 77 = .ok (7, 11) ∧ mul64 (sub64 7 1) (sub64 11 1) = 60 ∧
      modular_inverse 7 60 = .ok (some 59) ∧ (7 * 59) % 60 = 53 ∧
      attack 7 77 33 = .ok 66 := by
  have hphi : mul64 (sub64 7 1) (sub64 11 1) = 60 := by decide
  refine ⟨factorize_77, hphi, modular_inverse_7_60, by decide, ?_⟩
  rw [attack_eq 7 77 33 7 11 59 factorize_77 (by rw [hphi]; exact modular_inverse_7_60)]
  exact modexp_33_59_77

end RSAAttack

/-! ## Magma block cipher -/

namespace Magma

open RSA (Byte)

/-- Swapping the two halves. -/
theorem feistel_round_swap (k : Nat) (L R : Nat) :
    feistel_round k ((feistel_round k (L, R)).2, (feistel_round k (L, R)).1) = (R, L) := by
  simp only [feistel_round]
  rw [Nat.xor_cancel_right]

/-- The rounds as a left fold of `feistel_round` over the keys they use, in order. -/
theorem processBlock_loop_eq_foldl (round_keys : List Nat) (decrypt : Bool) :
    ∀ (rounds i : Nat) (state : Nat × Nat),
      processBlock_loop round_keys decrypt rounds i state =
        ((List.range' i rounds).map
          (fun j => round_keys.getD (if decrypt then 31 - j else j) 0)).foldl
          (fun st k => feistel_round k st) state := by
  intro rounds
  induction rounds with
  | zero => intro i state; rfl
  | succ rounds ih =>
    intro i state
    simp only [processBlock_loop, List.range'_succ, List.map_cons, List.foldl_cons]
    rw [ih]

/-- Running the rounds over the reversed keys on the swapped result undoes them. -/
theorem foldl_feistel_reverse (ks : List Nat) :
    ∀ state : Nat × Nat,
      (ks.reverse).foldl (fun st k => feistel_round k st)
        ((ks.foldl (fun st k => feistel_round k st) state).2,
          (ks.foldl (fun st k => feistel_round k st) state).1) = (state.2, state.1) := by
  induction ks with
  | nil => intro state; rfl
  | cons k ks ih =>
    intro state
    simp only [List.reverse_cons, List.foldl_append, List.foldl_cons, List.foldl_nil]
    rw [ih (feistel_round k state)]
    exact feistel_round_swap k state.1 state.2

theorem keys_forward (rk : List Nat) (h : rk.length = 32) :
    (List.range' 0 32).map (fun j => rk.getD (if false then 31 - j else j) 0) = rk := by
  apply List.ext_getElem
  · simp [h]
  · intro n h1 h2
    have hn : n < 32 := by simpa using h1
    simp only [List.getElem_map, List.getElem_range', Bool.false_eq_true, if_false]
    rw [List.getD_eq_getElem _ _ (by omega)]
    congr 1
    omega

theorem keys_backward (rk : List Nat) (h : rk.length = 32) :
    (List.range' 0 32).map (fun j => rk.getD (if true then 31 - j else j) 0) = rk.reverse := by
  apply List.ext_getElem
  · simp [h]
  · intro n h1 h2
    have hn : n < 32 := by simpa using h1
    simp only [List.getElem_map, List.getElem_range', if_true, List.getElem_reverse]
    rw [List.getD_eq_getElem _ _ (by omega)]
    congr 1
    omega

/-- Every entry of the substitution table is a nibble. -/
theorem SBOX_lt (i j : Nat) : (SBOX.getD i []).getD j 0 < 16 := by
  by_cases hi : i < 8
  · by_cases hj : j < 16
    · have key : ∀ i' : Fin 8, ∀ j' : Fin 16, (SBOX.getD i'.val []).getD j'.val 0 < 16 := by
        decide
      exact key ⟨i, hi⟩ ⟨j, hj⟩
    · have hrow : (SBOX.getD i []).length ≤ j := by
        have key : ∀ i' : Fin 8, (SBOX.getD i'.val []).length = 16 := by decide
        rw [key ⟨i, hi⟩]; omega
      rw [List.getD_eq_default _ _ hrow]; norm_num
  · have : SBOX.getD i [] = [] := List.getD_eq_default _ _ (by simp [SBOX]; omega)
    rw [this]; simp

theorem G_term_lt (x i : Nat) (hx : x < 16) (hi : i < 8) : x <<< (4 * i) < 2 ^ 32 := by
  rw [Nat.shiftLeft_eq]
  have h1 : x * 2 ^ (4 * i) < 2 ^ 4 * 2 ^ (4 * i) :=
    Nat.mul_lt_mul_of_pos_right (by simpa using hx) (by positivity)
  have h2 : 2 ^ 4 * 2 ^ (4 * i) ≤ 2 ^ 32 := by
    rw [← pow_add]
    exact Nat.pow_le_pow_right (by norm_num) (by omega)
  exact lt_of_lt_of_le h1 h2

/-- The round function returns a 32-bit word. -/
theorem G_lt (a k : Nat) : G a k < 2 ^ 32 := by
  unfold G
  have key : ∀ (l : List Nat) (t acc : Nat), (∀ i ∈ l, i < 8) → acc < 2 ^ 32 →
      l.foldl (fun result i =>
        result ||| (((SBOX.getD i []).getD ((t >>> (4 * i)) &&& 0xF) 0) <<< (4 * i))) acc
        < 2 ^ 32 := by
    intro l t
    induction l with
    | nil => intro acc _ h; exact h
    | cons i l ih =>
      intro acc hl h
      rw [List.foldl_cons]
      apply ih
      · intro i' hi'
        exact hl i' (List.mem_cons_of_mem _ hi')
      · exact Nat.or_lt_two_pow h
          (G_term_lt _ i (SBOX_lt _ _) (hl i (List.mem_cons_self _ _)))
  apply key
  · intro i hi
    exact List.mem_range.mp hi
  · norm_num

theorem feistel_round_lt (k : Nat) (state : Nat × Nat) (h1 : state.1 < 2 ^ 32)
    (h2 : state.2 < 2 ^ 32) :
    (feistel_round k state).1 < 2 ^ 32 ∧ (feistel_round k state).2 < 2 ^ 32 :=
  ⟨h2, Nat.xor_lt_two_pow h1 (G_lt _ _)⟩

theorem foldl_feistel_lt (ks : List Nat) :
    ∀ state : Nat × Nat, state.1 < 2 ^ 32 → state.2 < 2 ^ 32 →
      (ks.foldl (fun st k => feistel_round k st) state).1 < 2 ^ 32 ∧
      (ks.foldl (fun st k => feistel_round k st) state).2 < 2 ^ 32 := by
  induction ks with
  | nil => intro state h1 h2; exact ⟨h1, h2⟩
  | cons k ks ih =>
    intro state h1 h2
    rw [List.foldl_cons]
    exact ih _ (feistel_round_lt k state h1 h2).1 (feistel_round_lt k state h1 h2).2

/-- Four bytes packed into a word, as a sum. -/
theorem pack32_eq (b0 b1 b2 b3 : Byte) :
    pack32 b0 b1 b2 b3 = b0.val * 2 ^ 24 + b1.val * 2 ^ 16 + b2.val * 2 ^ 8 + b3.val := by
  have h0 := b0.isLt
  have h1 := b1.isLt
  have h2 := b2.isLt
  have h3 := b3.isLt
  unfold pack32
  rw [Nat.or_assoc, Nat.or_assoc]
  simp only [Nat.shiftLeft_eq]
  have e3 : b2.val * 2 ^ 8 ||| b3.val = b2.val * 2 ^ 8 + b3.val := by
    rw [mul_comm, ← Nat.mul_add_lt_is_or (by omega)]
  have e2 : b1.val * 2 ^ 16 ||| (b2.val * 2 ^ 8 + b3.val) =
      b1.val * 2 ^ 16 + (b2.val * 2 ^ 8 + b3.val) := by
    rw [mul_comm, ← Nat.mul_add_lt_is_or (by omega)]
  have e1 : b0.val * 2 ^ 24 ||| (b1.val * 2 ^ 16 + (b2.val * 2 ^ 8 + b3.val)) =
      b0.val * 2 ^ 24 + (b1.val * 2 ^ 16 + (b2.val * 2 ^ 8 + b3.val)) := by
    rw [mul_comm, ← Nat.mul_add_lt_is_or (by omega)]
  rw [e3, e2, e1]
  ring

theorem pack32_lt (b0 b1 b2 b3 : Byte) : pack32 b0 b1 b2 b3 < 2 ^ 32 := by
  have h0 := b0.isLt
  have h1 := b1.isLt
  have h2 := b2.isLt
  have h3 := b3.isLt
  rw [pack32_eq]
  omega

/-- The bytes of a word, as quotients and remainders. -/
theorem unpack32_eq (w : Nat) :
    unpack32 w = [Fin.ofNat (w / 2 ^ 24 % 256), Fin.ofNat (w / 2 ^ 16 % 256),
      Fin.ofNat (w / 2 ^ 8 % 256), Fin.ofNat (w % 256)] := by
  have hmask : ∀ x : Nat, x &&& 0xFF = x % 256 := by
    intro x
    exact Nat.and_pow_two_sub_one_eq_mod x 8
  unfold unpack32
  simp only [hmask, Nat.shiftRight_eq_div_pow]

theorem unpack32_pack32 (b0 b1 b2 b3 : Byte) :
    unpack32 (pack32 b0 b1 b2 b3) = [b0, b1, b2, b3] := by
  have h0 := b0.isLt
  have h1 := b1.isLt
  have h2 := b2.isLt
  have h3 := b3.isLt
  rw [unpack32_eq, pack32_eq]
  have e0 : (b0.val * 2 ^ 24 + b1.val * 2 ^ 16 + b2.val * 2 ^ 8 + b3.val) / 2 ^ 24 % 256 =
      b0.val := by omega
  have e1 : (b0.val * 2 ^ 24 + b1.val * 2 ^ 16 + b2.val * 2 ^ 8 + b3.val) / 2 ^ 16 % 256 =
      b1.val := by omega
  have e2 : (b0.val * 2 ^ 24 + b1.val * 2 ^ 16 + b2.val * 2 ^ 8 + b3.val) / 2 ^ 8 % 256 =
      b2.val := by omega
  have e3 : (b0.val * 2 ^ 24 + b1.val * 2 ^ 16 + b2.val * 2 ^ 8 + b3.val) % 256 =
      b3.val := by omega
  rw [e0, e1, e2, e3]
  have hb : ∀ b : Byte, (Fin.ofNat b.val : Byte) = b := by
    intro b
    apply Fin.ext
    show b.val % 256 = b.val
    exact Nat.mod_eq_of_lt b.isLt
  rw [hb, hb, hb, hb]

theorem pack32_unpack32 (w : Nat) (hw : w < 2 ^ 32) :
    pack32 ((unpack32 w).getD 0 0) ((unpack32 w).getD 1 0) ((unpack32 w).getD 2 0)
      ((unpack32 w).getD 3 0) = w := by
  rw [unpack32_eq, pack32_eq]
  simp only [List.getD_cons_zero, List.getD_cons_succ]
  have hv : ∀ x : Nat, ((Fin.ofNat (x % 256) : Byte)).val = x % 256 := by
    intro x
    show x % 256 % 256 = x % 256
    exact Nat.mod_mod _ _
  rw [hv, hv, hv, hv]
  omega

/-- A key of 32 bytes gives a schedule of 32 round keys. -/
theorem generateRoundKeys_ok (key : List Byte) (hkey : key.length = 32) :
    ∃ rk : List Nat, generateRoundKeys key = .ok rk ∧ rk.length = 32 := by
  unfold generateRoundKeys
  rw [if_neg (by omega)]
  refine ⟨_, rfl, ?_⟩
  simp

/-- Encrypting then decrypting one block under any 32 round keys gives the block back. -/
theorem processBlock_inverse (rk : List Nat) (hrk : rk.length = 32)
    (b0 b1 b2 b3 b4 b5 b6 b7 : Byte) :
    processBlock (processBlock [b0, b1, b2, b3, b4, b5, b6, b7] rk false) rk true =
      [b0, b1, b2, b3, b4, b5, b6, b7] := by
  have hL := pack32_lt b0 b1 b2 b3
  have hR := pack32_lt b4 b5 b6 b7
  have henc : processBlock [b0, b1, b2, b3, b4, b5, b6, b7] rk false =
      unpack32 (rk.foldl (fun st k => feistel_round k st)
          (pack32 b0 b1 b2 b3, pack32 b4 b5 b6 b7)).2 ++
        unpack32 (rk.foldl (fun st k => feistel_round k st)
          (pack32 b0 b1 b2 b3, pack32 b4 b5 b6 b7)).1 := by
    unfold processBlock
    simp only [List.getD_cons_zero, List.getD_cons_succ]
    rw [processBlock_loop_eq_foldl, keys_forward rk hrk]
  set E := rk.foldl (fun st k => feistel_round k st)
    (pack32 b0 b1 b2 b3, pack32 b4 b5 b6 b7) with hE
  obtain ⟨hE1, hE2⟩ := foldl_feistel_lt rk (pack32 b0 b1 b2 b3, pack32 b4 b5 b6 b7) hL hR
  rw [← hE] at hE1 hE2
  rw [henc]
  -- the decrypting call reads back the two words, swapped
  have hget : ∀ (u v : Nat) (j : Nat), j < 4 →
      (unpack32 u ++ unpack32 v).getD j 0 = (unpack32 u).getD j 0 ∧
      (unpack32 u ++ unpack32 v).getD (4 + j) 0 = (unpack32 v).getD j 0 := by
    intro u v j hj
    have hlen : (unpack32 u).length = 4 := rfl
    constructor
    · exact List.getD_append _ _ _ _ (by rw [hlen]; exact hj)
    · rw [List.getD_append_right _ _ _ _ (by rw [hlen]; omega), hlen]
      congr 1
      omega
  unfold processBlock
  rw [(hget E.2 E.1 0 (by norm_num)).1, (hget E.2 E.1 1 (by norm_num)).1,
    (hget E.2 E.1 2 (by norm_num)).1, (hget E.2 E.1 3 (by norm_num)).1,
    (hget E.2 E.1 0 (by norm_num)).2, (hget E.2 E.1 1 (by norm_num)).2,
    (hget E.2 E.1 2 (by norm_num)).2, (hget E.2 E.1 3 (by norm_num)).2,
    pack32_unpack32 E.2 hE2, pack32_unpack32 E.1 hE1]
  simp only
  rw [processBlock_loop_eq_foldl, keys_backward rk hrk, hE, foldl_feistel_reverse]
  simp only
  rw [unpack32_pack32, unpack32_pack32]
  rfl

/-- C17: for every 32-byte key and every 8-byte block `b`, the key schedule is built and
`processBlock(processBlock(b, rk, false), rk, true) = b`: decrypting with the round keys in
reverse order undoes the 32 rounds of encryption. -/
theorem processBlock_round_trip (key block : List Byte) (hkey : key.length = 32)
    (hblock : block.length = 8) :
    ∃ rk : List Nat, generateRoundKeys key = .ok rk ∧
      processBlock (processBlock block rk false) rk true = block := by
  obtain ⟨rk, hrk, hlen⟩ := generateRoundKeys_ok key hkey
  refine ⟨rk, hrk, ?_⟩
  match block, hblock with
  | [b0, b1, b2, b3, b4, b5, b6, b7], _ =>
    exact processBlock_inverse rk hlen b0 b1 b2 b3 b4 b5 b6 b7

/-- Instance of C17 at the key of 32 bytes `0x01` and the block `Hello123` of the test. -/
theorem processBlock_round_trip_witness :
    ∃ rk : List Nat, generateRoundKeys (List.replicate 32 1) = .ok rk ∧
      processBlock (processBlock [72, 101, 108, 108, 111, 49, 50, 51] rk false) rk true =
        [72, 101, 108, 108, 111, 49, 50, 51] :=
  processBlock_round_trip (List.replicate 32 1) [72, 101, 108, 108, 111, 49, 50, 51]
    (by rfl) (by rfl)

/-! ## PKCS#7 padding of both modules -/

theorem removePKCS7Padding_check_eq (data : List Byte) (pad_len : Byte) :
    ∀ (steps i : Nat), removePKCS7Padding_check data pad_len steps i =
      RSA.remove_padding_check data pad_len steps i := by
  intro steps
  induction steps with
  | zero => intro i; rfl
  | succ steps ih =>
    intro i
    simp only [removePKCS7Padding_check, RSA.remove_padding_check, ih]

/-- On a buffer that is not empty `removePKCS7Padding` returns what `remove_padding`
returns. -/
theorem removePKCS7Padding_of_remove_padding (data out : List Byte) (hne : data ≠ [])
    (h : RSA.remove_padding data = .ok out) : removePKCS7Padding data = .ok out := by
  have hemp : data.isEmpty = false := by
    cases data with
    | nil => exact absurd rfl hne
    | cons a l => rfl
  unfold RSA.remove_padding at h
  unfold removePKCS7Padding
  simp only [hemp, Bool.false_eq_true, if_false, removePKCS7Padding_check_eq] at h ⊢
  split at h
  · cases h
  · next h1 =>
    rw [if_neg h1]
    split at h
    · next h2 =>
      rw [if_pos h2]
      injection h with h
      rw [h]
    · cases h

/-- C18: for every byte sequence `data` and every block size `k` with `1 ≤ k ≤ 255`,
`applyPKCS7Padding(data, k)` and `add_padding(data, k)` are both `data` followed by
`p = k - (len(data) mod k)` bytes equal to `p`, with `1 ≤ p ≤ k` and a length that is a
multiple of `k`, and `removePKCS7Padding`, respectively `remove_padding`, gives `data`
back; padding `TEST` to block size 8 gives 8 bytes, the last four equal to 4. -/
theorem pkcs7_padding_shape (data : List Byte) (k : Nat) (hk1 : 1 ≤ k) (hk : k ≤ 255) :
    applyPKCS7Padding data k =
        .ok (data ++ List.replicate (k - data.length % k) (Fin.ofNat (k - data.length % k))) ∧
      RSA.add_padding data k =
        .ok (data ++ List.replicate (k - data.length % k) (Fin.ofNat (k - data.length % k))) ∧
      (Fin.ofNat (k - data.length % k) : Byte).val = k - data.length % k ∧
      1 ≤ k - data.length % k ∧ k - data.length % k ≤ k ∧
      (data ++ List.replicate (k - data.length % k)
        (Fin.ofNat (k - data.length % k) : Byte)).length % k = 0 ∧
      removePKCS7Padding (data ++ List.replicate (k - data.length % k)
        (Fin.ofNat (k - data.length % k))) = .ok data ∧
      RSA.remove_padding (data ++ List.replicate (k - data.length % k)
        (Fin.ofNat (k - data.length % k))) = .ok data ∧
      applyPKCS7Padding [84, 69, 83, 84] 8 = .ok [84, 69, 83, 84, 4, 4, 4, 4] ∧
      removePKCS7Padding [84, 69, 83, 84, 4, 4, 4, 4] = .ok [84, 69, 83, 84] := by
  have hmod : data.length % k < k := Nat.mod_lt _ (by omega)
  have hp1 : 1 ≤ k - data.length % k := by omega
  have hp255 : k - data.length % k ≤ 255 := by omega
  have hrem := RSA.remove_padding_append_replicate data (k - data.length % k) hp1 hp255
  have hne : data ++ List.replicate (k - data.length % k)
      (Fin.ofNat (k - data.length % k) : Byte) ≠ [] := by
    intro h
    have := congrArg List.length h
    simp at this
    omega
  refine ⟨?_, ?_, ?_, hp1, Nat.sub_le _ _, ?_,
    removePKCS7Padding_of_remove_padding _ _ hne hrem, hrem, rfl, rfl⟩
  · unfold applyPKCS7Padding
    rw [if_neg (by omega)]
  · unfold RSA.add_padding
    rw [if_neg (by omega)]
  · show (k - data.length % k) % 256 = k - data.length % k
    omega
  · rw [List.length_append, List.length_replicate]
    have e : data.length + (k - data.length % k) = k * (data.length / k + 1) := by
      have := Nat.div_add_mod data.length k
      have e1 : k * (data.length / k + 1) = k * (data.length / k) + k := by ring
      omega
    rw [e]
    exact Nat.mul_mod_right _ _

/-- Instance of C18 at `TEST` and block size 8. -/
theorem pkcs7_padding_shape_witness :
    applyPKCS7Padding [84, 69, 83, 84] 8 =
        .ok ([84, 69, 83, 84] ++ List.replicate (8 - ([84, 69, 83, 84] : List Byte).length % 8)
          (Fin.ofNat (8 - ([84, 69, 83, 84] : List Byte).length % 8))) ∧
      RSA.add_padding [84, 69, 83, 84] 8 =
        .ok ([84, 69, 83, 84] ++ List.replicate (8 - ([84, 69, 83, 84] : List Byte).length % 8)
          (Fin.ofNat (8 - ([84, 69, 83, 84] : List Byte).length % 8))) ∧
      (Fin.ofNat (8 - ([84, 69, 83, 84] : List Byte).length % 8) : Byte).val =
        8 - ([84, 69, 83, 84] : List Byte).length % 8 ∧
      1 ≤ 8 - ([84, 69, 83, 84] : List Byte).length % 8 ∧
      8 - ([84, 69, 83, 84] : List Byte).length % 8 ≤ 8 ∧
      (([84, 69, 83, 84] : List Byte) ++
        List.replicate (8 - ([84, 69, 83, 84] : List Byte).length % 8)
        (Fin.ofNat (8 - ([84, 69, 83, 84] : List Byte).length % 8) : Byte)).length % 8 = 0 ∧
      removePKCS7Padding ([84, 69, 83, 84] ++
        List.replicate (8 - ([84, 69, 83, 84] : List Byte).length % 8)
        (Fin.ofNat (8 - ([84, 69, 83, 84] : List Byte).length % 8))) = .ok [84, 69, 83, 84] ∧
      RSA.remove_padding ([84, 69, 83, 84] ++
        List.replicate (8 - ([84, 69, 83, 84] : List Byte).length % 8)
        (Fin.ofNat (8 - ([84, 69, 83, 84] : List Byte).length % 8))) = .ok [84, 69, 83, 84] ∧
      applyPKCS7Padding [84, 69, 83, 84] 8 = .ok [84, 69, 83, 84, 4, 4, 4, 4] ∧
      removePKCS7Padding [84, 69, 83, 84, 4, 4, 4, 4] = .ok [84, 69, 83, 84] :=
  pkcs7_padding_shape [84, 69, 83, 84] 8 (by decide) (by decide)

end Magma

/-! ## Elliptic-curve signatures -/

namespace ECGost

/-- Above `|a|` the depth bound of `extended_gcd_depth` is never reached. -/
theorem extended_gcd_depth_stable :
    ∀ (n : Nat) (a b : Int) (d1 d2 : Nat), a.natAbs = n → n < d1 → n < d2 →
      extended_gcd_depth d1 a b = extended_gcd_depth d2 a b := by
  intro n
  induction n using Nat.strong_induction_on with
  | _ n ih =>
    intro a b d1 d2 hn h1 h2
    obtain ⟨u1, rfl⟩ : ∃ u, d1 = u + 1 := ⟨d1 - 1, by omega⟩
    obtain ⟨u2, rfl⟩ : ∃ u, d2 = u + 1 := ⟨d2 - 1, by omega⟩
    by_cases ha : a = 0
    · simp only [extended_gcd_depth, if_pos ha]
    · have hlt : (b.tmod a).natAbs < n := by
        rw [RSA.natAbs_tmod, ← hn]
        exact Nat.mod_lt _ (Int.natAbs_pos.mpr ha)
      simp only [extended_gcd_depth, if_neg ha]
      rw [ih _ hlt (b.tmod a) a u1 u2 rfl (by omega) (by omega)]

/-- The recursive equation of the source `extended_gcd`. -/
theorem ec_extended_gcd_eq (a b : Int) :
    extended_gcd a b =
      if a = 0 then (b, 0, 1)
      else ((extended_gcd (b.tmod a) a).1,
        (extended_gcd (b.tmod a) a).2.2 - (b.tdiv a) * (extended_gcd (b.tmod a) a).2.1,
        (extended_gcd (b.tmod a) a).2.1) := by
  by_cases ha : a = 0
  · rw [if_pos ha]
    unfold extended_gcd
    simp only [extended_gcd_depth, if_pos ha]
  · have hlt : (b.tmod a).natAbs < a.natAbs := by
      rw [RSA.natAbs_tmod]
      exact Nat.mod_lt _ (Int.natAbs_pos.mpr ha)
    have hstep : extended_gcd a b =
        ((extended_gcd_depth a.natAbs (b.tmod a) a).1,
          (extended_gcd_depth a.natAbs (b.tmod a) a).2.2 -
            (b.tdiv a) * (extended_gcd_depth a.natAbs (b.tmod a) a).2.1,
          (extended_gcd_depth a.natAbs (b.tmod a) a).2.1) := by
      unfold extended_gcd
      simp only [extended_gcd_depth, if_neg ha]
    have hinner : extended_gcd (b.tmod a) a = extended_gcd_depth a.natAbs (b.tmod a) a :=
      extended_gcd_depth_stable _ (b.tmod a) a ((b.tmod a).natAbs + 1) a.natAbs rfl
        (by omega) (by omega)
    rw [if_neg ha, hinner, hstep]

/-- Above `k` the turn bound of `multiply_point_turns` is never reached. -/
theorem multiply_point_turns_stable (c : EllipticCurve) :
    ∀ (n : Nat) (k : Int) (result addend : Option Point) (t1 t2 : Nat),
      k.toNat = n → n ≤ t1 → n ≤ t2 →
      multiply_point_turns c t1 result addend k = multiply_point_turns c t2 result addend k := by
  intro n
  induction n using Nat.strong_induction_on with
  | _ n ih =>
    intro k result addend t1 t2 hk h1 h2
    by_cases hpos : 0 < k
    · obtain ⟨u1, rfl⟩ : ∃ u, t1 = u + 1 := ⟨t1 - 1, by omega⟩
      obtain ⟨u2, rfl⟩ : ∃ u, t2 = u + 1 := ⟨t2 - 1, by omega⟩
      simp only [multiply_point_turns, if_pos hpos]
      cases (if k % 2 = 1 then add_points c result addend else Except.ok result) with
      | error e => rfl
      | ok r' =>
        cases add_points c addend addend with
        | error e => rfl
        | ok a' =>
          exact ih (k / 2).toNat (by omega) (k / 2) r' a' u1 u2 rfl (by omega) (by omega)
    · cases t1 <;> cases t2 <;> simp only [multiply_point_turns, if_neg hpos]

/-- The loop of the source `multiply_point`: one turn at `k > 0`, exit otherwise. -/
theorem multiply_point_loop_eq (c : EllipticCurve) (result addend : Option Point) (k : Int) :
    multiply_point_loop c result addend k =
      if 0 < k then
        match (if k % 2 = 1 then add_points c result addend else .ok result) with
        | .error err => .error err
        | .ok result' =>
          match add_points c addend addend with
          | .error err => .error err
          | .ok addend' => multiply_point_loop c result' addend' (k / 2)
      else
        .ok result := by
  unfold multiply_point_loop
  by_cases hpos : 0 < k
  · obtain ⟨u, hu⟩ : ∃ u, k.toNat = u + 1 := ⟨k.toNat - 1, by omega⟩
    rw [hu]
    simp only [multiply_point_turns, if_pos hpos]
    cases (if k % 2 = 1 then add_points c result addend else Except.ok result) with
    | error e => rfl
    | ok r' =>
      cases add_points c addend addend with
      | error e => rfl
      | ok a' =>
        exact multiply_point_turns_stable c (k / 2).toNat (k / 2) r' a' u (k / 2).toNat rfl
          (by omega) le_rfl
  · rw [if_neg hpos]
    cases k.toNat <;> simp only [multiply_point_turns, if_neg hpos]

/-- What the code computes for the multiples `k * G`, `k = 0..19`, of the demo base point.
On the curve the multiples `6 G`, `7 G`, `14 G`, `15 G` are `(16, 13)`, `(0, 6)`, `(9, 1)`,
`(3, 16)`. -/
theorem multiply_point_demo_table :
    (List.range 20).map (fun k => multiply_point demo_curve demo_G (k : Int)) =
      [.ok none, .ok (some (5, 1)), .ok (some (6, 3)), .ok (some (10, 6)), .ok (some (3, 1)),
        .ok (some (9, 16)), .ok none, .ok none, .ok (some (13, 7)), .ok (some (7, 6)),
        .ok (some (7, 11)), .ok (some (13, 10)), .ok (some (0, 11)), .ok (some (16, 4)),
        .ok (some (13, 7)), .ok (some (13, 7)), .ok (some (10, 11)), .ok (some (6, 14)),
        .ok (some (5, 16)), .ok none] := rfl

/-- The defect behind the lost multiples: `(3 - 6) % 17` is `-3`, `extended_gcd(-3, 17)`
returns the gcd `-1`, and `mod_inverse` answers `nullopt` although `-3 * 11` is `1`
modulo `17`; the sum of `2 G = (6, 3)` and `4 G = (3, 1)` comes out as the point at
infinity. -/
theorem mod_inverse_negative_operand :
    ((3 : Int) - 6).tmod 17 = -3 ∧ extended_gcd (-3) 17 = (-1, 6, 1) ∧
      mod_inverse (-3) 17 = .ok none ∧ ((-3 : Int) * 11) % 17 = 1 ∧
      add_points demo_curve (some (6, 3)) (some (3, 1)) = .ok none :=
  ⟨rfl, rfl, rfl, rfl, rfl⟩

/-- Two further signatures that are rejected.  Message `Hello` with key `d = 2`,
`Q = (6, 3)`, nonce `1`: signature `(5, 11)`.  The empty message, whose digest starts
`e3 b0 c4 42`: `h = -474954686`, `e = h % 19 = -1`, and `mod_inverse(-1, 19)` is `nullopt`,
so with `d = 1`, nonce `1`, the signature `(5, 4)` is rejected. -/
theorem verify_signature_further_rejections :
    (multiply_point demo_curve demo_G 2 = .ok (some (6, 3)) ∧
      is_point_on_curve demo_curve (6, 3) = .ok true ∧
      sign_message 408915379 demo_curve demo_G demo_q 2 [1] = .ok (some (5, 11)) ∧
      verify_signature 408915379 (5, 11) demo_curve demo_G demo_q (6, 3) = .ok false) ∧
    (hash_fold [0xe3, 0xb0, 0xc4, 0x42] = -474954686 ∧
      hash_exponent (-474954686) demo_q = -1 ∧ mod_inverse (-1) demo_q = .ok none ∧
      sign_message (-474954686) demo_curve demo_G demo_q 1 [1] = .ok (some (5, 4)) ∧
      verify_signature (-474954686) (5, 4) demo_curve demo_G demo_q (5, 1) = .ok false) :=
  ⟨⟨rfl, rfl, rfl, rfl⟩, ⟨by decide, rfl, rfl, rfl, rfl⟩⟩

/-- Not every signature is lost: for the message `Hello` and the key `d = 1` the nonce
`k = 2` gives the signature `(6, 8)`, which is accepted. -/
theorem verify_signature_accepts_sample :
    sign_message 408915379 demo_curve demo_G demo_q 1 [2] = .ok (some (6, 8)) ∧
      verify_signature 408915379 (6, 8) demo_curve demo_G demo_q (5, 1) = .ok true :=
  ⟨rfl, rfl⟩

/-- C23 (failing input): message `Hello`, whose SHA-256 digest starts `18 5f 8d b3`, so
`h = 408915379` and `e = h % 19 = 1`; private key `d = 1`, whose public key
`Q = multiply_point(G, 1) = (5, 1)` is on the curve; nonce `k = 1`.  `sign_message` returns
`(r, s) = (5, 6)` and `verify_signature` rejects it for the same message under `Q`: with
`v = 1`, `z1 = 6` and `z2 = 14` it computes `multiply_point(G, 6) = nullopt` and
`multiply_point(Q, 14) = (13, 7)`, whose sum has the abscissa `13`, not `5`. -/
theorem verify_signature_rejects_signed :
    hash_fold [0x18, 0x5f, 0x8d, 0xb3] = 408915379 ∧
    hash_exponent 408915379 demo_q = 1 ∧
    multiply_point demo_curve demo_G 1 = .ok (some (5, 1)) ∧
    is_point_on_curve demo_curve (5, 1) = .ok true ∧
    sign_message 408915379 demo_curve demo_G demo_q 1 [1] = .ok (some (5, 6)) ∧
    mod_inverse 1 demo_q = .ok (some 1) ∧
    multiply_point demo_curve demo_G 6 = .ok none ∧
    multiply_point demo_curve (5, 1) 14 = .ok (some (13, 7)) ∧
    verify_signature 408915379 (5, 6) demo_curve demo_G demo_q (5, 1) = .ok false :=
  ⟨by decide, rfl, rfl, rfl, rfl, rfl, rfl, rfl, rfl⟩

end ECGost
